import Mathlib

/-!
# NaturalLI: the search loop of `src/Search.cc`, the graphs of `src/Graph.cc`
and the packed records of `src/SynSearch.h`

A shallow embedding of the legacy search engine (`Path`, `BreadthFirstSearch`,
`CacheStrategyNone` and the function `Search`), of `InMemoryGraph` and
`BidirectionalGraph`, and of the tree, search node and channel declarations,
together with the properties of them that the specification states.

Conventions of the embedding.

* Machine integers are natural numbers; the 64-bit counter `nextId` wraps
  explicitly (`% 2 ^ 64`).  The tick counter `time` is only incremented while
  `time < timeout`, so it never wraps and carries no reduction.
* A `word` array together with its length (`fact`, `factLength`) is a list:
  `factLength` is the length of the list.  Reading a `word*` argument of
  `factLength` words is `copyWords`.
* The mutable collaborators of `Search` (fringe, cache, the global `nextId`)
  are passed explicitly and returned in the final `SearchState`.
* The calls that `Search` makes on the fringe and on the cache are recorded,
  in call order, in the `trace` component of the state.
* An access outside an array or vector has no defined result: the operation
  returns `none`.
* An assignment to a bit field of `w` bits keeps the value `% 2 ^ w`.
* Methods that are declared in the sources at hand and defined elsewhere
  (`Tree::hash`, `Channel::push`, `Channel::poll`, the classes of `Trie.h`) are
  modelled from the specification; each such definition says so in its comment.
  For the channel the single accesses of the two threads are taken as atomic
  and seen in order; the memory ordering between threads is not expressed.
-/

namespace NaturalLI

/-! ## Data model -/

/-- Modelled from the spec: the `edge` record of the mutation graph, declared in
`Graph.h` (not part of the sources at hand).  Section 6.1 of the specification
lists the fields `source, source_sense, sink, sink_sense, type, cost`; the cost
is kept as its raw bit pattern because `Search` never reads it. -/
structure edge where
  source : Nat
  source_sense : Nat
  sink : Nat
  sink_sense : Nat
  type : Nat
  cost : Nat
deriving DecidableEq, Repr

/-- The class `Path` of `Search.cc`: fields `id`, `sourceId`, `edgeType`,
`factLength` and the array `fact`, of which only the first `factLength` entries
are ever written or read.  The pair (`fact`, `factLength`) is the list `fact`. -/
structure Path where
  id : Nat
  sourceId : Nat
  edgeType : Nat
  fact : List Nat
deriving DecidableEq, Repr

/-- The field `factLength` of a path. -/
def Path.factLength (p : Path) : Nat := p.fact.length

/-- The copy loop shared by every constructor:
`for (int i = 0; i < factLength; ++i) this->fact[i] = fact[i];`. -/
def copyWords (fact : List Nat) (factLength : Nat) : List Nat :=
  (List.range factLength).map (fun i => fact.getD i 0)

/-- The function `generateUniqueId`, whose whole body is `nextId++;`.  The
global counter is incremented (64-bit), and the body has no `return` statement:
the value that the caller reads is not determined by the source.  It is the
parameter `observed`, a function of the counter before the increment, reduced
to 64 bits.  The result is the pair (value read by the caller, new `nextId`). -/
def generateUniqueId (observed : Nat → Nat) (nextId : Nat) : Nat × Nat :=
  (observed nextId % 2 ^ 64, (nextId + 1) % 2 ^ 64)

/-- The constructor `Path(id, source, fact, factLength, edgeType)`. -/
def Path.withId (id source : Nat) (fact : List Nat) (factLength : Nat)
    (edgeType : Nat) : Path :=
  { id := id, sourceId := source, edgeType := edgeType, fact := copyWords fact factLength }

/-- The constructor `Path(source, fact, factLength, edgeType)` taking a source id;
returns the path and the new `nextId`. -/
def Path.fromSourceId (observed : Nat → Nat) (nextId : Nat) (source : Nat)
    (fact : List Nat) (factLength : Nat) (edgeType : Nat) : Path × Nat :=
  ({ id := (generateUniqueId observed nextId).1, sourceId := source,
     edgeType := edgeType, fact := copyWords fact factLength },
   (generateUniqueId observed nextId).2)

/-- The child constructor `Path(const Path& source, fact, factLength, edgeType)`;
returns the path and the new `nextId`. -/
def Path.child (observed : Nat → Nat) (nextId : Nat) (source : Path)
    (fact : List Nat) (factLength : Nat) (edgeType : Nat) : Path × Nat :=
  ({ id := (generateUniqueId observed nextId).1, sourceId := source.id,
     edgeType := edgeType, fact := copyWords fact factLength },
   (generateUniqueId observed nextId).2)

/-- The root constructor `Path(fact, factLength)`; returns the path and the new
`nextId`. -/
def Path.root (observed : Nat → Nat) (nextId : Nat) (fact : List Nat)
    (factLength : Nat) : Path × Nat :=
  ({ id := (generateUniqueId observed nextId).1, sourceId := 0,
     edgeType := 255, fact := copyWords fact factLength },
   (generateUniqueId observed nextId).2)

/-- The copy constructor `Path(const Path& copy)`. -/
def Path.copy (copy : Path) : Path :=
  { id := copy.id, sourceId := copy.sourceId, edgeType := copy.edgeType,
    fact := copyWords copy.fact copy.factLength }

/-- A value of type `Path*` as returned by `findPathById` and `Path::source`:
either `NULL` or the address of the slot `i` of the id table of the fringe. -/
inductive PathPtr where
  | null : PathPtr
  | slot (i : Nat) : PathPtr
deriving DecidableEq, Repr

/-- The abstract class `SearchType` as `Search.cc` uses it, over a fringe state
`σ`.  `pop` is `none` where the implementation has no defined result (the front
of an empty queue). -/
structure SearchType (σ : Type) where
  push : σ → Path → σ
  pop : σ → Option (Path × σ)
  isEmpty : σ → Bool
  findPathById : σ → Nat → PathPtr

/-- The method `Path::source`: `NULL` when `sourceId == 0`, otherwise
`queue.findPathById(sourceId)`. -/
def Path.source {σ : Type} (p : Path) (F : SearchType σ) (queue : σ) : PathPtr :=
  if p.sourceId = 0 then PathPtr.null else F.findPathById queue p.sourceId

/-! ## BreadthFirstSearch -/

/-- The class `BreadthFirstSearch`: the queue `impl` (front first) and the table
`id2path`. -/
structure BreadthFirstSearch where
  impl : List Path
  id2path : List Path
deriving DecidableEq, Repr

/-- The constructor `BreadthFirstSearch()`: an empty queue and an empty table. -/
def BreadthFirstSearch.create : BreadthFirstSearch :=
  { impl := [], id2path := [] }

/-- The loop `while (id2path.size() <= toAdd.id) id2path.push_back(toAdd);`. -/
def BreadthFirstSearch.grow (id2path : List Path) (toAdd : Path) : List Path :=
  id2path ++ List.replicate (toAdd.id + 1 - id2path.length) (Path.copy toAdd)

/-- The method `BreadthFirstSearch::push`. -/
def BreadthFirstSearch.push (q : BreadthFirstSearch) (toAdd : Path) : BreadthFirstSearch :=
  { impl := q.impl ++ [Path.copy toAdd],
    id2path := (BreadthFirstSearch.grow q.id2path toAdd).set toAdd.id (Path.copy toAdd) }

/-- The method `BreadthFirstSearch::pop`: the front element is copied and removed.
On an empty queue `impl->front()` has no defined result. -/
def BreadthFirstSearch.pop (q : BreadthFirstSearch) : Option (Path × BreadthFirstSearch) :=
  match q.impl with
  | [] => none
  | frontElement :: rest => some (Path.copy frontElement, { q with impl := rest })

/-- The method `BreadthFirstSearch::isEmpty`. -/
def BreadthFirstSearch.isEmpty (q : BreadthFirstSearch) : Bool :=
  q.impl.isEmpty

/-- The method `BreadthFirstSearch::findPathById`: the address `&id2path[id]`. -/
def BreadthFirstSearch.findPathById (_q : BreadthFirstSearch) (id : Nat) : PathPtr :=
  PathPtr.slot id

/-- Reading through a `Path*` that points into `id2path`; a slot outside the
table holds no path. -/
def BreadthFirstSearch.deref (q : BreadthFirstSearch) : PathPtr → Option Path
  | PathPtr.null => none
  | PathPtr.slot i => q.id2path[i]?

/-- `BreadthFirstSearch` as a `SearchType`. -/
def bfs : SearchType BreadthFirstSearch :=
  { push := BreadthFirstSearch.push,
    pop := BreadthFirstSearch.pop,
    isEmpty := BreadthFirstSearch.isEmpty,
    findPathById := BreadthFirstSearch.findPathById }

/-! ## Cache strategies -/

/-- The abstract class `CacheStrategy` as `Search.cc` uses it, over a cache state
`κ`.  Neither method is `const` in `Search.cc`, so `isSeen` may change the
state. -/
structure CacheStrategy (κ : Type) where
  isSeen : κ → Path → Bool × κ
  add : κ → Path → κ

/-- The method `CacheStrategyNone::isSeen`: `return false;`. -/
def CacheStrategyNone.isSeen (c : Unit) (_p : Path) : Bool × Unit := (false, c)

/-- The method `CacheStrategyNone::add`: an empty body. -/
def CacheStrategyNone.add (c : Unit) (_p : Path) : Unit := c

/-- The class `CacheStrategyNone` (it has no data members) as a `CacheStrategy`. -/
def cacheStrategyNone : CacheStrategy Unit :=
  { isSeen := CacheStrategyNone.isSeen, add := CacheStrategyNone.add }

/-! ## Collaborators of Search -/

/-- Modelled from the spec: the part of the class `Graph` (declared in `Graph.h`,
not part of the sources at hand) that `Search` calls, `outgoingEdges(word)`,
a read-only list of edges per source word (section 6.1). -/
structure Graph where
  outgoingEdges : Nat → List edge

/-- Modelled from the spec: the part of the class `FactDB` (declared in
`FactDB.h`, not part of the sources at hand) that `Search` calls,
`contains(fact, factLength)`, read-only (section 6.2). -/
structure FactDB where
  contains : List Nat → Nat → Bool

/-! ## The function Search -/

/-- One call made by `Search` on the fringe or on the cache, or one result
stored in `responses`. -/
inductive Event where
  | push (p : Path) : Event
  | pop (p : Path) : Event
  | cacheAdd (p : Path) : Event
  | isSeen (p : Path) (seen : Bool) : Event
  | respond (p : Path) : Event
deriving DecidableEq, Repr

/-- The two `std::exit(1)` branches inside the loop of `Search`, and a `pop`
without a defined result. -/
inductive Abort where
  | emptyFringe : Abort
  | timeExceeded : Abort
  | undefinedPop : Abort
deriving DecidableEq, Repr

/-- The variables of `Search` during the loop: the fringe, the cache, `time`,
`responses`, the global `nextId`, and the trace of calls made so far. -/
structure SearchState (σ κ : Type) where
  fringe : σ
  cache : κ
  time : Nat
  responses : List Path
  nextId : Nat
  trace : List Event

/-- The array `mutated` built in the innermost loop body: the fact of the parent
with the entry at `indexToMutate` replaced by the sink of the edge. -/
def mutatedFact (parent : Path) (indexToMutate sink : Nat) : List Nat :=
  (List.range parent.factLength).map
    (fun i => if i = indexToMutate then sink else parent.fact.getD i 0)

/-- The body of the loop over the edges `it` of one index (lines 226-249 of
`Search.cc`). -/
def expandEdge {σ κ : Type} (observed : Nat → Nat) (F : SearchType σ) (C : CacheStrategy κ)
    (parent : Path) (indexToMutate : Nat) (st : SearchState σ κ) (it : edge) :
    SearchState σ κ :=
  if it.type = 9 then st
  else
    if (C.isSeen st.cache
          (Path.child observed st.nextId parent
            (mutatedFact parent indexToMutate it.sink) parent.factLength it.type).1).1 = false then
      { st with
        fringe := F.push st.fringe
          (Path.child observed st.nextId parent
            (mutatedFact parent indexToMutate it.sink) parent.factLength it.type).1,
        cache := (C.isSeen st.cache
          (Path.child observed st.nextId parent
            (mutatedFact parent indexToMutate it.sink) parent.factLength it.type).1).2,
        nextId := (Path.child observed st.nextId parent
            (mutatedFact parent indexToMutate it.sink) parent.factLength it.type).2,
        trace := st.trace ++
          [Event.isSeen (Path.child observed st.nextId parent
              (mutatedFact parent indexToMutate it.sink) parent.factLength it.type).1 false,
           Event.push (Path.child observed st.nextId parent
              (mutatedFact parent indexToMutate it.sink) parent.factLength it.type).1] }
    else
      { st with
        cache := (C.isSeen st.cache
          (Path.child observed st.nextId parent
            (mutatedFact parent indexToMutate it.sink) parent.factLength it.type).1).2,
        nextId := (Path.child observed st.nextId parent
            (mutatedFact parent indexToMutate it.sink) parent.factLength it.type).2,
        trace := st.trace ++
          [Event.isSeen (Path.child observed st.nextId parent
              (mutatedFact parent indexToMutate it.sink) parent.factLength it.type).1 true] }

/-- The body of the loop over `indexToMutate`: the loop over
`graph->outgoingEdges(parent.fact[indexToMutate])`. -/
def expandIndex {σ κ : Type} (observed : Nat → Nat) (graph : Graph) (F : SearchType σ)
    (C : CacheStrategy κ) (parent : Path) (st : SearchState σ κ) (indexToMutate : Nat) :
    SearchState σ κ :=
  (graph.outgoingEdges (parent.fact.getD indexToMutate 0)).foldl
    (expandEdge observed F C parent indexToMutate) st

/-- The section "Mutations" of the loop body:
`for (indexToMutate = 0; indexToMutate < parent.factLength; ++indexToMutate)`. -/
def expand {σ κ : Type} (observed : Nat → Nat) (graph : Graph) (F : SearchType σ)
    (C : CacheStrategy κ) (parent : Path) (st : SearchState σ κ) : SearchState σ κ :=
  (List.range parent.factLength).foldl (expandIndex observed graph F C parent) st

/-- The state after the pop, the cache add and the fact check on `parent`,
before the mutations (lines 189-213 of `Search.cc`). -/
def afterPop {σ κ : Type} (knownFacts : FactDB) (C : CacheStrategy κ)
    (s : SearchState σ κ) (parent : Path) (rest : σ) : SearchState σ κ :=
  if knownFacts.contains parent.fact parent.factLength = true then
    { fringe := rest, cache := C.add s.cache parent, time := s.time + 1,
      responses := s.responses ++ [Path.copy parent], nextId := s.nextId,
      trace := s.trace ++ [Event.pop parent, Event.cacheAdd parent,
        Event.respond (Path.copy parent)] }
  else
    { fringe := rest, cache := C.add s.cache parent, time := s.time + 1,
      responses := s.responses, nextId := s.nextId,
      trace := s.trace ++ [Event.pop parent, Event.cacheAdd parent] }

/-- One execution of the body of the `while` loop of `Search` (one tick). -/
def tick {σ κ : Type} (observed : Nat → Nat) (graph : Graph) (knownFacts : FactDB)
    (F : SearchType σ) (C : CacheStrategy κ) (timeout : Nat) (s : SearchState σ κ) :
    Except Abort (SearchState σ κ) :=
  if F.isEmpty s.fringe = true then Except.error Abort.emptyFringe
  else if s.time ≥ timeout then Except.error Abort.timeExceeded
  else
    match F.pop s.fringe with
    | none => Except.error Abort.undefinedPop
    | some (parent, rest) =>
      Except.ok (expand observed graph F C parent (afterPop knownFacts C s parent rest))

/-- The loop `while (!fringe->isEmpty() && time < timeout)`.  Each iteration
increments `time`, so at most `timeout - time` iterations run; the first
argument is that bound, and `searchLoop_exit` shows that the loop is only left
through its guard. -/
def searchLoop {σ κ : Type} (observed : Nat → Nat) (graph : Graph) (knownFacts : FactDB)
    (F : SearchType σ) (C : CacheStrategy κ) (timeout : Nat) :
    Nat → SearchState σ κ → Except Abort (SearchState σ κ)
  | 0, s => Except.ok s
  | n + 1, s =>
    if F.isEmpty s.fringe = false ∧ s.time < timeout then
      match tick observed graph knownFacts F C timeout s with
      | Except.error a => Except.error a
      | Except.ok s1 => searchLoop observed graph knownFacts F C timeout n s1
    else Except.ok s

/-- The state of `Search` when the loop is entered: the start state has been
built and pushed, `time = 0`, `responses` is empty. -/
def searchStart {σ κ : Type} (observed : Nat → Nat) (queryFact : List Nat)
    (queryFactLength : Nat) (F : SearchType σ) (fringe : σ) (cache : κ) (nextId : Nat) :
    SearchState σ κ :=
  { fringe := F.push fringe (Path.root observed nextId queryFact queryFactLength).1,
    cache := cache, time := 0, responses := [],
    nextId := (Path.root observed nextId queryFact queryFactLength).2,
    trace := [Event.push (Path.root observed nextId queryFact queryFactLength).1] }

/-- The function `Search`.  The vector it returns is the component `responses`
of the final state; the other components are the fringe, the cache and the
global counter as the call leaves them. -/
def Search {σ κ : Type} (observed : Nat → Nat) (graph : Graph) (knownFacts : FactDB)
    (queryFact : List Nat) (queryFactLength : Nat) (F : SearchType σ) (fringe : σ)
    (C : CacheStrategy κ) (cache : κ) (timeout : Nat) (nextId : Nat) :
    Except Abort (SearchState σ κ) :=
  searchLoop observed graph knownFacts F C timeout timeout
    (searchStart observed queryFact queryFactLength F fringe cache nextId)

/-! ## Reading a trace -/

/-- The path of a pop event. -/
def Event.popped : Event → Option Path
  | Event.pop p => some p
  | _ => none

/-- The path of a push event. -/
def Event.pushed : Event → Option Path
  | Event.push p => some p
  | _ => none

/-- The path of a cache add event. -/
def Event.added : Event → Option Path
  | Event.cacheAdd p => some p
  | _ => none

/-- The paths popped from the fringe, in pop order. -/
def pops (t : List Event) : List Path := t.filterMap Event.popped

/-- The paths pushed on the fringe, in push order. -/
def pushes (t : List Event) : List Path := t.filterMap Event.pushed

/-- The paths passed to `cache->add`, in call order. -/
def cacheAdds (t : List Event) : List Path := t.filterMap Event.added

/-! ## Two behaviours of the missing return of generateUniqueId -/

/-- A build in which the call leaves the incremented counter in its result. -/
def observedCounter (nextId : Nat) : Nat := nextId + 1

/-- A build in which the call leaves zero in its result. -/
def observedZero (_nextId : Nat) : Nat := 0

/-! ## The mock scenario: potto, lemur, animal -/

/-- Modelled from the spec: the word id of "potto"; the constants of `Config.h`
are not part of the sources at hand, and the scenario only needs three distinct
ids. -/
def POTTO : Nat := 1

/-- Modelled from the spec: the word id of "lemur" (see `POTTO`). -/
def LEMUR : Nat := 2

/-- Modelled from the spec: the word id of "animal" (see `POTTO`). -/
def ANIMAL : Nat := 3

/-- The mutation graph whose only edges are potto to lemur and lemur to animal,
both of type 0 (scenario E6 of the specification). -/
def mockGraph : Graph :=
  { outgoingEdges := fun w =>
      if w = POTTO then
        [{ source := POTTO, source_sense := 0, sink := LEMUR, sink_sense := 0, type := 0, cost := 0 }]
      else if w = LEMUR then
        [{ source := LEMUR, source_sense := 0, sink := ANIMAL, sink_sense := 0, type := 0, cost := 0 }]
      else [] }

/-- The fact database that contains exactly the fact `[animal]`. -/
def mockFacts : FactDB :=
  { contains := fun fact factLength => decide (fact = [ANIMAL] ∧ factLength = 1) }

/-- The run of scenario E6: query `[potto]`, a new `BreadthFirstSearch`,
`CacheStrategyNone`, timeout 64, the counter at its initial value 1. -/
def mockSearch (observed : Nat → Nat) : Except Abort (SearchState BreadthFirstSearch Unit) :=
  Search observed mockGraph mockFacts [POTTO] 1 bfs BreadthFirstSearch.create
    cacheStrategyNone () 64 1

/-- The final state of `mockSearch observedCounter`: three ticks, one response. -/
def mockFinal : SearchState BreadthFirstSearch Unit :=
  { fringe :=
      { impl := [],
        id2path := [⟨2, 0, 255, [POTTO]⟩, ⟨2, 0, 255, [POTTO]⟩, ⟨2, 0, 255, [POTTO]⟩,
          ⟨3, 2, 0, [LEMUR]⟩, ⟨4, 3, 0, [ANIMAL]⟩] },
    cache := (), time := 3, responses := [⟨4, 3, 0, [ANIMAL]⟩], nextId := 4,
    trace := [Event.push ⟨2, 0, 255, [POTTO]⟩, Event.pop ⟨2, 0, 255, [POTTO]⟩,
      Event.cacheAdd ⟨2, 0, 255, [POTTO]⟩, Event.isSeen ⟨3, 2, 0, [LEMUR]⟩ false,
      Event.push ⟨3, 2, 0, [LEMUR]⟩, Event.pop ⟨3, 2, 0, [LEMUR]⟩,
      Event.cacheAdd ⟨3, 2, 0, [LEMUR]⟩, Event.isSeen ⟨4, 3, 0, [ANIMAL]⟩ false,
      Event.push ⟨4, 3, 0, [ANIMAL]⟩, Event.pop ⟨4, 3, 0, [ANIMAL]⟩,
      Event.cacheAdd ⟨4, 3, 0, [ANIMAL]⟩, Event.respond ⟨4, 3, 0, [ANIMAL]⟩] }

/-- The final state of `mockSearch observedZero`: every path has id 0. -/
def mockFinalZero : SearchState BreadthFirstSearch Unit :=
  { fringe := { impl := [], id2path := [⟨0, 0, 0, [ANIMAL]⟩] },
    cache := (), time := 3, responses := [⟨0, 0, 0, [ANIMAL]⟩], nextId := 4,
    trace := [Event.push ⟨0, 0, 255, [POTTO]⟩, Event.pop ⟨0, 0, 255, [POTTO]⟩,
      Event.cacheAdd ⟨0, 0, 255, [POTTO]⟩, Event.isSeen ⟨0, 0, 0, [LEMUR]⟩ false,
      Event.push ⟨0, 0, 0, [LEMUR]⟩, Event.pop ⟨0, 0, 0, [LEMUR]⟩,
      Event.cacheAdd ⟨0, 0, 0, [LEMUR]⟩, Event.isSeen ⟨0, 0, 0, [ANIMAL]⟩ false,
      Event.push ⟨0, 0, 0, [ANIMAL]⟩, Event.pop ⟨0, 0, 0, [ANIMAL]⟩,
      Event.cacheAdd ⟨0, 0, 0, [ANIMAL]⟩, Event.respond ⟨0, 0, 0, [ANIMAL]⟩] }

/-! ## Vocabulary of the properties -/

/-- The path of a cache query that answered "not seen". -/
def Event.notSeen : Event → Option Path
  | Event.isSeen p false => some p
  | _ => none

/-- The successors that the cache reported as not seen, in call order. -/
def notSeens (t : List Event) : List Path := t.filterMap Event.notSeen

/-- The path `p` is a successor that the section "Mutations" builds from `parent`:
some position of the fact of `parent` and some outgoing edge of the word at that
position, of a type other than 9, give the fact, the edge type and the source id
of `p`. -/
def IsSuccessor (graph : Graph) (parent p : Path) : Prop :=
  ∃ i it, i < parent.factLength ∧ it ∈ graph.outgoingEdges (parent.fact.getD i 0) ∧
    it.type ≠ 9 ∧ p.fact = mutatedFact parent i it.sink ∧ p.edgeType = it.type ∧
    p.sourceId = parent.id

/-- Every push in the trace other than the first one (the start state) comes
after a cache add of the same path. -/
def RecordedBeforePush (t : List Event) : Prop :=
  ∀ pre p post, t = pre ++ Event.push p :: post → pre ≠ [] → Event.cacheAdd p ∈ pre

/-- The path of a cache query: every successor that was built is queried once. -/
def Event.queried : Event → Option Path
  | Event.isSeen p _ => some p
  | _ => none

/-- The successors built by `Search`, in order. -/
def isSeens (t : List Event) : List Path := t.filterMap Event.queried

/-- Following `Path::source` through the id table of the queue `q` from a path
reaches, after finitely many steps, a path with source id 0 whose fact is
`queryWords`, and every step goes from a successor to the path it was built
from. -/
inductive ReachesQuery (graph : Graph) (q : BreadthFirstSearch) (queryWords : List Nat) :
    Path → Prop where
  | root (p : Path) : p.sourceId = 0 → p.fact = queryWords →
      ReachesQuery graph q queryWords p
  | step (p parent : Path) : p.sourceId ≠ 0 →
      q.deref (Path.source p bfs q) = some parent → IsSuccessor graph parent p →
      ReachesQuery graph q queryWords parent → ReachesQuery graph q queryWords p

/-- The state of a run of `Search` on a `BreadthFirstSearch` in which every id read
from `generateUniqueId` is the incremented counter: the counter has advanced once
per path built, every pushed path sits in the slot of its id, every waiting or
popped path was pushed, and every pushed path but the first is a successor of a
pushed path with a smaller id. -/
structure CounterIds {κ : Type} (graph : Graph) (nextId : Nat) (start : Path)
    (s : SearchState BreadthFirstSearch κ) : Prop where
  counter : s.nextId = nextId + 1 + (isSeens s.trace).length
  slots : ∀ p ∈ pushes s.trace,
    nextId < p.id ∧ p.id ≤ s.nextId ∧ s.fringe.id2path[p.id]? = some p
  waiting : ∀ p ∈ s.fringe.impl, p ∈ pushes s.trace
  parents : ∃ l, pushes s.trace = start :: l ∧
    ∀ p ∈ l, ∃ parent ∈ pushes s.trace, IsSuccessor graph parent p ∧ parent.id < p.id
  popped : ∀ p ∈ pops s.trace, p ∈ pushes s.trace

/-- A call on a `BreadthFirstSearch`: `push(p)` or `pop()`. -/
inductive BfsOp where
  | push (p : Path) : BfsOp
  | pop : BfsOp
deriving DecidableEq, Repr

/-- The paths pushed by a sequence of calls, in call order. -/
def pushedPaths : List BfsOp → List Path
  | [] => []
  | BfsOp.push p :: ops => p :: pushedPaths ops
  | BfsOp.pop :: ops => pushedPaths ops

/-- The number of pops in a sequence of calls. -/
def popCount : List BfsOp → Nat
  | [] => 0
  | BfsOp.push _ :: ops => popCount ops
  | BfsOp.pop :: ops => popCount ops + 1

/-- Run a sequence of calls on a queue.  The result is the final queue and the
paths returned by the pops, in call order; it is `none` when some pop is made on
an empty queue. -/
def runOps : List BfsOp → BreadthFirstSearch → Option (BreadthFirstSearch × List Path)
  | [], q => some (q, [])
  | BfsOp.push p :: ops, q => runOps ops (q.push p)
  | BfsOp.pop :: ops, q =>
    match q.pop with
    | none => none
    | some (x, q1) =>
      match runOps ops q1 with
      | none => none
      | some (q2, popped) => some (q2, x :: popped)

/-- A sequence of calls: two pushes, a pop, a push and two pops. -/
def fifoOps : List BfsOp :=
  [BfsOp.push ⟨1, 0, 255, [POTTO]⟩, BfsOp.push ⟨2, 1, 0, [LEMUR]⟩, BfsOp.pop,
    BfsOp.push ⟨3, 2, 0, [ANIMAL]⟩, BfsOp.pop, BfsOp.pop]

/-- The queue that `fifoOps` leaves: nothing waiting, four slots in the id table. -/
def fifoQueue : BreadthFirstSearch :=
  { impl := [],
    id2path := [⟨1, 0, 255, [POTTO]⟩, ⟨1, 0, 255, [POTTO]⟩, ⟨2, 1, 0, [LEMUR]⟩,
      ⟨3, 2, 0, [ANIMAL]⟩] }

/-- The paths that the three pops of `fifoOps` return. -/
def fifoPopped : List Path :=
  [⟨1, 0, 255, [POTTO]⟩, ⟨2, 1, 0, [LEMUR]⟩, ⟨3, 2, 0, [ANIMAL]⟩]

/-! ## Path equality -/

/-- The operator `Path::operator==` of `Search.cc`: the metadata check on `id`,
`sourceId`, `edgeType` and `factLength`, then the loop over the words. -/
def Path.eqOp (self other : Path) : Bool :=
  if !(self.id == other.id && self.sourceId == other.sourceId &&
        self.edgeType == other.edgeType && self.factLength == other.factLength) then false
  else (List.range self.factLength).all (fun i => other.fact.getD i 0 == self.fact.getD i 0)

/-! ## Graph.cc: InMemoryGraph and BidirectionalGraph -/

/-- Modelled from the spec: the record `tagged_word` of `Types.h` (not part of the
sources at hand): a word id, a sense id and a monotonicity marker (section 3.1). -/
structure tagged_word where
  word : Nat
  sense : Nat
  monotonicity : Nat
deriving DecidableEq, Repr

/-- Modelled from the spec: the constant `MONOTONE_DEFAULT` of `Types.h` (not part
of the sources at hand), one of the four values of the monotonicity marker
(section 3.1).  Nothing below depends on which value it is. -/
def MONOTONE_DEFAULT : Nat := 1

/-- Modelled from the spec: the function `getTaggedWord` of `Types.h` (not part of
the sources at hand), which bundles a word, a sense and a monotonicity marker
(section 3.1). -/
def getTaggedWord (word sense monotonicity : Nat) : tagged_word :=
  { word := word, sense := sense, monotonicity := monotonicity }

/-- The class `InMemoryGraph`.  `index2gloss` is the array of `size` entries, each
`NULL` or a stored string; the set `invalidDeletions` is the list of its members
in iteration order; the bit vector `invalidDeletionWords` is a list of flags. -/
structure InMemoryGraph where
  index2gloss : List (Option String)
  edgesBySink : List (List edge)
  edgesSizes : List Nat
  size : Nat
  invalidDeletions : List tagged_word
  invalidDeletionWords : List Bool
deriving DecidableEq, Repr

/-- The first loop of the constructor:
`vocabSize = iter->word > vocabSize ? iter->word : vocabSize` over the set. -/
def InMemoryGraph.vocabSizeOf (invalidDeletions : List tagged_word) : Nat :=
  invalidDeletions.foldl (fun vocabSize iter => if iter.word > vocabSize then iter.word
    else vocabSize) 0

/-- The second loop of the constructor: `invalidDeletionWords[i] = false` for
`i < vocabSize`. -/
def InMemoryGraph.clearFlags (vocabSize : Nat) (flags : List Bool) : List Bool :=
  (List.range vocabSize).foldl (fun v i => v.set i false) flags

/-- The third loop of the constructor: `invalidDeletionWords[iter->word] = true` over
the set.  An index outside the vector has no defined effect: the result is
`none`. -/
def InMemoryGraph.setFlags : List tagged_word → List Bool → Option (List Bool)
  | [], flags => some flags
  | iter :: rest, flags =>
    if iter.word < flags.length then InMemoryGraph.setFlags rest (flags.set iter.word true)
    else none

/-- The constructor `InMemoryGraph(index2gloss, edgesBySink, edgesSizes, size,
invalidDeletions)`: the vector is created with `vocabSize` elements, cleared, and
the flag of every invalid deletion is set. -/
def InMemoryGraph.create (index2gloss : List (Option String)) (edgesBySink : List (List edge))
    (edgesSizes : List Nat) (size : Nat) (invalidDeletions : List tagged_word) :
    Option InMemoryGraph :=
  match InMemoryGraph.setFlags invalidDeletions
      (InMemoryGraph.clearFlags (InMemoryGraph.vocabSizeOf invalidDeletions)
        (List.replicate (InMemoryGraph.vocabSizeOf invalidDeletions) false)) with
  | none => none
  | some flags =>
    some { index2gloss := index2gloss, edgesBySink := edgesBySink, edgesSizes := edgesSizes,
           size := size, invalidDeletions := invalidDeletions,
           invalidDeletionWords := flags }

/-- The method `InMemoryGraph::incomingEdgesFast`: the array `edgesBySink[sink]`
with its length `edgesSizes[sink]`, as the list of that many edges. -/
def InMemoryGraph.incomingEdgesFast (g : InMemoryGraph) (sink : Nat) : List edge :=
  (g.edgesBySink.getD sink []).take (g.edgesSizes.getD sink 0)

/-- A `const char*` returned by `gloss`: the address of the string literal of the
function, or the pointer stored in `index2gloss`; each with its characters. -/
inductive GlossRef where
  | literal (chars : String) : GlossRef
  | stored (chars : String) : GlossRef
deriving DecidableEq, Repr

/-- The characters that a `GlossRef` points to. -/
def GlossRef.chars : GlossRef → String
  | GlossRef.literal chars => chars
  | GlossRef.stored chars => chars

/-- The method `InMemoryGraph::gloss`.  An index outside `index2gloss` has no
defined result (`none`). -/
def InMemoryGraph.gloss (g : InMemoryGraph) (word : tagged_word) : Option GlossRef :=
  match g.index2gloss[word.word]? with
  | none => none
  | some none => some (GlossRef.literal "<UNK>")
  | some (some chars) => some (GlossRef.stored chars)

/-- The method `InMemoryGraph::containsDeletion`.  Reading the bit vector outside
its bounds has no defined result (`none`). -/
def InMemoryGraph.containsDeletion (g : InMemoryGraph) (deletion : edge) : Option Bool :=
  match g.invalidDeletionWords[deletion.source]? with
  | none => none
  | some true =>
    some (decide (getTaggedWord deletion.source deletion.source_sense MONOTONE_DEFAULT
      ∉ g.invalidDeletions))
  | some false => some true

/-- The method `InMemoryGraph::vocabSize`. -/
def InMemoryGraph.vocabSize (g : InMemoryGraph) : Nat := g.size

/-- The class `BidirectionalGraph`: the vocabulary size and the outgoing edge lists,
one per word. -/
structure BidirectionalGraph where
  size : Nat
  outgoingEdgeData : List (List edge)
deriving DecidableEq, Repr

/-- The inner loop of the constructor of `BidirectionalGraph`:
`outgoingEdgeData[source].push_back(incomingFromSink[source])` for
`source = 0, 1, ...` over the incoming edges of one sink.  The first argument is
the part of `incomingFromSink` from position `source` on.  An index outside
`outgoingEdgeData` has no defined effect (`none`). -/
def BidirectionalGraph.pushIncoming :
    List edge → Nat → List (List edge) → Option (List (List edge))
  | [], _, data => some data
  | e :: rest, source, data =>
    if source < data.length then
      BidirectionalGraph.pushIncoming rest (source + 1)
        (data.set source (data.getD source [] ++ [e]))
    else none

/-- The outer loop of the constructor of `BidirectionalGraph`, over the sinks. -/
def BidirectionalGraph.addSinks (incomingEdgesFast : Nat → List edge) :
    List Nat → List (List edge) → Option (List (List edge))
  | [], data => some data
  | sink :: sinks, data =>
    match BidirectionalGraph.pushIncoming (incomingEdgesFast sink) 0 data with
    | none => none
    | some data1 => BidirectionalGraph.addSinks incomingEdgesFast sinks data1

/-- The constructor `BidirectionalGraph(const Graph* impl)`.  Of `impl` it uses
`vocabSize()` and `incomingEdgesFast(sink, &length)`, passed here as the two
arguments (the array and its length are one list). -/
def BidirectionalGraph.create (incomingEdgesFast : Nat → List edge) (vocabSize : Nat) :
    Option BidirectionalGraph :=
  match BidirectionalGraph.addSinks incomingEdgesFast (List.range vocabSize)
      (List.replicate vocabSize []) with
  | none => none
  | some data => some { size := vocabSize, outgoingEdgeData := data }

/-! ## SynSearch.h: tree, packed edge, search node, channel -/

/-- The constant `TREE_ROOT`. -/
def TREE_ROOT : Nat := 63

/-- The constant `TREE_ROOT_WORD`. -/
def TREE_ROOT_WORD : Nat := 0

/-- The macro `TREE_IS_DELETED(mask, index)`. -/
def TREE_IS_DELETED (mask index : Nat) : Bool := ((1 <<< index) &&& mask) != 0

/-- The macro `TREE_DELETE(mask, index)`. -/
def TREE_DELETE (mask index : Nat) : Nat := mask ||| (1 <<< index)

/-- Modelled from the spec: the constant `MAX_QUERY_LENGTH` of `config.h` (not part
of the sources at hand); section 6.5 and the comment on `deleteMask` give 26. -/
def MAX_QUERY_LENGTH : Nat := 26

/-- The record `dep_tree_word`: a tagged word and the bit fields `governor:6` and
`relation:6`. -/
structure dep_tree_word where
  word : tagged_word
  governor : Nat
  relation : Nat
deriving DecidableEq, Repr

/-- The record `dependency_edge`: the bit fields `governor:25`, `dependent:25`,
`relation:6` and `placeholder:8`. -/
structure dependency_edge where
  governor : Nat
  dependent : Nat
  relation : Nat
  placeholder : Nat
deriving DecidableEq, Repr

/-- The class `Tree`: `length`, `availableCacheLength` and the array `data`. -/
structure Tree where
  length : Nat
  availableCacheLength : Nat
  data : List dep_tree_word
deriving DecidableEq, Repr

/-- The method `Tree::edgeInto(index, wordAtIndex, governor)`.  Each assignment to a
bit field keeps the low bits of the value; an index outside `data` has no defined
result (`none`). -/
def Tree.edgeInto (t : Tree) (index wordAtIndex governor : Nat) : Option dependency_edge :=
  match t.data[index]? with
  | none => none
  | some d =>
    some { placeholder := 0 % 2 ^ 8, governor := governor % 2 ^ 25,
           dependent := wordAtIndex % 2 ^ 25, relation := d.relation % 2 ^ 6 }

/-- The method `Tree::edgeInto(index, wordAtIndex)`, which uses the governor that
the tree knows. -/
def Tree.edgeInto2 (t : Tree) (index wordAtIndex : Nat) : Option dependency_edge :=
  match t.data[index]? with
  | none => none
  | some d =>
    if d.governor = TREE_ROOT then t.edgeInto index wordAtIndex TREE_ROOT_WORD
    else
      match t.data[d.governor]? with
      | none => none
      | some g => t.edgeInto index wordAtIndex g.word.word

/-- The method `Tree::edgeInto(index)`, which uses the word that the tree knows. -/
def Tree.edgeInto1 (t : Tree) (index : Nat) : Option dependency_edge :=
  match t.data[index]? with
  | none => none
  | some d => t.edgeInto2 index d.word.word

/-- A value of the type `float`: not-a-number, an infinity, or a number.  Every
finite `float` is a rational number; the two zeros are one value. -/
inductive float where
  | nan : float
  | negInf : float
  | num (q : ℚ) : float
  | posInf : float
deriving DecidableEq

/-- The comparison `a < b` on `float`: false as soon as one side is not a number. -/
def float.lt : float → float → Bool
  | float.nan, _ => false
  | _, float.nan => false
  | float.negInf, float.negInf => false
  | float.negInf, _ => true
  | float.num _, float.negInf => false
  | float.num a, float.num b => decide (a < b)
  | float.num _, float.posInf => true
  | float.posInf, _ => false

/-- The comparison `a <= b` on `float`: false as soon as one side is not a number. -/
def float.le : float → float → Bool
  | float.nan, _ => false
  | _, float.nan => false
  | float.negInf, _ => true
  | float.num _, float.negInf => false
  | float.num a, float.num b => decide (a ≤ b)
  | float.num _, float.posInf => true
  | float.posInf, float.posInf => true
  | float.posInf, _ => false

/-- The record `syn_path_data`: `factHash:64`, `index:5`, `validity:1`,
`deleteMask:26`, `currentToken` and `governor`. -/
structure syn_path_data where
  factHash : Nat
  index : Nat
  validity : Bool
  deleteMask : Nat
  currentToken : tagged_word
  governor : Nat
deriving DecidableEq

/-- The class `SynPath`: the packed data, the backpointer and the two costs. -/
structure SynPath where
  data : syn_path_data
  backpointer : Nat
  costIfTrue : float
  costIfFalse : float
deriving DecidableEq

/-- The method `SynPath::getPriorityKey`:
`costIfFalse < costIfTrue ? costIfFalse : costIfTrue`. -/
def SynPath.getPriorityKey (p : SynPath) : float :=
  if float.lt p.costIfFalse p.costIfTrue = true then p.costIfFalse else p.costIfTrue

/-- The macro `CHANNEL_BUFFER_LENGTH`, as a function of the two sizes it is built
from: `CACHE_LINE_SIZE` (of `config.h`, not part of the sources at hand) and
`sizeof(SynPath)`. -/
def CHANNEL_BUFFER_LENGTH (CACHE_LINE_SIZE sizeofSynPath : Nat) : Nat :=
  (1024 - 2 * CACHE_LINE_SIZE) / sizeofSynPath

/-- The size in bytes of the packed record `channel_data`: the 16-bit `pushPointer`,
`__filler1`, the buffer, `__filler2` and the 16-bit `pollPointer`. -/
def sizeofChannelData (CACHE_LINE_SIZE sizeofSynPath : Nat) : Nat :=
  2 + (CACHE_LINE_SIZE - 2) +
    sizeofSynPath * CHANNEL_BUFFER_LENGTH CACHE_LINE_SIZE sizeofSynPath +
    (CACHE_LINE_SIZE - 2) + 2

/-- Modelled from the spec: the occupancy of the ring, the difference
`pushPointer - pollPointer` of the two 16-bit counters taken as an unsigned 16-bit
value (sections 4.6 and 9; `Channel::push` and `Channel::poll` are not part of the
sources at hand). -/
def channelOccupancy (pushPointer pollPointer : Nat) : Nat :=
  (pushPointer % 2 ^ 16 + 2 ^ 16 - pollPointer % 2 ^ 16) % 2 ^ 16

/-! ## Search.h: the pool lookup -/

/-- The constant `POOL_BUCKET_SHIFT`. -/
def POOL_BUCKET_SHIFT : Nat := 20

/-- The method `BreadthFirstSearch::debugGet` of `Search.h`: the pair
(`bucket`, `offset`) of the slot `&fringe[bucket][offset]` that it returns. -/
def debugGet (i : Nat) : Nat × Nat :=
  (i >>> POOL_BUCKET_SHIFT, i % (1 <<< POOL_BUCKET_SHIFT))

/-! ## Inputs used in the examples -/

/-- Two paths that express the same fact `[potto]` with different ids. -/
def samePottoA : Path := ⟨1, 0, 255, [POTTO]⟩

/-- See `samePottoA`. -/
def samePottoB : Path := ⟨2, 0, 255, [POTTO]⟩

/-- An edge from word 1 to word 2. -/
def edgeOneTwo : edge :=
  { source := 1, source_sense := 0, sink := 2, sink_sense := 0, type := 0, cost := 0 }

/-- A graph of three words whose only edge is `edgeOneTwo`, listed with its sink. -/
def incomingOneTwo (sink : Nat) : List edge :=
  if sink = 2 then [edgeOneTwo] else []

/-- A deletion edge whose source is word 5, sense 0. -/
def deletionOfFive : edge :=
  { source := 5, source_sense := 0, sink := 0, sink_sense := 0, type := 0, cost := 0 }

/-- A tree of two nodes: node 0 is the root (word 7), node 1 depends on it
(word 9, relation 3). -/
def twoNodeTree : Tree :=
  { length := 2, availableCacheLength := 34,
    data := [{ word := ⟨7, 0, 0⟩, governor := 63, relation := 1 },
             { word := ⟨9, 0, 0⟩, governor := 0, relation := 3 }] }

/-- A graph with glosses for the words 0 and 2 and none for the word 1. -/
def glossGraph : InMemoryGraph :=
  { index2gloss := [some "lemur", none, some "animal"], edgesBySink := [[], [], []],
    edgesSizes := [0, 0, 0], size := 3, invalidDeletions := [], invalidDeletionWords := [] }

/-- A search node whose cost if true is not a number. -/
def nanPath : SynPath :=
  { data := { factHash := 0, index := 0, validity := true, deleteMask := 0,
              currentToken := ⟨0, 0, 0⟩, governor := 0 },
    backpointer := 0, costIfTrue := float.nan, costIfFalse := float.num 1 }

/-! ## Successors of a tick, comparison of search nodes, depth of a path -/

/-- The (position, edge) pairs that the section "Mutations" visits for `parent` and
does not skip: every position of the fact, in order, with every outgoing edge of
the word at that position whose type is not 9, in order. -/
def successorPairs (graph : Graph) (parent : Path) : List (Nat × edge) :=
  (List.range parent.factLength).flatMap (fun i =>
    ((graph.outgoingEdges (parent.fact.getD i 0)).filter (fun it => decide (it.type ≠ 9))).map
      (fun it => (i, it)))

/-- What a path is made of apart from its id: its fact, its edge type and its
source id. -/
def Path.shape (p : Path) : List Nat × Nat × Nat := (p.fact, p.edgeType, p.sourceId)

/-- The shape of the successor that the innermost loop body builds for a pair. -/
def successorShape (parent : Path) (pair : Nat × edge) : List Nat × Nat × Nat :=
  (mutatedFact parent pair.1 pair.2.sink, pair.2.type, parent.id)

/-- The operator `SynPath::operator<=`. -/
def SynPath.le (self rhs : SynPath) : Bool :=
  float.le self.getPriorityKey rhs.getPriorityKey

/-- The operator `SynPath::operator<`. -/
def SynPath.lt (self rhs : SynPath) : Bool :=
  float.lt self.getPriorityKey rhs.getPriorityKey

/-- The operator `SynPath::operator>`: `!(*this <= rhs)`. -/
def SynPath.gt (self rhs : SynPath) : Bool := !(SynPath.le self rhs)

/-- The operator `SynPath::operator>=`: `!(*this < rhs)`. -/
def SynPath.ge (self rhs : SynPath) : Bool := !(SynPath.lt self rhs)

/-- The number of `Path::source` steps from a path to a path without source, read
through the id table of the queue `q`; `none` when no such path is reached within
`fuel` steps or a step leaves the table. -/
def sourceDepth (q : BreadthFirstSearch) : Nat → Path → Option Nat
  | 0, _ => none
  | fuel + 1, p =>
    match Path.source p bfs q with
    | PathPtr.null => some 0
    | PathPtr.slot i =>
      match q.deref (PathPtr.slot i) with
      | none => none
      | some parent =>
        match sourceDepth q fuel parent with
        | none => none
        | some d => some (d + 1)

/-- A build in which the three calls of `generateUniqueId` of the mock scenario
leave 5, 0 and 7 in their result. -/
def observedScrambled (nextId : Nat) : Nat :=
  if nextId = 1 then 5 else if nextId = 2 then 0 else 7

/-- A search node with the given costs. -/
def synPathWithCosts (costIfTrue costIfFalse : float) : SynPath :=
  { data := { factHash := 0, index := 0, validity := true, deleteMask := 0,
              currentToken := ⟨0, 0, 0⟩, governor := 0 },
    backpointer := 0, costIfTrue := costIfTrue, costIfFalse := costIfFalse }

/-! ## The hash of a tree -/

/-- The packed edge that `Tree::edgeInto` builds from a governor word, a dependent
word and a relation. -/
def packedEdge (governor dependent relation : Nat) : dependency_edge :=
  { placeholder := 0 % 2 ^ 8, governor := governor % 2 ^ 25,
    dependent := dependent % 2 ^ 25, relation := relation % 2 ^ 6 }

/-- The incoming edges of the nodes of a tree, in index order: `edgeInto(i)` for
`i < length`. -/
def Tree.edges (t : Tree) : List (Option dependency_edge) :=
  (List.range t.length).map t.edgeInto1

/-- One round of the hash loop, `value ^= hashEdge(edge)`; without a defined edge
there is no defined value. -/
def xorEdge (hashEdge : dependency_edge → Nat) (value : Option Nat)
    (e : Option dependency_edge) : Option Nat :=
  match value, e with
  | some v, some e => some (v ^^^ hashEdge e)
  | _, _ => none

/-- Modelled from the spec: the method `Tree::hash`, declared in `SynSearch.h` and
defined in `SynSearch.cc`, which is not part of the sources at hand.  Sections 3.2
and 4.1: the hash is the XOR of the hashes of all edge triples
(governor word, relation, dependent word), the incoming edge of the root using the
reserved word 0 as governor; the edges are those of `edgeInto`.  The mixing
function of an edge is the parameter `hashEdge` (section 4.1: any consistent choice
is acceptable). -/
def Tree.hash (hashEdge : dependency_edge → Nat) (t : Tree) : Option Nat :=
  t.edges.foldl (xorEdge hashEdge) (some 0)

/-- Modelled from the spec: the method `Tree::updateHashFromMutation`, declared in
`SynSearch.h` and defined in `SynSearch.cc`, which is not part of the sources at
hand.  Sections 3.3 and 4.1: XOR out the old edge triple, XOR in the new one. -/
def Tree.updateHashFromMutation (hashEdge : dependency_edge → Nat) (t : Tree)
    (oldHash index oldWord governor newWord : Nat) : Option Nat :=
  match t.edgeInto index oldWord governor, t.edgeInto index newWord governor with
  | some old, some new => some (oldHash ^^^ hashEdge old ^^^ hashEdge new)
  | _, _ => none

/-- Modelled from the spec: the tree `T'` of section 8 (property 2), which is `T`
with the word at position `index` replaced by `newWord`. -/
def Tree.withWord (t : Tree) (index newWord : Nat) : Tree :=
  match t.data[index]? with
  | none => t
  | some d =>
    { length := t.length, availableCacheLength := t.availableCacheLength,
      data := t.data.set index
        { word := { word := newWord, sense := d.word.sense,
                    monotonicity := d.word.monotonicity },
          governor := d.governor, relation := d.relation } }

/-- The word of the governor of a node: the reserved word 0 for the root, the word
stored at the governor index otherwise. -/
def Tree.governorWord (t : Tree) (index : Nat) : Option Nat :=
  match t.data[index]? with
  | none => none
  | some d =>
    if d.governor = TREE_ROOT then some TREE_ROOT_WORD
    else
      match t.data[d.governor]? with
      | none => none
      | some g => some g.word.word

/-- The nodes of a tree are laid out as its length says, and every governor is the
root marker or the index of a node (section 3.2). -/
def Tree.WellFormed (t : Tree) : Prop :=
  t.data.length = t.length ∧
  ∀ (j : Nat) (d : dep_tree_word), t.data[j]? = some d →
    d.governor = TREE_ROOT ∨ d.governor < t.length

/-- A reordering of the nodes of a tree that preserves the governor relation: the
new position `k` holds the old node `order[k]`, and the governor of a node is
renumbered to the new position of its old governor. -/
def Tree.reorder (t : Tree) (order : List Nat) : Tree :=
  { length := order.length, availableCacheLength := t.availableCacheLength,
    data := order.map (fun j =>
      match t.data[j]? with
      | none => { word := ⟨0, 0, 0⟩, governor := TREE_ROOT, relation := 0 }
      | some d =>
        { word := d.word, relation := d.relation,
          governor :=
            if d.governor = TREE_ROOT then TREE_ROOT else order.indexOf d.governor }) }

/-- A mixing function for the examples. -/
def sampleHashEdge (e : dependency_edge) : Nat :=
  (e.governor * 31 + e.dependent * 17 + e.relation * 7 + 1) % 2 ^ 64

/-! ## The channel -/

/-- The record `channel_data`: the two 16-bit counters and the ring between them
(the fillers carry no data).  The type of an entry, `SynPath` in the source, is a
parameter. -/
structure channel_data (α : Type) where
  pushPointer : Nat
  buffer : List α
  pollPointer : Nat

/-- The constructor `Channel()`: both counters are set to 0.  The ring is not
initialised; its content is the parameter `buffer`. -/
def Channel.create {α : Type} (buffer : List α) : channel_data α :=
  { pushPointer := 0 % 2 ^ 16, buffer := buffer, pollPointer := 0 % 2 ^ 16 }

/-- Modelled from the spec: where the producer stands inside a call of
`Channel::push`, which is declared in `SynSearch.h` and defined in `SynSearch.cc`,
not part of the sources at hand.  Section 4.6: the call fails when the ring is
full, otherwise it writes the entry and then advances `pushPointer`; these are
three separate accesses to the shared record. -/
inductive PushPhase (α : Type) where
  | idle : PushPhase α
  | checked (value : α) : PushPhase α
  | written (value : α) : PushPhase α

/-- Modelled from the spec: where the consumer stands inside a call of
`Channel::poll`, which is declared in `SynSearch.h` and defined in `SynSearch.cc`,
not part of the sources at hand.  Section 4.6: the call fails when the ring is
empty, otherwise it reads the entry and then advances `pollPointer`. -/
inductive PollPhase (α : Type) where
  | idle : PollPhase α
  | checked : PollPhase α
  | read (value : α) : PollPhase α

/-- What a call on the channel returned: `push(value)` returned true or false,
`poll` returned true with the value it delivered, or false. -/
inductive ChannelEvent (α : Type) where
  | pushTrue (value : α) : ChannelEvent α
  | pushFalse (value : α) : ChannelEvent α
  | pollTrue (value : α) : ChannelEvent α
  | pollFalse : ChannelEvent α

/-- The channel shared by one producer and one consumer: the record, the place of
each of the two threads inside its current call, and the calls that have returned,
oldest first. -/
structure ChannelState (α : Type) where
  data : channel_data α
  producer : PushPhase α
  consumer : PollPhase α
  trace : List (ChannelEvent α)

/-- A freshly constructed channel, no call under way. -/
def Channel.start {α : Type} (buffer : List α) : ChannelState α :=
  { data := Channel.create buffer, producer := PushPhase.idle,
    consumer := PollPhase.idle, trace := [] }

/-- Modelled from the spec: one access of the producer inside `Channel::push`
(defined in `SynSearch.cc`, not part of the sources at hand), section 4.6.  With no
call under way the producer begins `push(value)` and compares the occupancy with
the length of the ring, returning false when the ring is full; then it writes
`buffer[pushPointer % N]`; then it advances the 16-bit `pushPointer` and returns
true. -/
def Channel.pushStep {α : Type} (s : ChannelState α) (value : α) : ChannelState α :=
  match s.producer with
  | PushPhase.idle =>
    if channelOccupancy s.data.pushPointer s.data.pollPointer = s.data.buffer.length then
      { data := s.data, producer := PushPhase.idle, consumer := s.consumer,
        trace := s.trace ++ [ChannelEvent.pushFalse value] }
    else
      { data := s.data, producer := PushPhase.checked value, consumer := s.consumer,
        trace := s.trace }
  | PushPhase.checked v =>
    { data :=
        { pushPointer := s.data.pushPointer,
          buffer := s.data.buffer.set (s.data.pushPointer % s.data.buffer.length) v,
          pollPointer := s.data.pollPointer },
      producer := PushPhase.written v, consumer := s.consumer, trace := s.trace }
  | PushPhase.written v =>
    { data :=
        { pushPointer := (s.data.pushPointer + 1) % 2 ^ 16,
          buffer := s.data.buffer,
          pollPointer := s.data.pollPointer },
      producer := PushPhase.idle, consumer := s.consumer,
      trace := s.trace ++ [ChannelEvent.pushTrue v] }

/-- Modelled from the spec: one access of the consumer inside `Channel::poll`
(defined in `SynSearch.cc`, not part of the sources at hand), section 4.6.  With no
call under way the consumer begins `poll` and compares the two counters, returning
false when they are equal; then it reads `buffer[pollPointer % N]`; then it
advances the 16-bit `pollPointer` and returns true with the entry it read. -/
def Channel.pollStep {α : Type} (s : ChannelState α) : ChannelState α :=
  match s.consumer with
  | PollPhase.idle =>
    if s.data.pushPointer = s.data.pollPointer then
      { data := s.data, producer := s.producer, consumer := PollPhase.idle,
        trace := s.trace ++ [ChannelEvent.pollFalse] }
    else
      { data := s.data, producer := s.producer, consumer := PollPhase.checked,
        trace := s.trace }
  | PollPhase.checked =>
    match s.data.buffer[s.data.pollPointer % s.data.buffer.length]? with
    | none => s
    | some v =>
      { data := s.data, producer := s.producer, consumer := PollPhase.read v,
        trace := s.trace }
  | PollPhase.read v =>
    { data :=
        { pushPointer := s.data.pushPointer,
          buffer := s.data.buffer,
          pollPointer := (s.data.pollPointer + 1) % 2 ^ 16 },
      producer := s.producer, consumer := PollPhase.idle,
      trace := s.trace ++ [ChannelEvent.pollTrue v] }

/-- Which of the two threads makes the next access; the producer comes with the
value it pushes if this access begins a call. -/
inductive ChannelAction (α : Type) where
  | producer (value : α) : ChannelAction α
  | consumer : ChannelAction α

/-- One access to the channel by one of the two threads. -/
def Channel.step {α : Type} (s : ChannelState α) (a : ChannelAction α) : ChannelState α :=
  match a with
  | ChannelAction.producer value => Channel.pushStep s value
  | ChannelAction.consumer => Channel.pollStep s

/-- An interleaving of the accesses of the producer and the consumer. -/
def Channel.run {α : Type} (s : ChannelState α) (acts : List (ChannelAction α)) :
    ChannelState α :=
  acts.foldl Channel.step s

/-- The values for which `push` returned true, in the order of the returns. -/
def pushedValues {α : Type} (trace : List (ChannelEvent α)) : List α :=
  trace.filterMap (fun e =>
    match e with
    | ChannelEvent.pushTrue v => some v
    | _ => none)

/-- The values delivered by the calls of `poll` that returned true, in the order of
the returns. -/
def polledValues {α : Type} (trace : List (ChannelEvent α)) : List α :=
  trace.filterMap (fun e =>
    match e with
    | ChannelEvent.pollTrue v => some v
    | _ => none)

/-- The counters of the channel agree with the calls that have returned: they count
the successful pushes and polls modulo 2^16, the ring holds between 0 and `N`
entries, a push that has passed its check has a free slot, and a poll that has
passed its check has an entry waiting. -/
def Channel.CountersOk {α : Type} (s : ChannelState α) : Prop :=
  s.data.pushPointer = (pushedValues s.trace).length % 2 ^ 16 ∧
  s.data.pollPointer = (polledValues s.trace).length % 2 ^ 16 ∧
  (polledValues s.trace).length ≤ (pushedValues s.trace).length ∧
  (pushedValues s.trace).length ≤ (polledValues s.trace).length + s.data.buffer.length ∧
  (s.producer ≠ PushPhase.idle →
    (pushedValues s.trace).length < (polledValues s.trace).length + s.data.buffer.length) ∧
  (s.consumer ≠ PollPhase.idle →
    (polledValues s.trace).length < (pushedValues s.trace).length)

/-- The ring holds the pushed values that have not been polled, each in the slot of
its number; a push that has written has its value in the next slot; a poll that has
read holds the oldest waiting value; and the polled values are the first of the
pushed values, in push order. -/
def Channel.RingOk {α : Type} (s : ChannelState α) : Prop :=
  (∀ (k : Nat), (polledValues s.trace).length ≤ k → k < (pushedValues s.trace).length →
    s.data.buffer[k % s.data.buffer.length]? = (pushedValues s.trace)[k]?) ∧
  (∀ (v : α), s.producer = PushPhase.written v →
    s.data.buffer[(pushedValues s.trace).length % s.data.buffer.length]? = some v) ∧
  (∀ (v : α), s.consumer = PollPhase.read v →
    (pushedValues s.trace)[(polledValues s.trace).length]? = some v) ∧
  polledValues s.trace = (pushedValues s.trace).take (polledValues s.trace).length

/-- The accesses the consumer still has to make to deliver every value that has
been pushed: three for each waiting value, less those already made inside the
current call. -/
def Channel.pollWork {α : Type} (s : ChannelState α) : Nat :=
  3 * ((pushedValues s.trace).length - (polledValues s.trace).length) -
    match s.consumer with
    | PollPhase.idle => 0
    | PollPhase.checked => 1
    | PollPhase.read _ => 2

/-- The state with the calls of `earlier` put before its own record of calls. -/
def ChannelState.after {α : Type} (earlier : List (ChannelEvent α)) (s : ChannelState α) :
    ChannelState α :=
  { data := s.data, producer := s.producer, consumer := s.consumer,
    trace := earlier ++ s.trace }

/-- One call of `push(value)` and one call of `poll` after it, access by access. -/
def channelRoundTrip (value : Nat) : List (ChannelAction Nat) :=
  [ChannelAction.producer value, ChannelAction.producer value, ChannelAction.producer value,
   ChannelAction.consumer, ChannelAction.consumer, ChannelAction.consumer]

/-- The schedule of `count` round trips. -/
def channelRoundTrips (value : Nat) : Nat → List (ChannelAction Nat)
  | 0 => []
  | count + 1 => channelRoundTrips value count ++ channelRoundTrip value

/-- The calls that have returned after `count` round trips. -/
def roundTripTrace (value : Nat) : Nat → List (ChannelEvent Nat)
  | 0 => []
  | count + 1 =>
    roundTripTrace value count ++ [ChannelEvent.pushTrue value, ChannelEvent.pollTrue value]

/-- The channel after `count` round trips of the value 0 on a ring of 28 zeros. -/
def afterRoundTrips (count : Nat) (trace : List (ChannelEvent Nat)) : ChannelState Nat :=
  { data := { pushPointer := count, buffer := List.replicate 28 0, pollPointer := count },
    producer := PushPhase.idle, consumer := PollPhase.idle, trace := trace }

/-- The pushes of the values 100, ..., 127 with no poll in between, and one poll
after them, access by access. -/
def channelBurst : List (ChannelAction Nat) :=
  (List.range 28).flatMap (fun i =>
    [ChannelAction.producer (100 + i), ChannelAction.producer (100 + i),
     ChannelAction.producer (100 + i)]) ++
  [ChannelAction.consumer, ChannelAction.consumer, ChannelAction.consumer]

/-- The channel reached from a freshly constructed one by an interleaving of the
accesses of the two threads. -/
def Channel.reached {α : Type} (buffer : List α) (acts : List (ChannelAction α)) :
    ChannelState α :=
  Channel.run (Channel.start buffer) acts

/-- An interleaving on a ring of 28 entries: the consumer polls the empty ring while
the first push is under way, and the second push overlaps the first successful
poll. -/
def sampleSchedule : List (ChannelAction Nat) :=
  [ChannelAction.producer 7, ChannelAction.producer 7, ChannelAction.consumer,
   ChannelAction.producer 7, ChannelAction.producer 8, ChannelAction.consumer,
   ChannelAction.consumer, ChannelAction.producer 8, ChannelAction.consumer,
   ChannelAction.producer 8, ChannelAction.consumer, ChannelAction.consumer,
   ChannelAction.consumer]

/-! ## The trie of facts -/

/-- Modelled from the spec: the class `Trie` of `Trie.h` and `Trie.cc`, which are
not part of the sources at hand (their test `TestTrie.cc` is).  Section 6.2 and the
examples E1 and E2: a store of word sequences.  A node says whether a stored
sequence ends at it, and holds its children by word in the order in which they
were first added. -/
inductive Trie where
  | node (isLeaf : Bool) (children : List (Nat × Trie)) : Trie

/-- The child filed under a word, if there is one. -/
def getChild {τ : Type} (children : List (Nat × τ)) (w : Nat) : Option τ :=
  match children with
  | [] => none
  | (w', c) :: rest => if w' = w then some c else getChild rest w

/-- File a child under a word: in the place of the child already filed under it,
or after all the children. -/
def setChild {τ : Type} (children : List (Nat × τ)) (w : Nat) (c : τ) : List (Nat × τ) :=
  match children with
  | [] => [(w, c)]
  | (w', c') :: rest =>
    if w' = w then (w, c) :: rest else (w', c') :: setChild rest w c

/-- Modelled from the spec: the trie made by `new Trie()`, which stores nothing. -/
def Trie.empty : Trie := Trie.node false []

/-- Whether a stored sequence ends at the node. -/
def Trie.isLeaf : Trie → Bool
  | Trie.node l _ => l

/-- The children of the node. -/
def Trie.children : Trie → List (Nat × Trie)
  | Trie.node _ cs => cs

/-- Walk down from a node along a sequence, making the nodes that are missing, and
mark the node reached. -/
def Trie.insert : Trie → List Nat → Trie
  | Trie.node _ cs, [] => Trie.node true cs
  | Trie.node l cs, w :: ws =>
    Trie.node l (setChild cs w (Trie.insert ((getChild cs w).getD Trie.empty) ws))

/-- The node reached from a node along a sequence. -/
def Trie.find : Trie → List Nat → Option Trie
  | t, [] => some t
  | Trie.node _ cs, w :: ws =>
    match getChild cs w with
    | none => none
    | some c => Trie.find c ws

/-- Modelled from the spec: the method `Trie::add(elements, length)` of `Trie.cc`,
not part of the sources at hand.  Examples E1 and E2 and the test `ToyExample`: the
sequence is stored; the empty sequence is never contained, so a call with length 0
stores nothing. -/
def Trie.add (t : Trie) (elements : List Nat) : Trie :=
  match elements with
  | [] => t
  | w :: ws => t.insert (w :: ws)

/-- Modelled from the spec: the method `Trie::contains(elements, length)` of
`Trie.cc`, not part of the sources at hand.  Section 6.2: true iff the exact
sequence is present. -/
def Trie.contains (t : Trie) (elements : List Nat) : Bool :=
  match t.find elements with
  | none => false
  | some n => n.isLeaf

/-- Modelled from the spec: the completion form
`Trie::contains(elements, length, out, edges, &outLength)` of `Trie.cc`, not part
of the sources at hand.  Section 6.2 and the test `ReturnsChildren`: the result is
that of `contains`, and the words written are the child words of the node reached,
in the order in which they were added; `outLength` is the length of the list. -/
def Trie.completions (t : Trie) (elements : List Nat) : Bool × List Nat :=
  match t.find elements with
  | none => (false, [])
  | some n => (n.isLeaf, n.children.map Prod.fst)

/-- Modelled from the spec: the class `TrieFactDB` of `Trie.h` and `Trie.cc`, which
are not part of the sources at hand (their test `TestTrie.cc` is).  Section 6.2 and
the examples E3, E4 and E5: the trie of the facts, the facts in the order in which
they were added, and the edge types registered by `addValidInsertion`. -/
structure TrieFactDB where
  facts : Trie
  stored : List (List Nat)
  validInsertions : List (Nat × Nat)

/-- Modelled from the spec: the fact database made by `new TrieFactDB()`. -/
def TrieFactDB.empty : TrieFactDB :=
  { facts := Trie.empty, stored := [], validInsertions := [] }

/-- Modelled from the spec: the method `TrieFactDB::add(elements, length)` of
`Trie.cc`, not part of the sources at hand: the fact is stored, after the facts
stored before; a call with length 0 stores nothing. -/
def TrieFactDB.add (db : TrieFactDB) (elements : List Nat) : TrieFactDB :=
  match elements with
  | [] => db
  | w :: ws =>
    { facts := db.facts.add (w :: ws), stored := db.stored ++ [w :: ws],
      validInsertions := db.validInsertions }

/-- Modelled from the spec: the method `TrieFactDB::addValidInsertion(word, type)`
of `Trie.cc`, not part of the sources at hand: the edge type is registered for the
word. -/
def TrieFactDB.addValidInsertion (db : TrieFactDB) (word edgeType : Nat) : TrieFactDB :=
  { facts := db.facts, stored := db.stored,
    validInsertions := setChild db.validInsertions word edgeType }

/-- Modelled from the spec: the method `TrieFactDB::contains(elements, length)` of
`Trie.cc`, not part of the sources at hand: true iff the exact sequence is
present. -/
def TrieFactDB.contains (db : TrieFactDB) (elements : List Nat) : Bool :=
  db.facts.contains elements

/-- The edge type registered for a word by `addValidInsertion`, if any. -/
def TrieFactDB.insertionEdge (db : TrieFactDB) (word : Nat) : Option Nat :=
  getChild db.validInsertions word

/-- Write a word after the words written so far, unless it is among them already. -/
def appendNew (out : List Nat) (w : Nat) : List Nat :=
  if w ∈ out then out else out ++ [w]

/-- The words of a list, each once, in the order of their first occurrence. -/
def keepFirst (l : List Nat) : List Nat :=
  l.foldl appendNew []

/-- The words whose removal from `fact`, at one position, leaves `query`. -/
def insertedWords (fact query : List Nat) : List Nat :=
  (List.range fact.length).filterMap (fun i =>
    if fact.eraseIdx i = query then fact[i]? else none)

/-- The word that follows `query` in `elements`, if `elements` begins with `query`
and goes on. -/
def nextWord (query elements : List Nat) : Option Nat :=
  if elements.take query.length = query then elements[query.length]? else none

/-- What the completion form of `contains` hands back: its result, the words
written to `out` and the edge types written to `edges`; `outLength` is the number
of words written. -/
structure Completions where
  result : Bool
  out : List Nat
  edges : List Nat

/-- The value left in `outLength`. -/
def Completions.outLength (c : Completions) : Nat := c.out.length

/-- Modelled from the spec: the completion form
`TrieFactDB::contains(elements, length, out, edges, &outLength)` of `Trie.cc`, not
part of the sources at hand.  Section 6.2 and the examples E3, E4 and E5: the
result says whether the exact sequence is present; the words written are those
whose insertion into the query gives a stored fact, taken from the facts in the
order in which they were added, each written once; each comes with the edge type
registered for it (0 stands where none is registered). -/
def TrieFactDB.completions (db : TrieFactDB) (elements : List Nat) : Completions :=
  { result := db.contains elements,
    out := keepFirst (db.stored.flatMap (fun fact => insertedWords fact elements)),
    edges := (keepFirst (db.stored.flatMap (fun fact => insertedWords fact elements))).map
      (fun w => (db.insertionEdge w).getD 0) }

/-- A call that changes a fact database. -/
inductive FactDBCall where
  | add (elements : List Nat) : FactDBCall
  | addValidInsertion (word edgeType : Nat) : FactDBCall

/-- The fact database after one call. -/
def TrieFactDB.call (db : TrieFactDB) : FactDBCall → TrieFactDB
  | FactDBCall.add elements => db.add elements
  | FactDBCall.addValidInsertion word edgeType => db.addValidInsertion word edgeType

/-- The fact database made by `new TrieFactDB()` and a series of calls. -/
def TrieFactDB.build (calls : List FactDBCall) : TrieFactDB :=
  calls.foldl TrieFactDB.call TrieFactDB.empty

/-- The facts that a series of calls has added, in the order of the calls. -/
def addedFacts (calls : List FactDBCall) : List (List Nat) :=
  calls.filterMap (fun c =>
    match c with
    | FactDBCall.add (w :: ws) => some (w :: ws)
    | _ => none)

/-- The edge type that a series of calls has registered for a word: that of the
last call of `addValidInsertion` for it. -/
def registeredEdge (calls : List FactDBCall) (word : Nat) : Option Nat :=
  calls.foldl (fun acc c =>
    match c with
    | FactDBCall.addValidInsertion w e => if w = word then some e else acc
    | _ => acc) none

/-- The calls of the tests `FactDBCompletion` and `FactDBEdgeCompletion`, with the
edge types of the second. -/
def testCalls : List FactDBCall :=
  [FactDBCall.addValidInsertion 1 0, FactDBCall.addValidInsertion 2 1,
   FactDBCall.addValidInsertion 3 2, FactDBCall.addValidInsertion 4 3,
   FactDBCall.addValidInsertion 5 4, FactDBCall.add [1, 2], FactDBCall.add [1, 3],
   FactDBCall.add [4, 1], FactDBCall.add [5, 2, 1]]

/-! ## Assignment of paths, the bits of a packed edge -/

/-- The operator `Path::operator=` of `Search.cc`: the four fields of `copy` are
stored in `this`, and the first `copy.factLength` words are copied.  The words that
`this` held beyond that length are out of reach of its new `factLength`. -/
def Path.assign (_self copy : Path) : Path :=
  { id := copy.id, sourceId := copy.sourceId, edgeType := copy.edgeType,
    fact := copyWords copy.fact copy.factLength }

/-- The 64 bits of the packed record `dependency_edge`: the bit fields
`governor:25`, `dependent:25`, `relation:6` and `placeholder:8` in the order of
their declaration, the first in the lowest bits (the layout of a packed record on a
little-endian target). -/
def dependency_edge.pack (e : dependency_edge) : Nat :=
  e.governor % 2 ^ 25 + 2 ^ 25 * (e.dependent % 2 ^ 25) + 2 ^ 50 * (e.relation % 2 ^ 6) +
    2 ^ 56 * (e.placeholder % 2 ^ 8)

/-- The four bit fields read back from the 64 bits of a packed record. -/
def dependency_edge.unpack (bits : Nat) : dependency_edge :=
  { governor := bits % 2 ^ 25, dependent := bits / 2 ^ 25 % 2 ^ 25,
    relation := bits / 2 ^ 50 % 2 ^ 6, placeholder := bits / 2 ^ 56 % 2 ^ 8 }

/-- Two invalid deletions: word 2 (sense 0) and word 7 (sense 1). -/
def invalidTwoSeven : List tagged_word :=
  [getTaggedWord 2 0 MONOTONE_DEFAULT, getTaggedWord 7 1 MONOTONE_DEFAULT]

/-- A deletion edge whose source is word 7, sense 1. -/
def deletionOfSeven : edge :=
  { source := 7, source_sense := 1, sink := 0, sink_sense := 0, type := 0, cost := 0 }

/-- A path of two words with an id, a source id and an edge type. -/
def lemurAnimalPath : Path := ⟨4, 3, 2, [LEMUR, ANIMAL]⟩

/-! ## Basic facts about the embedding -/

theorem copyWords_length (fact : List Nat) (factLength : Nat) :
    (copyWords fact factLength).length = factLength := by
  simp [copyWords]

theorem copyWords_self (fact : List Nat) : copyWords fact fact.length = fact := by
  apply List.ext_getElem
  · simp [copyWords]
  · intro i h1 h2
    simp [copyWords, List.getElem?_eq_getElem h2]

theorem Path.copy_eq (p : Path) : Path.copy p = p := by
  cases p
  simp [Path.copy, Path.factLength, copyWords_self]

theorem pops_append (a b : List Event) : pops (a ++ b) = pops a ++ pops b := by
  simp [pops, List.filterMap_append]

theorem pushes_append (a b : List Event) : pushes (a ++ b) = pushes a ++ pushes b := by
  simp [pushes, List.filterMap_append]

theorem cacheAdds_append (a b : List Event) :
    cacheAdds (a ++ b) = cacheAdds a ++ cacheAdds b := by
  simp [cacheAdds, List.filterMap_append]

/-! ## Induction principles for the loops of Search -/

section Loops

variable {σ κ : Type} (observed : Nat → Nat) (graph : Graph) (knownFacts : FactDB)
  (F : SearchType σ) (C : CacheStrategy κ) (timeout : Nat)

theorem foldl_preserves {α β : Type} (f : α → β → α) (P : α → Prop) (l : List β)
    (h : ∀ a b, b ∈ l → P a → P (f a b)) (a : α) (ha : P a) : P (l.foldl f a) := by
  induction l generalizing a with
  | nil => exact ha
  | cons b t ih =>
    exact ih (fun a1 b1 hb1 => h a1 b1 (List.mem_cons_of_mem _ hb1)) (f a b)
      (h a b (List.mem_cons_self _ _) ha)

/-- A property kept by every execution of the innermost loop body is kept by the
whole section "Mutations". -/
theorem expand_preserves (P : SearchState σ κ → Prop) (parent : Path)
    (h : ∀ st i it, i < parent.factLength →
      it ∈ graph.outgoingEdges (parent.fact.getD i 0) → P st →
      P (expandEdge observed F C parent i st it))
    (st : SearchState σ κ) (hst : P st) : P (expand observed graph F C parent st) := by
  unfold expand
  apply foldl_preserves _ P _ _ _ hst
  intro a i hi ha
  unfold expandIndex
  exact foldl_preserves _ P _ (fun a b hb hab => h a i b (List.mem_range.mp hi) hb hab) _ ha

/-- A successful tick: the guard values that it saw, the pop that it made and the
state that it produced. -/
theorem tick_ok {s s1 : SearchState σ κ}
    (h : tick observed graph knownFacts F C timeout s = Except.ok s1) :
    F.isEmpty s.fringe = false ∧ s.time < timeout ∧
    ∃ parent rest, F.pop s.fringe = some (parent, rest) ∧
      s1 = expand observed graph F C parent (afterPop knownFacts C s parent rest) := by
  unfold tick at h
  split_ifs at h with h1 h2
  have h2' : s.time < timeout := by omega
  refine ⟨by simpa using h1, h2', ?_⟩
  cases hp : F.pop s.fringe with
  | none => simp [hp] at h
  | some pr =>
    obtain ⟨parent, rest⟩ := pr
    simp only [hp] at h
    injection h with h
    exact ⟨parent, rest, rfl, h.symm⟩

/-- A property that holds when the loop is entered and is kept by every
successful tick holds when the loop is left. -/
theorem searchLoop_preserves (P : SearchState σ κ → Prop)
    (hstep : ∀ s s1, P s → tick observed graph knownFacts F C timeout s = Except.ok s1 → P s1)
    (n : Nat) (s r : SearchState σ κ) (hs : P s)
    (h : searchLoop observed graph knownFacts F C timeout n s = Except.ok r) : P r := by
  induction n generalizing s with
  | zero =>
    simp only [searchLoop] at h
    injection h with h
    exact h ▸ hs
  | succ n ih =>
    simp only [searchLoop] at h
    split_ifs at h with hg
    · cases ht : tick observed graph knownFacts F C timeout s with
      | error a => simp [ht] at h
      | ok s1 =>
        simp only [ht] at h
        exact ih s1 (hstep s s1 hs ht) h
    · injection h with h
      exact h ▸ hs

/-- The loop is only left through its guard: with `n` at least the number of
ticks that remain, the final state has an empty fringe or `time >= timeout`. -/
theorem searchLoop_exit (n : Nat) (s r : SearchState σ κ) (hn : timeout ≤ s.time + n)
    (h : searchLoop observed graph knownFacts F C timeout n s = Except.ok r) :
    F.isEmpty r.fringe = true ∨ timeout ≤ r.time := by
  induction n generalizing s with
  | zero =>
    simp only [searchLoop] at h
    injection h with h
    subst h
    right
    simpa using hn
  | succ n ih =>
    simp only [searchLoop] at h
    split_ifs at h with hg
    · cases ht : tick observed graph knownFacts F C timeout s with
      | error a => simp [ht] at h
      | ok s1 =>
        simp only [ht] at h
        obtain ⟨-, -, parent, rest, -, hs1⟩ := tick_ok observed graph knownFacts F C timeout ht
        have htime : s1.time = s.time + 1 := by
          rw [hs1]
          apply expand_preserves observed graph F C
            (fun st => st.time = s.time + 1) parent
          · intro st i it _ _ hst
            unfold expandEdge
            split_ifs <;> simpa using hst
          · unfold afterPop
            split_ifs <;> rfl
        exact ih s1 (by omega) h
    · injection h with h
      subst h
      by_cases he : F.isEmpty s.fringe = true
      · exact Or.inl he
      · right
        have : ¬ s.time < timeout := fun hlt => hg ⟨by simpa using he, hlt⟩
        omega

/-- What the section "Mutations" leaves alone: the pops, the cache adds, the
responses and the time. -/
theorem expand_frame (parent : Path) (st : SearchState σ κ) :
    pops (expand observed graph F C parent st).trace = pops st.trace ∧
    cacheAdds (expand observed graph F C parent st).trace = cacheAdds st.trace ∧
    (expand observed graph F C parent st).responses = st.responses ∧
    (expand observed graph F C parent st).time = st.time := by
  apply expand_preserves observed graph F C
    (fun x => pops x.trace = pops st.trace ∧ cacheAdds x.trace = cacheAdds st.trace ∧
      x.responses = st.responses ∧ x.time = st.time) parent
  · intro x i it _ _ hx
    unfold expandEdge
    split_ifs
    · exact hx
    · simpa [pops_append, cacheAdds_append, pops, cacheAdds, Event.popped, Event.added]
        using hx
    · simpa [pops_append, cacheAdds_append, pops, cacheAdds, Event.popped, Event.added]
        using hx
  · exact ⟨rfl, rfl, rfl, rfl⟩

/-- What one successful tick does to the pops, the cache adds, the time and the
responses. -/
theorem tick_frame {s s1 : SearchState σ κ}
    (h : tick observed graph knownFacts F C timeout s = Except.ok s1) :
    ∃ parent rest, F.pop s.fringe = some (parent, rest) ∧
      s1 = expand observed graph F C parent (afterPop knownFacts C s parent rest) ∧
      s.time < timeout ∧
      pops s1.trace = pops s.trace ++ [parent] ∧
      cacheAdds s1.trace = cacheAdds s.trace ++ [parent] ∧
      s1.time = s.time + 1 ∧
      s1.responses = s.responses ++
        (if knownFacts.contains parent.fact parent.factLength = true
          then [Path.copy parent] else []) := by
  obtain ⟨-, hlt, parent, rest, hpop, hs1⟩ := tick_ok observed graph knownFacts F C timeout h
  obtain ⟨h1, h2, h3, h4⟩ :=
    expand_frame observed graph F C parent (afterPop knownFacts C s parent rest)
  refine ⟨parent, rest, hpop, hs1, hlt, ?_, ?_, ?_, ?_⟩
  · rw [hs1, h1]
    unfold afterPop
    split_ifs <;> simp [pops_append, pops, Event.popped]
  · rw [hs1, h2]
    unfold afterPop
    split_ifs <;> simp [cacheAdds_append, cacheAdds, Event.added]
  · rw [hs1, h4]
    unfold afterPop
    split_ifs <;> rfl
  · rw [hs1, h3]
    unfold afterPop
    split_ifs <;> simp

/-- The loop returns whenever `pop` is defined on every non-empty fringe. -/
theorem searchLoop_ok (hpop : ∀ q, F.isEmpty q = false → (F.pop q).isSome = true)
    (n : Nat) (s : SearchState σ κ) :
    ∃ r, searchLoop observed graph knownFacts F C timeout n s = Except.ok r := by
  induction n generalizing s with
  | zero => exact ⟨s, rfl⟩
  | succ n ih =>
    simp only [searchLoop]
    split_ifs with hg
    · obtain ⟨he, hlt⟩ := hg
      have hsome := hpop s.fringe he
      cases hp : F.pop s.fringe with
      | none => simp [hp] at hsome
      | some pr =>
        obtain ⟨parent, rest⟩ := pr
        have ht : tick observed graph knownFacts F C timeout s =
            Except.ok (expand observed graph F C parent
              (afterPop knownFacts C s parent rest)) := by
          unfold tick
          have h2 : ¬ s.time ≥ timeout := by omega
          simp [he, h2, hp]
        simp only [ht]
        exact ih _
    · exact ⟨s, rfl⟩

/-- The shape of the final state of the loop: the responses are the copies of the
popped paths that the fact database contains, one pop was made per tick, and the
cache adds are the pops. -/
theorem searchLoop_shape (n : Nat) (s r : SearchState σ κ)
    (hs : s.responses = ((pops s.trace).filter
        (fun p => knownFacts.contains p.fact p.factLength)).map Path.copy ∧
      (pops s.trace).length = s.time ∧ s.time ≤ timeout ∧
      cacheAdds s.trace = pops s.trace)
    (h : searchLoop observed graph knownFacts F C timeout n s = Except.ok r) :
    r.responses = ((pops r.trace).filter
        (fun p => knownFacts.contains p.fact p.factLength)).map Path.copy ∧
      (pops r.trace).length = r.time ∧ r.time ≤ timeout ∧
      cacheAdds r.trace = pops r.trace := by
  apply searchLoop_preserves observed graph knownFacts F C timeout
    (fun x => x.responses = ((pops x.trace).filter
        (fun p => knownFacts.contains p.fact p.factLength)).map Path.copy ∧
      (pops x.trace).length = x.time ∧ x.time ≤ timeout ∧
      cacheAdds x.trace = pops x.trace) _ n s r hs h
  intro x x1 hx ht
  obtain ⟨parent, rest, -, -, hlt, hp, ha, htime, hresp⟩ :=
    tick_frame observed graph knownFacts F C timeout ht
  obtain ⟨i1, i2, i3, i4⟩ := hx
  refine ⟨?_, ?_, ?_, ?_⟩
  · rw [hresp, hp, i1]
    by_cases hc : knownFacts.contains parent.fact parent.factLength = true
    · simp [hc, List.filter_append]
    · simp [hc, List.filter_append]
  · rw [hp, htime]
    simp [i2]
  · omega
  · rw [hp, ha, i4]

end Loops

/-- The shape of the final state of `Search`. -/
theorem Search_shape {σ κ : Type} (observed : Nat → Nat) (graph : Graph)
    (knownFacts : FactDB) (queryFact : List Nat) (queryFactLength : Nat)
    (F : SearchType σ) (fringe : σ) (C : CacheStrategy κ) (cache : κ)
    (timeout nextId : Nat) (r : SearchState σ κ)
    (h : Search observed graph knownFacts queryFact queryFactLength F fringe C cache
      timeout nextId = Except.ok r) :
    r.responses = ((pops r.trace).filter
        (fun p => knownFacts.contains p.fact p.factLength)).map Path.copy ∧
      (pops r.trace).length = r.time ∧ r.time ≤ timeout ∧
      cacheAdds r.trace = pops r.trace := by
  unfold Search at h
  refine searchLoop_shape observed graph knownFacts F C timeout timeout _ r ?_ h
  simp [searchStart, pops, cacheAdds, Event.popped, Event.added]

/-- On a `BreadthFirstSearch`, `pop` is defined whenever the queue is not empty. -/
theorem bfs_pop_defined (q : BreadthFirstSearch) (h : bfs.isEmpty q = false) :
    (bfs.pop q).isSome = true := by
  cases q with
  | mk impl id2path =>
    cases impl with
    | nil => simp [bfs, BreadthFirstSearch.isEmpty] at h
    | cons a t => simp [bfs, BreadthFirstSearch.pop]

/-! ## Claims about Search -/

/-- C1: every path in the vector returned by `Search` is a copy of a path that was
popped from the fringe and whose fact (`fact`, `factLength`) the fact database
reported as present; in particular the fact of every returned path is in the
database. -/
theorem Search_returns_popped_known_facts {σ κ : Type} (observed : Nat → Nat)
    (graph : Graph) (knownFacts : FactDB) (queryFact : List Nat) (queryFactLength : Nat)
    (F : SearchType σ) (fringe : σ) (C : CacheStrategy κ) (cache : κ)
    (timeout nextId : Nat) (r : SearchState σ κ)
    (h : Search observed graph knownFacts queryFact queryFactLength F fringe C cache
      timeout nextId = Except.ok r) :
    ∀ p ∈ r.responses,
      (∃ parent ∈ pops r.trace, p = Path.copy parent ∧
        knownFacts.contains parent.fact parent.factLength = true) ∧
      knownFacts.contains p.fact p.factLength = true := by
  obtain ⟨hresp, -, -, -⟩ := Search_shape observed graph knownFacts queryFact
    queryFactLength F fringe C cache timeout nextId r h
  intro p hp
  rw [hresp, List.mem_map] at hp
  obtain ⟨parent, hmem, hcopy⟩ := hp
  rw [List.mem_filter] at hmem
  refine ⟨⟨parent, hmem.1, hcopy.symm, hmem.2⟩, ?_⟩
  rw [← hcopy, Path.copy_eq]
  exact hmem.2

/-- The run of the mock scenario when ids are the incremented counter. -/
theorem mockSearch_observedCounter : mockSearch observedCounter = Except.ok mockFinal := rfl

/-- The run of the mock scenario when every id read is zero. -/
theorem mockSearch_observedZero : mockSearch observedZero = Except.ok mockFinalZero := rfl

/-- Witness of C1 on the mock scenario (potto, lemur, animal). -/
theorem Search_returns_popped_known_facts_witness :
    Search observedCounter mockGraph mockFacts [POTTO] 1 bfs BreadthFirstSearch.create
        cacheStrategyNone () 64 1 = Except.ok mockFinal ∧
    ∀ p ∈ mockFinal.responses,
      (∃ parent ∈ pops mockFinal.trace, p = Path.copy parent ∧
        mockFacts.contains parent.fact parent.factLength = true) ∧
      mockFacts.contains p.fact p.factLength = true :=
  ⟨rfl, Search_returns_popped_known_facts observedCounter mockGraph mockFacts [POTTO] 1 bfs
    BreadthFirstSearch.create cacheStrategyNone () 64 1 mockFinal rfl⟩

/-- C2: `Search` terminates (given that `pop` is defined on a non-empty fringe): it
returns, having left the loop through its guard, and pops at most `timeout` paths;
the number of returned paths is at most the number of pops; with `timeout = 0`
nothing is popped and the result is empty. -/
theorem Search_terminates_within_timeout {σ κ : Type} (observed : Nat → Nat)
    (graph : Graph) (knownFacts : FactDB) (queryFact : List Nat) (queryFactLength : Nat)
    (F : SearchType σ) (fringe : σ) (C : CacheStrategy κ) (cache : κ)
    (timeout nextId : Nat)
    (hpop : ∀ q, F.isEmpty q = false → (F.pop q).isSome = true) :
    ∃ r, Search observed graph knownFacts queryFact queryFactLength F fringe C cache
        timeout nextId = Except.ok r ∧
      (F.isEmpty r.fringe = true ∨ timeout ≤ r.time) ∧
      (pops r.trace).length ≤ timeout ∧
      r.responses.length ≤ (pops r.trace).length ∧
      (timeout = 0 → pops r.trace = [] ∧ r.responses = []) := by
  obtain ⟨r, hr⟩ := searchLoop_ok observed graph knownFacts F C timeout hpop timeout
    (searchStart observed queryFact queryFactLength F fringe cache nextId)
  have hr2 : Search observed graph knownFacts queryFact queryFactLength F fringe C cache
      timeout nextId = Except.ok r := hr
  obtain ⟨hresp, hlen, htime, -⟩ := Search_shape observed graph knownFacts queryFact
    queryFactLength F fringe C cache timeout nextId r hr2
  have h1 : (pops r.trace).length ≤ timeout := by omega
  have h2 : r.responses.length ≤ (pops r.trace).length := by
    rw [hresp, List.length_map]
    exact List.length_filter_le _ _
  have hexit : F.isEmpty r.fringe = true ∨ timeout ≤ r.time :=
    searchLoop_exit observed graph knownFacts F C timeout timeout _ r
      (by simp [searchStart]) hr
  refine ⟨r, hr2, hexit, h1, h2, ?_⟩
  intro h0
  have h3 : (pops r.trace).length = 0 := by omega
  have h4 : r.responses.length = 0 := by omega
  exact ⟨List.length_eq_zero.mp h3, List.length_eq_zero.mp h4⟩

/-- Witness of C2: the mock scenario with a `BreadthFirstSearch` fringe. -/
theorem Search_terminates_within_timeout_witness :
    (∀ q, bfs.isEmpty q = false → (bfs.pop q).isSome = true) ∧
    ∃ r, Search observedCounter mockGraph mockFacts [POTTO] 1 bfs BreadthFirstSearch.create
        cacheStrategyNone () 64 1 = Except.ok r ∧
      (bfs.isEmpty r.fringe = true ∨ 64 ≤ r.time) ∧
      (pops r.trace).length ≤ 64 ∧
      r.responses.length ≤ (pops r.trace).length ∧
      (64 = 0 → pops r.trace = [] ∧ r.responses = []) :=
  ⟨bfs_pop_defined, Search_terminates_within_timeout observedCounter mockGraph mockFacts
    [POTTO] 1 bfs BreadthFirstSearch.create cacheStrategyNone () 64 1 bfs_pop_defined⟩

theorem mutatedFact_length (parent : Path) (i sink : Nat) :
    (mutatedFact parent i sink).length = parent.factLength := by
  simp [mutatedFact]

/-- The fields of a successor as the innermost loop body builds it. -/
theorem child_fields (observed : Nat → Nat) (nextId : Nat) (parent : Path) (i : Nat)
    (it : edge) :
    (Path.child observed nextId parent (mutatedFact parent i it.sink) parent.factLength
        it.type).1.fact = mutatedFact parent i it.sink ∧
    (Path.child observed nextId parent (mutatedFact parent i it.sink) parent.factLength
        it.type).1.edgeType = it.type ∧
    (Path.child observed nextId parent (mutatedFact parent i it.sink) parent.factLength
        it.type).1.sourceId = parent.id := by
  refine ⟨?_, rfl, rfl⟩
  have h := copyWords_self (mutatedFact parent i it.sink)
  rw [mutatedFact_length] at h
  exact h

/-- Where the pushed paths come from: the first push is the start state, and every
later push is a successor, built from an edge of type other than 9, of a path
popped before. -/
theorem Search_pushes {σ κ : Type} (observed : Nat → Nat) (graph : Graph)
    (knownFacts : FactDB) (queryFact : List Nat) (queryFactLength : Nat)
    (F : SearchType σ) (fringe : σ) (C : CacheStrategy κ) (cache : κ)
    (timeout nextId : Nat) (r : SearchState σ κ)
    (h : Search observed graph knownFacts queryFact queryFactLength F fringe C cache
      timeout nextId = Except.ok r) :
    ∃ l, pushes r.trace = (Path.root observed nextId queryFact queryFactLength).1 :: l ∧
      ∀ p ∈ l, ∃ parent ∈ pops r.trace, IsSuccessor graph parent p := by
  unfold Search at h
  apply searchLoop_preserves observed graph knownFacts F C timeout
    (fun x => ∃ l, pushes x.trace =
        (Path.root observed nextId queryFact queryFactLength).1 :: l ∧
      ∀ p ∈ l, ∃ parent ∈ pops x.trace, IsSuccessor graph parent p) _ timeout _ r ?_ h
  · intro x x1 hx ht
    obtain ⟨parent, rest, -, hx1, -, -, -, -, -⟩ :=
      tick_frame observed graph knownFacts F C timeout ht
    rw [hx1]
    have key := expand_preserves observed graph F C
      (fun y => (∃ l, pushes y.trace =
          (Path.root observed nextId queryFact queryFactLength).1 :: l ∧
        ∀ p ∈ l, ∃ parent ∈ pops y.trace, IsSuccessor graph parent p) ∧
        parent ∈ pops y.trace) parent ?_ (afterPop knownFacts C x parent rest) ?_
    · exact key.1
    · intro st i it hi hit hst
      obtain ⟨⟨l, hl, hall⟩, hpar⟩ := hst
      obtain ⟨c1, c2, c3⟩ := child_fields observed st.nextId parent i it
      unfold expandEdge
      split_ifs with h9 hseen
      · exact ⟨⟨l, hl, hall⟩, hpar⟩
      · refine ⟨⟨l ++ [(Path.child observed st.nextId parent
            (mutatedFact parent i it.sink) parent.factLength it.type).1], ?_, ?_⟩, ?_⟩
        · simp only [pushes_append, hl]
          simp [pushes, Event.pushed]
        · intro p hp
          rw [List.mem_append] at hp
          rcases hp with hp | hp
          · obtain ⟨par, hpar1, hsucc⟩ := hall p hp
            exact ⟨par, by simpa [pops_append, pops, Event.popped] using hpar1, hsucc⟩
          · rw [List.mem_singleton] at hp
            refine ⟨parent, by simpa [pops_append, pops, Event.popped] using hpar, ?_⟩
            rw [hp]
            exact ⟨i, it, hi, hit, h9, c1, c2, c3⟩
        · simpa [pops_append, pops, Event.popped] using hpar
      · refine ⟨⟨l, ?_, ?_⟩, ?_⟩
        · simp only [pushes_append, hl]
          simp [pushes, Event.pushed]
        · intro p hp
          obtain ⟨par, hpar1, hsucc⟩ := hall p hp
          exact ⟨par, by simpa [pops_append, pops, Event.popped] using hpar1, hsucc⟩
        · simpa [pops_append, pops, Event.popped] using hpar
    · obtain ⟨l, hl, hall⟩ := hx
      have hpops : pops (afterPop knownFacts C x parent rest).trace =
          pops x.trace ++ [parent] := by
        unfold afterPop
        split_ifs <;> simp [pops_append, pops, Event.popped]
      have hpushes : pushes (afterPop knownFacts C x parent rest).trace =
          pushes x.trace := by
        unfold afterPop
        split_ifs <;> simp [pushes_append, pushes, Event.pushed]
      refine ⟨⟨l, by rw [hpushes, hl], ?_⟩, by simp [hpops]⟩
      intro p hp
      obtain ⟨par, hpar1, hsucc⟩ := hall p hp
      exact ⟨par, by simp [hpops, hpar1], hsucc⟩
  · exact ⟨[], by simp [searchStart, pushes, Event.pushed], by simp⟩

/-- C4: `Search` never pushes a successor built from an edge of type 9: the first
path pushed is the start state, and every path pushed after it has an `edgeType`
different from 9 (it is the type of the edge it was built from, which is not 9). -/
theorem Search_never_pushes_nearest_neighbor {σ κ : Type} (observed : Nat → Nat)
    (graph : Graph) (knownFacts : FactDB) (queryFact : List Nat) (queryFactLength : Nat)
    (F : SearchType σ) (fringe : σ) (C : CacheStrategy κ) (cache : κ)
    (timeout nextId : Nat) (r : SearchState σ κ)
    (h : Search observed graph knownFacts queryFact queryFactLength F fringe C cache
      timeout nextId = Except.ok r) :
    (pushes r.trace).head? = some (Path.root observed nextId queryFact queryFactLength).1 ∧
    ∀ p ∈ (pushes r.trace).tail, p.edgeType ≠ 9 ∧
      ∃ parent ∈ pops r.trace, IsSuccessor graph parent p := by
  obtain ⟨l, hl, hall⟩ := Search_pushes observed graph knownFacts queryFact
    queryFactLength F fringe C cache timeout nextId r h
  rw [hl]
  refine ⟨rfl, ?_⟩
  intro p hp
  obtain ⟨parent, hpar, hsucc⟩ := hall p hp
  refine ⟨?_, parent, hpar, hsucc⟩
  obtain ⟨i, it, -, -, h9, -, hty, -⟩ := hsucc
  rw [hty]
  exact h9

/-- Witness of C4 on the mock scenario. -/
theorem Search_never_pushes_nearest_neighbor_witness :
    Search observedCounter mockGraph mockFacts [POTTO] 1 bfs BreadthFirstSearch.create
        cacheStrategyNone () 64 1 = Except.ok mockFinal ∧
    (pushes mockFinal.trace).head? = some (Path.root observedCounter 1 [POTTO] 1).1 ∧
    ∀ p ∈ (pushes mockFinal.trace).tail, p.edgeType ≠ 9 ∧
      ∃ parent ∈ pops mockFinal.trace, IsSuccessor mockGraph parent p :=
  ⟨rfl, Search_never_pushes_nearest_neighbor observedCounter mockGraph mockFacts [POTTO] 1
    bfs BreadthFirstSearch.create cacheStrategyNone () 64 1 mockFinal rfl⟩

/-- C5, as stated, fails: in the mock scenario the successor `[lemur]` is pushed
when the only path passed to `cache->add` so far is the start state `[potto]`. -/
theorem Search_pushes_before_cache_add :
    ∃ r, mockSearch observedCounter = Except.ok r ∧ ¬ RecordedBeforePush r.trace := by
  refine ⟨mockFinal, rfl, ?_⟩
  intro hrec
  have hmem := hrec
    [Event.push ⟨2, 0, 255, [POTTO]⟩, Event.pop ⟨2, 0, 255, [POTTO]⟩,
      Event.cacheAdd ⟨2, 0, 255, [POTTO]⟩, Event.isSeen ⟨3, 2, 0, [LEMUR]⟩ false]
    ⟨3, 2, 0, [LEMUR]⟩
    [Event.pop ⟨3, 2, 0, [LEMUR]⟩,
      Event.cacheAdd ⟨3, 2, 0, [LEMUR]⟩, Event.isSeen ⟨4, 3, 0, [ANIMAL]⟩ false,
      Event.push ⟨4, 3, 0, [ANIMAL]⟩, Event.pop ⟨4, 3, 0, [ANIMAL]⟩,
      Event.cacheAdd ⟨4, 3, 0, [ANIMAL]⟩, Event.respond ⟨4, 3, 0, [ANIMAL]⟩]
    rfl (by simp)
  revert hmem
  decide

/-- C5, amended: a successor that the cache does not report as seen is pushed at
once (the pushes after the start state are exactly the successors reported as
not seen, in order), and `cache->add` is called on a path when it is popped: the
paths passed to `cache->add` are exactly the popped paths, in pop order. -/
theorem Search_records_on_pop {σ κ : Type} (observed : Nat → Nat)
    (graph : Graph) (knownFacts : FactDB) (queryFact : List Nat) (queryFactLength : Nat)
    (F : SearchType σ) (fringe : σ) (C : CacheStrategy κ) (cache : κ)
    (timeout nextId : Nat) (r : SearchState σ κ)
    (h : Search observed graph knownFacts queryFact queryFactLength F fringe C cache
      timeout nextId = Except.ok r) :
    cacheAdds r.trace = pops r.trace ∧
    pushes r.trace =
      (Path.root observed nextId queryFact queryFactLength).1 :: notSeens r.trace := by
  obtain ⟨-, -, -, hadds⟩ := Search_shape observed graph knownFacts queryFact
    queryFactLength F fringe C cache timeout nextId r h
  refine ⟨hadds, ?_⟩
  unfold Search at h
  apply searchLoop_preserves observed graph knownFacts F C timeout
    (fun x => pushes x.trace =
      (Path.root observed nextId queryFact queryFactLength).1 :: notSeens x.trace)
    _ timeout _ r ?_ h
  · intro x x1 hx ht
    obtain ⟨parent, rest, -, hx1, -, -, -, -, -⟩ :=
      tick_frame observed graph knownFacts F C timeout ht
    rw [hx1]
    apply expand_preserves observed graph F C
      (fun y => pushes y.trace =
        (Path.root observed nextId queryFact queryFactLength).1 :: notSeens y.trace) parent
    · intro st i it _ _ hst
      unfold expandEdge
      split_ifs with h9 hseen
      · exact hst
      · simp only [pushes, notSeens, List.filterMap_append] at hst ⊢
        rw [hst]
        simp [Event.pushed, Event.notSeen]
      · simp only [pushes, notSeens, List.filterMap_append] at hst ⊢
        rw [hst]
        simp [Event.pushed, Event.notSeen]
    · unfold afterPop
      split_ifs
      · simp only [pushes, notSeens, List.filterMap_append] at hx ⊢
        rw [hx]
        simp [Event.pushed, Event.notSeen]
      · simp only [pushes, notSeens, List.filterMap_append] at hx ⊢
        rw [hx]
        simp [Event.pushed, Event.notSeen]
  · simp [searchStart, pushes, notSeens, Event.pushed, Event.notSeen]

/-- Witness of the amended C5 on the mock scenario. -/
theorem Search_records_on_pop_witness :
    Search observedCounter mockGraph mockFacts [POTTO] 1 bfs BreadthFirstSearch.create
        cacheStrategyNone () 64 1 = Except.ok mockFinal ∧
    cacheAdds mockFinal.trace = pops mockFinal.trace ∧
    pushes mockFinal.trace =
      (Path.root observedCounter 1 [POTTO] 1).1 :: notSeens mockFinal.trace :=
  ⟨rfl, Search_records_on_pop observedCounter mockGraph mockFacts [POTTO] 1
    bfs BreadthFirstSearch.create cacheStrategyNone () 64 1 mockFinal rfl⟩

/-! ## Claims about BreadthFirstSearch, CacheStrategyNone and Path -/

/-- The queue discipline of `runOps`: the paths waiting in the queue followed by
the paths pushed are the paths popped followed by the paths left in the queue,
and every pop of the sequence returned one path. -/
theorem runOps_queue (ops : List BfsOp) (q q1 : BreadthFirstSearch) (popped : List Path)
    (h : runOps ops q = some (q1, popped)) :
    q.impl ++ pushedPaths ops = popped ++ q1.impl ∧ popped.length = popCount ops := by
  induction ops generalizing q popped with
  | nil =>
    simp only [runOps, Option.some.injEq, Prod.mk.injEq] at h
    obtain ⟨h1, h2⟩ := h
    subst h1 h2
    simp [pushedPaths, popCount]
  | cons op ops ih =>
    cases op with
    | push p =>
      simp only [runOps] at h
      obtain ⟨h1, h2⟩ := ih _ _ h
      refine ⟨?_, by simpa [popCount] using h2⟩
      rw [← h1]
      simp [BreadthFirstSearch.push, pushedPaths, Path.copy_eq]
    | pop =>
      simp only [runOps] at h
      cases hq : q.pop with
      | none => simp [hq] at h
      | some xq =>
        obtain ⟨x, q2⟩ := xq
        simp only [hq] at h
        cases hr : runOps ops q2 with
        | none => simp [hr] at h
        | some res =>
          obtain ⟨q3, popped1⟩ := res
          simp only [hr, Option.some.injEq, Prod.mk.injEq] at h
          obtain ⟨h1, h2⟩ := h
          subst h1 h2
          obtain ⟨i1, i2⟩ := ih _ _ hr
          unfold BreadthFirstSearch.pop at hq
          cases himpl : q.impl with
          | nil => simp [himpl] at hq
          | cons f rest =>
            simp only [himpl, Option.some.injEq, Prod.mk.injEq] at hq
            obtain ⟨hx, hq2⟩ := hq
            subst hx hq2
            simp only [] at i1
            refine ⟨?_, by simp [popCount, i2]⟩
            simp [pushedPaths, Path.copy_eq, i1]

/-- C3: for every sequence of pushes and pops on a new `BreadthFirstSearch` in
which no pop is made on an empty queue, the k-th pop returns the k-th pushed
path (the popped paths are the first pushed paths, in push order), and `isEmpty`
is true exactly when as many paths have been popped as pushed. -/
theorem BreadthFirstSearch_fifo (ops : List BfsOp) (q : BreadthFirstSearch)
    (popped : List Path) (h : runOps ops BreadthFirstSearch.create = some (q, popped)) :
    popped.length = popCount ops ∧
    popped = (pushedPaths ops).take (popCount ops) ∧
    (∀ (k : Nat) (p : Path), popped[k]? = some p → (pushedPaths ops)[k]? = some p) ∧
    (q.isEmpty = true ↔ popCount ops = (pushedPaths ops).length) := by
  obtain ⟨h1, h2⟩ := runOps_queue ops _ q popped h
  simp only [BreadthFirstSearch.create, List.nil_append] at h1
  have htake : popped = (pushedPaths ops).take (popCount ops) := by
    rw [h1, ← h2]
    simp
  refine ⟨h2, htake, ?_, ?_⟩
  · intro k p hk
    have hlt : k < popped.length := by
      by_contra hge
      rw [List.getElem?_eq_none (by omega)] at hk
      exact Option.noConfusion hk
    rw [h1, List.getElem?_append_left hlt]
    exact hk
  · rw [h1, List.length_append, ← h2]
    unfold BreadthFirstSearch.isEmpty
    rw [List.isEmpty_iff]
    constructor
    · intro he
      simp [he]
    · intro hlen
      have : q.impl.length = 0 := by omega
      exact List.length_eq_zero.mp this

/-- Witness of C3: two pushes, a pop, a push and two pops. -/
theorem BreadthFirstSearch_fifo_witness :
    runOps fifoOps BreadthFirstSearch.create = some (fifoQueue, fifoPopped) ∧
    fifoPopped.length = popCount fifoOps ∧
    fifoPopped = (pushedPaths fifoOps).take (popCount fifoOps) ∧
    (∀ (k : Nat) (p : Path), fifoPopped[k]? = some p → (pushedPaths fifoOps)[k]? = some p) ∧
    (fifoQueue.isEmpty = true ↔ popCount fifoOps = (pushedPaths fifoOps).length) :=
  ⟨rfl, BreadthFirstSearch_fifo fifoOps fifoQueue fifoPopped rfl⟩

/-- C6: `CacheStrategyNone::isSeen` returns false for every path, also for a path
that was passed to `add` before; `add` stores nothing (the state after any
sequence of `add` calls is the state before) and `isSeen` leaves the state as it
is. -/
theorem CacheStrategyNone_never_seen (c : Unit) (added : List Path) (p : Path) :
    (cacheStrategyNone.isSeen c p).1 = false ∧
    (cacheStrategyNone.isSeen (cacheStrategyNone.add c p) p).1 = false ∧
    (cacheStrategyNone.isSeen (added.foldl cacheStrategyNone.add c) p).1 = false ∧
    added.foldl cacheStrategyNone.add c = c ∧
    (cacheStrategyNone.isSeen c p).2 = c :=
  ⟨rfl, rfl, rfl, rfl, rfl⟩

/-- C9: `Path::source` returns `NULL` exactly when `sourceId` is 0 (on a
`BreadthFirstSearch`, whose `findPathById` is never `NULL`), and otherwise returns
the entry of the fringe for the id `sourceId` (for every fringe); the root
constructor always produces `sourceId` 0, and the child constructor always
produces `sourceId` equal to the id of the parent. -/
theorem Path_source_root_sentinel {σ : Type} (F : SearchType σ) (queue : σ)
    (q : BreadthFirstSearch) (p parent : Path) (observed : Nat → Nat) (nextId : Nat)
    (fact : List Nat) (factLength edgeType : Nat) :
    (Path.source p bfs q = PathPtr.null ↔ p.sourceId = 0) ∧
    (p.sourceId = 0 → Path.source p F queue = PathPtr.null) ∧
    (p.sourceId ≠ 0 → Path.source p F queue = F.findPathById queue p.sourceId) ∧
    (p.sourceId ≠ 0 → q.deref (Path.source p bfs q) = q.id2path[p.sourceId]?) ∧
    (Path.root observed nextId fact factLength).1.sourceId = 0 ∧
    (Path.child observed nextId parent fact factLength edgeType).1.sourceId = parent.id := by
  refine ⟨?_, ?_, ?_, ?_, rfl, rfl⟩
  · unfold Path.source
    split_ifs with h0
    · simp [h0]
    · simp [h0, bfs, BreadthFirstSearch.findPathById]
  · intro h0
    simp [Path.source, h0]
  · intro h0
    simp [Path.source, h0]
  · intro h0
    simp [Path.source, h0, bfs, BreadthFirstSearch.findPathById, BreadthFirstSearch.deref]

/-- The counter itself does increase: each call of `generateUniqueId` leaves
`nextId + 1` (64-bit) in the global counter, whatever value the caller reads. -/
theorem generateUniqueId_counter (observed : Nat → Nat) (nextId : Nat) :
    (generateUniqueId observed nextId).2 = (nextId + 1) % 2 ^ 64 := rfl

/-- C10, the code at the failing input: `generateUniqueId` has no `return`
statement, so nothing ties the id of a path to the counter.  In a build that
leaves zero in the result, the start state of the mock scenario and its successor
both get id 0, the root sentinel, although the counter went from 1 to 3. -/
theorem generateUniqueId_ids_not_increasing :
    (Path.root observedZero 1 [POTTO] 1).1.id = 0 ∧
    (Path.root observedZero 1 [POTTO] 1).2 = 2 ∧
    (Path.child observedZero 2 (Path.root observedZero 1 [POTTO] 1).1 [LEMUR] 1 0).1.id = 0 ∧
    (Path.child observedZero 2 (Path.root observedZero 1 [POTTO] 1).1 [LEMUR] 1 0).2 = 3 := by
  decide

/-- The mock scenario when the ids are the values of the counter: the one returned
path has fact `[animal]`, its source is the entry with fact `[lemur]`, whose
source is the start state with fact `[potto]` and source id 0. -/
theorem mockSearch_observedCounter_path :
    ∃ r animal lemur potto, mockSearch observedCounter = Except.ok r ∧
      r.responses = [animal] ∧ animal.fact = [ANIMAL] ∧
      r.fringe.deref (Path.source animal bfs r.fringe) = some lemur ∧
      lemur.fact = [LEMUR] ∧
      r.fringe.deref (Path.source lemur bfs r.fringe) = some potto ∧
      potto.fact = [POTTO] ∧ potto.sourceId = 0 ∧
      Path.source potto bfs r.fringe = PathPtr.null :=
  ⟨mockFinal, ⟨4, 3, 0, [ANIMAL]⟩, ⟨3, 2, 0, [LEMUR]⟩, ⟨2, 0, 255, [POTTO]⟩,
    rfl, rfl, rfl, rfl, rfl, rfl, rfl, rfl, rfl⟩

/-- C7, the code at the failing input: in a build whose `generateUniqueId` leaves
zero in its result, `Search` on the mock scenario still returns exactly one path,
with fact `[animal]`, but that path has source id 0: `Path::source` returns `NULL`
for it, not a path with fact `[lemur]`. -/
theorem mockSearch_observedZero_no_source :
    ∃ r animal, mockSearch observedZero = Except.ok r ∧
      r.responses = [animal] ∧ animal.fact = [ANIMAL] ∧
      Path.source animal bfs r.fringe = PathPtr.null ∧
      r.fringe.deref (Path.source animal bfs r.fringe) = none :=
  ⟨mockFinalZero, ⟨0, 0, 0, [ANIMAL]⟩, rfl, rfl, rfl, rfl, rfl⟩

/-- C8, the code at the failing input: in a build whose `generateUniqueId` leaves
zero in its result, every path returned by `Search` on the mock scenario has
source id 0, so following `Path::source` stops at once, at a path whose fact
`[animal]` is not the query fact `[potto]`. -/
theorem mockSearch_observedZero_chain_ends_off_query :
    ∃ r, mockSearch observedZero = Except.ok r ∧ r.responses ≠ [] ∧
      ∀ p ∈ r.responses, p.sourceId = 0 ∧ Path.source p bfs r.fringe = PathPtr.null ∧
        p.fact ≠ [POTTO] := by
  refine ⟨mockFinalZero, rfl, by decide, ?_⟩
  decide

/-! ## The source chain when the ids are the counter values -/

theorem isSeens_append (a b : List Event) : isSeens (a ++ b) = isSeens a ++ isSeens b := by
  simp [isSeens, List.filterMap_append]

/-- After `push(c)` the slot of the id of `c` holds `c`. -/
theorem bfs_push_slot_self (q : BreadthFirstSearch) (c : Path) :
    (q.push c).id2path[c.id]? = some c := by
  have hlen : c.id < (BreadthFirstSearch.grow q.id2path c).length := by
    simp only [BreadthFirstSearch.grow, List.length_append, List.length_replicate]
    omega
  simp only [BreadthFirstSearch.push]
  rw [List.getElem?_set_self hlen, Path.copy_eq]

/-- After `push(c)` every slot that held a path, other than the slot of the id of
`c`, holds the same path. -/
theorem bfs_push_slot_other (q : BreadthFirstSearch) (c p : Path) (k : Nat)
    (hk : c.id ≠ k) (h : q.id2path[k]? = some p) : (q.push c).id2path[k]? = some p := by
  obtain ⟨hlt, -⟩ := List.getElem?_eq_some.mp h
  simp only [BreadthFirstSearch.push]
  rw [List.getElem?_set_ne hk]
  simp only [BreadthFirstSearch.grow]
  rw [List.getElem?_append_left hlt]
  exact h

/-- With the incremented counter as id and no 64-bit wrap, a successor gets the id
`nextId + 1`, which is also the new value of the counter. -/
theorem child_counter (nextId : Nat) (parent : Path) (fact : List Nat)
    (factLength edgeType : Nat) (h : nextId + 1 < 2 ^ 64) :
    (Path.child observedCounter nextId parent fact factLength edgeType).1.id = nextId + 1 ∧
    (Path.child observedCounter nextId parent fact factLength edgeType).2 = nextId + 1 := by
  simp only [Path.child, generateUniqueId, observedCounter]
  exact ⟨Nat.mod_eq_of_lt h, Nat.mod_eq_of_lt h⟩

/-- One execution of the innermost loop body keeps `CounterIds`. -/
theorem expandEdge_counterIds {κ : Type} (graph : Graph) (C : CacheStrategy κ)
    (nextId : Nat) (start parent : Path) (i : Nat) (it : edge)
    (st : SearchState BreadthFirstSearch κ) (hi : i < parent.factLength)
    (hit : it ∈ graph.outgoingEdges (parent.fact.getD i 0))
    (hbound : nextId + 1 +
      (isSeens (expandEdge observedCounter bfs C parent i st it).trace).length < 2 ^ 64)
    (hst : CounterIds graph nextId start st) (hpar : parent ∈ pushes st.trace) :
    CounterIds graph nextId start (expandEdge observedCounter bfs C parent i st it) ∧
    parent ∈ pushes (expandEdge observedCounter bfs C parent i st it).trace := by
  obtain ⟨hcounter, hslots, hwaiting, ⟨l, hl, hparents⟩, hpopped⟩ := hst
  obtain ⟨c1, c2, c3⟩ := child_fields observedCounter st.nextId parent i it
  unfold expandEdge at hbound ⊢
  split_ifs at hbound ⊢ with h9 hseen
  · exact ⟨⟨hcounter, hslots, hwaiting, ⟨l, hl, hparents⟩, hpopped⟩, hpar⟩
  · simp only [isSeens_append, List.length_append] at hbound
    have hone : (isSeens [Event.isSeen (Path.child observedCounter st.nextId parent
        (mutatedFact parent i it.sink) parent.factLength it.type).1 false,
        Event.push (Path.child observedCounter st.nextId parent
        (mutatedFact parent i it.sink) parent.factLength it.type).1]).length = 1 := rfl
    rw [hone] at hbound
    obtain ⟨hid, hnext⟩ := child_counter st.nextId parent
      (mutatedFact parent i it.sink) parent.factLength it.type (by omega)
    have hparid := (hslots parent hpar).2.1
    refine ⟨⟨?_, ?_, ?_, ?_, ?_⟩, ?_⟩
    · simp only [isSeens_append, List.length_append, hone, hnext]
      omega
    · intro p hp
      simp only [pushes_append, List.mem_append] at hp
      simp only [hnext]
      rcases hp with hp | hp
      · obtain ⟨b1, b2, b3⟩ := hslots p hp
        refine ⟨b1, by omega, ?_⟩
        exact bfs_push_slot_other _ _ _ _ (by omega) b3
      · simp only [pushes, List.filterMap_cons, Event.pushed, List.filterMap_nil,
          List.mem_singleton] at hp
        subst hp
        refine ⟨by omega, by omega, ?_⟩
        exact bfs_push_slot_self _ _
    · intro p hp
      simp only [bfs, BreadthFirstSearch.push, List.mem_append, List.mem_singleton] at hp
      simp only [pushes_append, List.mem_append]
      rcases hp with hp | hp
      · exact Or.inl (hwaiting p hp)
      · right
        rw [hp, Path.copy_eq]
        simp [pushes, Event.pushed]
    · refine ⟨l ++ [(Path.child observedCounter st.nextId parent
        (mutatedFact parent i it.sink) parent.factLength it.type).1], ?_, ?_⟩
      · simp only [pushes_append, hl]
        simp [pushes, Event.pushed]
      · intro p hp
        rw [List.mem_append] at hp
        rcases hp with hp | hp
        · obtain ⟨par, hpar1, hsucc, hlt⟩ := hparents p hp
          exact ⟨par, by simp only [pushes_append, List.mem_append]; exact Or.inl hpar1,
            hsucc, hlt⟩
        · rw [List.mem_singleton] at hp
          subst hp
          refine ⟨parent, by simp only [pushes_append, List.mem_append]; exact Or.inl hpar,
            ⟨i, it, hi, hit, h9, c1, c2, c3⟩, by omega⟩
    · intro p hp
      simp only [pops_append, List.mem_append] at hp
      simp only [pushes_append, List.mem_append]
      rcases hp with hp | hp
      · exact Or.inl (hpopped p hp)
      · simp [pops, Event.popped] at hp
    · simp only [pushes_append, List.mem_append]
      exact Or.inl hpar
  · simp only [isSeens_append, List.length_append] at hbound
    have hone : (isSeens [Event.isSeen (Path.child observedCounter st.nextId parent
        (mutatedFact parent i it.sink) parent.factLength it.type).1 true]).length = 1 := rfl
    rw [hone] at hbound
    obtain ⟨hid, hnext⟩ := child_counter st.nextId parent
      (mutatedFact parent i it.sink) parent.factLength it.type (by omega)
    have hpushes : pushes (st.trace ++ [Event.isSeen (Path.child observedCounter st.nextId
        parent (mutatedFact parent i it.sink) parent.factLength it.type).1 true]) =
        pushes st.trace := by
      simp [pushes_append, pushes, Event.pushed]
    have hpops : pops (st.trace ++ [Event.isSeen (Path.child observedCounter st.nextId
        parent (mutatedFact parent i it.sink) parent.factLength it.type).1 true]) =
        pops st.trace := by
      simp [pops_append, pops, Event.popped]
    refine ⟨⟨?_, ?_, ?_, ?_, ?_⟩, ?_⟩
    · simp only [isSeens_append, List.length_append, hone, hnext]
      omega
    · intro p hp
      simp only [hpushes] at hp
      simp only [hnext]
      obtain ⟨b1, b2, b3⟩ := hslots p hp
      exact ⟨b1, by omega, b3⟩
    · intro p hp
      simp only [hpushes]
      exact hwaiting p hp
    · simp only [hpushes]
      exact ⟨l, hl, hparents⟩
    · intro p hp
      simp only [hpops] at hp
      simp only [hpushes]
      exact hpopped p hp
    · simp only [hpushes]
      exact hpar

/-- One execution of the innermost loop body builds at most one successor and
forgets none. -/
theorem expandEdge_isSeens_le {σ κ : Type} (observed : Nat → Nat) (F : SearchType σ)
    (C : CacheStrategy κ) (parent : Path) (i : Nat) (st : SearchState σ κ) (it : edge) :
    (isSeens st.trace).length ≤
      (isSeens (expandEdge observed F C parent i st it).trace).length := by
  unfold expandEdge
  split_ifs
  · exact Nat.le_refl _
  · simp only [isSeens_append, List.length_append]
    omega
  · simp only [isSeens_append, List.length_append]
    omega

/-- One tick of `Search` on a `BreadthFirstSearch` keeps `CounterIds`, as long as
the counter has not wrapped. -/
theorem tick_counterIds {κ : Type} (graph : Graph) (knownFacts : FactDB)
    (C : CacheStrategy κ) (timeout nextId : Nat) (start : Path)
    (x x1 : SearchState BreadthFirstSearch κ)
    (hx : nextId + 1 + (isSeens x.trace).length < 2 ^ 64 → CounterIds graph nextId start x)
    (ht : tick observedCounter graph knownFacts bfs C timeout x = Except.ok x1)
    (hbound : nextId + 1 + (isSeens x1.trace).length < 2 ^ 64) :
    CounterIds graph nextId start x1 := by
  obtain ⟨parent, rest, hpop, hx1, -, -, -, -, -⟩ :=
    tick_frame observedCounter graph knownFacts bfs C timeout ht
  have key := expand_preserves observedCounter graph bfs C
    (fun y => nextId + 1 + (isSeens y.trace).length < 2 ^ 64 →
      CounterIds graph nextId start y ∧ parent ∈ pushes y.trace) parent ?_
    (afterPop knownFacts C x parent rest) ?_
  · rw [hx1] at hbound ⊢
    exact (key hbound).1
  · intro st i it hi hit hst hb
    have hle := expandEdge_isSeens_le observedCounter bfs C parent i st it
    obtain ⟨h1, h2⟩ := hst (by omega)
    exact expandEdge_counterIds graph C nextId start parent i it st hi hit hb h1 h2
  · intro hb
    have hseens : isSeens (afterPop knownFacts C x parent rest).trace = isSeens x.trace := by
      unfold afterPop
      split_ifs <;> simp [isSeens_append, isSeens, Event.queried]
    have hpushes : pushes (afterPop knownFacts C x parent rest).trace = pushes x.trace := by
      unfold afterPop
      split_ifs <;> simp [pushes_append, pushes, Event.pushed]
    have hpops : pops (afterPop knownFacts C x parent rest).trace =
        pops x.trace ++ [parent] := by
      unfold afterPop
      split_ifs <;> simp [pops_append, pops, Event.popped]
    have hfringe : (afterPop knownFacts C x parent rest).fringe = rest := by
      unfold afterPop
      split_ifs <;> rfl
    have hnext : (afterPop knownFacts C x parent rest).nextId = x.nextId := by
      unfold afterPop
      split_ifs <;> rfl
    rw [hseens] at hb
    obtain ⟨hcounter, hslots, hwaiting, hparents, hpopped⟩ := hx hb
    simp only [bfs, BreadthFirstSearch.pop] at hpop
    cases himpl : x.fringe.impl with
    | nil => simp [himpl] at hpop
    | cons f tl =>
      simp only [himpl, Option.some.injEq, Prod.mk.injEq] at hpop
      obtain ⟨hparent, hrest⟩ := hpop
      rw [Path.copy_eq] at hparent
      subst hparent
      have hf : f ∈ pushes x.trace := hwaiting f (by simp [himpl])
      refine ⟨⟨?_, ?_, ?_, ?_, ?_⟩, ?_⟩
      · rw [hnext, hseens]
        exact hcounter
      · intro p hp
        rw [hpushes] at hp
        rw [hnext, hfringe, ← hrest]
        exact hslots p hp
      · intro p hp
        rw [hfringe, ← hrest] at hp
        rw [hpushes]
        exact hwaiting p (by simp [himpl, List.mem_cons_of_mem _ hp])
      · rw [hpushes]
        exact hparents
      · intro p hp
        rw [hpops, List.mem_append, List.mem_singleton] at hp
        rw [hpushes]
        rcases hp with hp | hp
        · exact hpopped p hp
        · rw [hp]
          exact hf
      · rw [hpushes]
        exact hf

/-- The claim of C8 holds when the ids are what the constructors intend: if every
id read from `generateUniqueId` is the incremented counter and the counter does
not wrap, then from every path returned by `Search` with a new
`BreadthFirstSearch`, following `Path::source` reaches the start state, whose
source id is 0 and whose fact is the query fact, and every step goes from a
successor to the path it was built from. -/
theorem Search_source_chain_of_counter_ids {κ : Type} (graph : Graph)
    (knownFacts : FactDB) (queryFact : List Nat) (queryFactLength : Nat)
    (C : CacheStrategy κ) (cache : κ) (timeout nextId : Nat)
    (r : SearchState BreadthFirstSearch κ)
    (h : Search observedCounter graph knownFacts queryFact queryFactLength bfs
      BreadthFirstSearch.create C cache timeout nextId = Except.ok r)
    (hwrap : nextId + 1 + (isSeens r.trace).length < 2 ^ 64) :
    ∀ p ∈ r.responses,
      ReachesQuery graph r.fringe (copyWords queryFact queryFactLength) p := by
  have hshape := Search_shape observedCounter graph knownFacts queryFact queryFactLength
    bfs BreadthFirstSearch.create C cache timeout nextId r h
  unfold Search at h
  have hinv : nextId + 1 + (isSeens r.trace).length < 2 ^ 64 →
      CounterIds graph nextId (Path.root observedCounter nextId queryFact queryFactLength).1
        r := by
    apply searchLoop_preserves observedCounter graph knownFacts bfs C timeout
      (fun x => nextId + 1 + (isSeens x.trace).length < 2 ^ 64 →
        CounterIds graph nextId
          (Path.root observedCounter nextId queryFact queryFactLength).1 x)
      _ timeout _ r ?_ h
    · intro x x1 hx ht hb
      exact tick_counterIds graph knownFacts C timeout nextId _ x x1 hx ht hb
    · intro hb
      have hlt : nextId + 1 < 2 ^ 64 := by omega
      have hid : (Path.root observedCounter nextId queryFact queryFactLength).1.id =
          nextId + 1 := by
        simp only [Path.root, generateUniqueId, observedCounter]
        exact Nat.mod_eq_of_lt hlt
      have hnext : (Path.root observedCounter nextId queryFact queryFactLength).2 =
          nextId + 1 := by
        simp only [Path.root, generateUniqueId, observedCounter]
        exact Nat.mod_eq_of_lt hlt
      refine ⟨?_, ?_, ?_, ?_, ?_⟩
      · simp [searchStart, hnext, isSeens, Event.queried]
      · intro p hp
        simp only [searchStart, pushes, List.filterMap_cons, Event.pushed,
          List.filterMap_nil, List.mem_singleton] at hp
        subst hp
        simp only [searchStart, hnext, hid]
        refine ⟨by omega, by omega, ?_⟩
        have := bfs_push_slot_self BreadthFirstSearch.create
          (Path.root observedCounter nextId queryFact queryFactLength).1
        rw [hid] at this
        exact this
      · intro p hp
        simp only [searchStart, bfs, BreadthFirstSearch.push, BreadthFirstSearch.create,
          List.nil_append, List.mem_singleton] at hp
        rw [hp, Path.copy_eq]
        simp [searchStart, pushes, Event.pushed]
      · exact ⟨[], by simp [searchStart, pushes, Event.pushed], by simp⟩
      · intro p hp
        simp [searchStart, pops, Event.popped] at hp
  obtain ⟨-, hslots, -, ⟨l, hl, hparents⟩, hpopped⟩ := hinv hwrap
  have hreach : ∀ n, ∀ p ∈ pushes r.trace, p.id = n →
      ReachesQuery graph r.fringe (copyWords queryFact queryFactLength) p := by
    intro n
    induction n using Nat.strong_induction_on with
    | _ n ih =>
      intro p hp hn
      have hp2 := hp
      rw [hl, List.mem_cons] at hp2
      rcases hp2 with hp2 | hp2
      · subst hp2
        exact ReachesQuery.root _ rfl rfl
      · obtain ⟨parent, hpar, hsucc, hlt⟩ := hparents p hp2
        have hsrc : p.sourceId = parent.id := by
          obtain ⟨i, it, -, -, -, -, -, hs⟩ := hsucc
          exact hs
        obtain ⟨b1, -, b3⟩ := hslots parent hpar
        have hne : p.sourceId ≠ 0 := by omega
        refine ReachesQuery.step p parent hne ?_ hsucc (ih parent.id (by omega) parent hpar rfl)
        rw [← hsrc] at b3
        simp only [Path.source, bfs, BreadthFirstSearch.findPathById]
        rw [if_neg hne]
        exact b3
  intro p hp
  rw [hshape.1, List.mem_map] at hp
  obtain ⟨parent, hmem, hcopy⟩ := hp
  rw [List.mem_filter] at hmem
  rw [← hcopy, Path.copy_eq]
  exact hreach parent.id parent (hpopped parent hmem.1) rfl

/-- The mock scenario is an instance of `Search_source_chain_of_counter_ids`: with
counter ids the returned path reaches the query `[potto]` through its sources. -/
theorem mockSearch_source_chain :
    ∀ p ∈ mockFinal.responses, ReachesQuery mockGraph mockFinal.fringe [POTTO] p :=
  Search_source_chain_of_counter_ids mockGraph mockFacts [POTTO] 1 cacheStrategyNone ()
    64 1 mockFinal rfl (by decide)

/-! ## Path equality (C11) -/

/-- Two lists of the same length with the same entry at every position are equal. -/
theorem list_eq_of_getD (a b : List Nat) (hlen : a.length = b.length)
    (h : ∀ i, i < a.length → b.getD i 0 = a.getD i 0) : a = b := by
  apply List.ext_getElem hlen
  intro i h1 h2
  have := h i h1
  simp only [List.getD_eq_getElem?_getD, List.getElem?_eq_getElem h1,
    List.getElem?_eq_getElem h2, Option.getD_some] at this
  exact this.symm

/-- C11, as stated, fails: two paths that express the same fact `[potto]` (same
`factLength`, same words) and differ in their id are not equal for `operator==`. -/
theorem Path_eqOp_distinguishes_ids :
    samePottoA.fact = samePottoB.fact ∧ samePottoA.factLength = samePottoB.factLength ∧
    samePottoA.sourceId = samePottoB.sourceId ∧
    Path.eqOp samePottoA samePottoB = false := by
  decide

/-- C11, amended: `operator==` compares every field.  It returns true exactly when
the two paths have the same `id`, `sourceId`, `edgeType` and `factLength` and the
same word at every position, that is, exactly when they are the same path value. -/
theorem Path_eqOp_iff (p q : Path) :
    (Path.eqOp p q = true ↔
      p.id = q.id ∧ p.sourceId = q.sourceId ∧ p.edgeType = q.edgeType ∧
      p.factLength = q.factLength ∧
      ∀ i, i < p.factLength → q.fact.getD i 0 = p.fact.getD i 0) ∧
    (Path.eqOp p q = true ↔ p = q) := by
  have h1 : Path.eqOp p q = true ↔
      p.id = q.id ∧ p.sourceId = q.sourceId ∧ p.edgeType = q.edgeType ∧
      p.factLength = q.factLength ∧
      ∀ i, i < p.factLength → q.fact.getD i 0 = p.fact.getD i 0 := by
    unfold Path.eqOp
    by_cases hm : (p.id == q.id && p.sourceId == q.sourceId &&
        p.edgeType == q.edgeType && p.factLength == q.factLength) = true
    · have hm2 := hm
      simp only [Bool.and_eq_true, beq_iff_eq] at hm2
      obtain ⟨⟨⟨a1, a2⟩, a3⟩, a4⟩ := hm2
      simp only [hm, Bool.not_true, Bool.false_eq_true, if_false, List.all_eq_true,
        List.mem_range, beq_iff_eq]
      exact ⟨fun h => ⟨a1, a2, a3, a4, h⟩, fun h => h.2.2.2.2⟩
    · have hm3 : (p.id == q.id && p.sourceId == q.sourceId &&
          p.edgeType == q.edgeType && p.factLength == q.factLength) = false := by
        simpa using hm
      simp only [hm3, Bool.not_false, if_true, Bool.false_eq_true, false_iff]
      intro hfields
      apply hm
      simp only [Bool.and_eq_true, beq_iff_eq]
      exact ⟨⟨⟨hfields.1, hfields.2.1⟩, hfields.2.2.1⟩, hfields.2.2.2.1⟩
  refine ⟨h1, ?_⟩
  rw [h1]
  constructor
  · intro h
    obtain ⟨a1, a2, a3, a4, a5⟩ := h
    cases p with
    | mk pid psrc pty pfact =>
      cases q with
      | mk qid qsrc qty qfact =>
        simp only [Path.factLength] at a1 a2 a3 a4 a5
        have hfact : pfact = qfact := list_eq_of_getD pfact qfact a4 a5
        simp [a1, a2, a3, hfact]
  · intro h
    subst h
    exact ⟨rfl, rfl, rfl, rfl, fun _ _ => rfl⟩

/-! ## InMemoryGraph and BidirectionalGraph (C12, C13, C14) -/

/-- What `containsDeletion` does on a graph whose bit vector covers the source word
and holds the flag of every invalid deletion: it answers whether the tagged word
(`source`, `source_sense`, `MONOTONE_DEFAULT`) is outside the invalid-deletion set. -/
theorem containsDeletion_of_flags (g : InMemoryGraph) (deletion : edge)
    (hlen : deletion.source < g.invalidDeletionWords.length)
    (hflags : ∀ t ∈ g.invalidDeletions, g.invalidDeletionWords[t.word]? = some true) :
    g.containsDeletion deletion =
      some (decide (getTaggedWord deletion.source deletion.source_sense MONOTONE_DEFAULT
        ∉ g.invalidDeletions)) := by
  unfold InMemoryGraph.containsDeletion
  cases hflag : g.invalidDeletionWords[deletion.source]? with
  | none =>
    rw [List.getElem?_eq_none_iff] at hflag
    omega
  | some b =>
    cases b with
    | true => rfl
    | false =>
      simp only [Option.some.injEq]
      symm
      rw [decide_eq_true_iff]
      intro hmem
      have := hflags _ hmem
      simp only [getTaggedWord] at this
      rw [hflag] at this
      exact Bool.noConfusion (Option.some.inj this)

/-- The first loop of the constructor computes an upper bound of the word ids. -/
theorem vocabSizeOf_foldl_ge (l : List tagged_word) (acc : Nat) :
    acc ≤ l.foldl (fun vocabSize iter => if iter.word > vocabSize then iter.word
        else vocabSize) acc ∧
    ∀ t ∈ l, t.word ≤ l.foldl (fun vocabSize iter => if iter.word > vocabSize then iter.word
        else vocabSize) acc := by
  induction l generalizing acc with
  | nil => simp
  | cons a rest ih =>
    simp only [List.foldl_cons, List.mem_cons]
    by_cases hgt : a.word > acc
    · simp only [hgt, if_true]
      obtain ⟨h1, h2⟩ := ih a.word
      refine ⟨by omega, ?_⟩
      intro t ht
      rcases ht with ht | ht
      · rw [ht]
        exact h1
      · exact h2 t ht
    · simp only [hgt, if_false]
      obtain ⟨h1, h2⟩ := ih acc
      refine ⟨h1, ?_⟩
      intro t ht
      rcases ht with ht | ht
      · rw [ht]
        omega
      · exact h2 t ht

/-- The bound computed by the first loop is the start value or the word id of a
member of the set. -/
theorem vocabSizeOf_foldl_attained (l : List tagged_word) (acc : Nat) :
    l.foldl (fun vocabSize iter => if iter.word > vocabSize then iter.word
        else vocabSize) acc = acc ∨
    ∃ t ∈ l, t.word = l.foldl (fun vocabSize iter => if iter.word > vocabSize then iter.word
        else vocabSize) acc := by
  induction l generalizing acc with
  | nil => simp
  | cons a rest ih =>
    simp only [List.foldl_cons, List.mem_cons]
    rcases ih (if a.word > acc then a.word else acc) with h | ⟨t, ht, hw⟩
    · rw [h]
      split_ifs with hgt
      · exact Or.inr ⟨a, Or.inl rfl, rfl⟩
      · exact Or.inl rfl
    · exact Or.inr ⟨t, Or.inr ht, hw⟩

/-- The third loop of the constructor has no defined result as soon as one member of
the set has a word id outside the vector. -/
theorem setFlags_outside (l : List tagged_word) (flags : List Bool)
    (h : ∃ t ∈ l, flags.length ≤ t.word) : InMemoryGraph.setFlags l flags = none := by
  induction l generalizing flags with
  | nil =>
    obtain ⟨t, ht, -⟩ := h
    simp at ht
  | cons a rest ih =>
    simp only [InMemoryGraph.setFlags]
    split_ifs with hlt
    · apply ih
      obtain ⟨t, ht, hle⟩ := h
      rw [List.mem_cons] at ht
      rcases ht with ht | ht
      · subst ht
        omega
      · exact ⟨t, ht, by simpa using hle⟩
    · rfl

theorem clearFlags_length (vocabSize : Nat) (flags : List Bool) :
    (InMemoryGraph.clearFlags vocabSize flags).length = flags.length := by
  unfold InMemoryGraph.clearFlags
  generalize List.range vocabSize = idx
  induction idx generalizing flags with
  | nil => rfl
  | cons i rest ih =>
    simp only [List.foldl_cons]
    rw [ih]
    simp

/-- For every non-empty set of invalid deletions the constructor of `InMemoryGraph`
sets an element outside the bit vector: the vector has as many elements as the
largest word id of the set, and the flag of that word is set at that index. -/
theorem InMemoryGraph_create_outside_vector (index2gloss : List (Option String))
    (edgesBySink : List (List edge)) (edgesSizes : List Nat) (size : Nat)
    (invalidDeletions : List tagged_word) (hne : invalidDeletions ≠ []) :
    InMemoryGraph.create index2gloss edgesBySink edgesSizes size invalidDeletions = none := by
  have hout : ∃ t ∈ invalidDeletions, InMemoryGraph.vocabSizeOf invalidDeletions ≤ t.word := by
    unfold InMemoryGraph.vocabSizeOf
    rcases vocabSizeOf_foldl_attained invalidDeletions 0 with h0 | ⟨t, ht, hw⟩
    · cases invalidDeletions with
      | nil => exact absurd rfl hne
      | cons a rest =>
        refine ⟨a, List.mem_cons_self _ _, ?_⟩
        rw [h0]
        exact Nat.zero_le _
    · exact ⟨t, ht, by omega⟩
  unfold InMemoryGraph.create
  rw [setFlags_outside]
  obtain ⟨t, ht, hle⟩ := hout
  refine ⟨t, ht, ?_⟩
  rw [clearFlags_length, List.length_replicate]
  exact hle

/-- C12, the code at the failing input: with the one invalid deletion (word 5,
sense 0) the constructor creates a bit vector of 5 elements and then sets the
element 5, outside the vector; and `containsDeletion` on an edge from word 5 reads
that same element of the vector of 5.  Neither has a defined result, while the
tagged word is in the invalid-deletion set. -/
theorem containsDeletion_largest_word_outside_vector :
    InMemoryGraph.vocabSizeOf [getTaggedWord 5 0 MONOTONE_DEFAULT] = 5 ∧
    InMemoryGraph.create [] [] [] 6 [getTaggedWord 5 0 MONOTONE_DEFAULT] = none ∧
    InMemoryGraph.containsDeletion
      { index2gloss := [], edgesBySink := [], edgesSizes := [], size := 6,
        invalidDeletions := [getTaggedWord 5 0 MONOTONE_DEFAULT],
        invalidDeletionWords := List.replicate 5 false } deletionOfFive = none ∧
    getTaggedWord deletionOfFive.source deletionOfFive.source_sense MONOTONE_DEFAULT ∈
      [getTaggedWord 5 0 MONOTONE_DEFAULT] := by
  decide

/-- C13, the code at the failing input: over a graph of three words whose only edge
goes from word 1 to word 2, the constructor of `BidirectionalGraph` files the edge
under its position 0 in the incoming list of word 2, not under its source: the
outgoing list of word 0 holds an edge whose source is 1, and the outgoing list of
word 1 is empty. -/
theorem BidirectionalGraph_files_by_position :
    BidirectionalGraph.create incomingOneTwo 3 =
      some { size := 3, outgoingEdgeData := [[edgeOneTwo], [], []] } ∧
    edgeOneTwo ∈ incomingOneTwo 2 ∧ edgeOneTwo.source = 1 := by
  decide

/-- C14: for a tagged word whose word id is below the vocabulary size, `gloss`
returns the stored gloss of that word id when one is stored, and the string literal
"<UNK>" exactly when none is stored; the result is the same for every tagged word
with that word id, whatever its sense and monotonicity. -/
theorem InMemoryGraph_gloss (g : InMemoryGraph) (word : tagged_word)
    (hsize : g.index2gloss.length = g.vocabSize) (hword : word.word < g.vocabSize) :
    ∃ r, g.gloss word = some r ∧
      (∀ chars, g.index2gloss[word.word]? = some (some chars) →
        r = GlossRef.stored chars) ∧
      (r = GlossRef.literal "<UNK>" ↔ g.index2gloss[word.word]? = some none) ∧
      (g.index2gloss[word.word]? = some none → r.chars = "<UNK>") ∧
      ∀ other : tagged_word, other.word = word.word → g.gloss other = g.gloss word := by
  have hlt : word.word < g.index2gloss.length := by omega
  have hsame : ∀ other : tagged_word, other.word = word.word →
      g.gloss other = g.gloss word := by
    intro other ho
    unfold InMemoryGraph.gloss
    rw [ho]
  unfold InMemoryGraph.gloss at hsame ⊢
  cases hentry : g.index2gloss[word.word]? with
  | none =>
    rw [List.getElem?_eq_none_iff] at hentry
    omega
  | some entry =>
    cases entry with
    | none =>
      refine ⟨GlossRef.literal "<UNK>", rfl, ?_, ?_, ?_, ?_⟩
      · intro chars hc
        exact Option.noConfusion (Option.some.inj hc)
      · simp
      · intro _
        rfl
      · simpa [hentry] using hsame
    | some chars =>
      refine ⟨GlossRef.stored chars, rfl, ?_, ?_, ?_, ?_⟩
      · intro c hc
        have := Option.some.inj (Option.some.inj hc)
        rw [this]
      · simp
      · intro hn
        exact Option.noConfusion (Option.some.inj hn)
      · simpa [hentry] using hsame

/-- Witness of C14: the word 1 of `glossGraph`, which has no stored gloss. -/
theorem InMemoryGraph_gloss_witness :
    glossGraph.index2gloss.length = glossGraph.vocabSize ∧
    (⟨1, 3, 2⟩ : tagged_word).word < glossGraph.vocabSize ∧
    ∃ r, glossGraph.gloss ⟨1, 3, 2⟩ = some r ∧
      (∀ chars, glossGraph.index2gloss[(⟨1, 3, 2⟩ : tagged_word).word]? = some (some chars) →
        r = GlossRef.stored chars) ∧
      (r = GlossRef.literal "<UNK>" ↔
        glossGraph.index2gloss[(⟨1, 3, 2⟩ : tagged_word).word]? = some none) ∧
      (glossGraph.index2gloss[(⟨1, 3, 2⟩ : tagged_word).word]? = some none →
        r.chars = "<UNK>") ∧
      ∀ other : tagged_word, other.word = (⟨1, 3, 2⟩ : tagged_word).word →
        glossGraph.gloss other = glossGraph.gloss ⟨1, 3, 2⟩ :=
  ⟨rfl, by decide, InMemoryGraph_gloss glossGraph ⟨1, 3, 2⟩ rfl (by decide)⟩

/-! ## The search node and the tree (C15, C16, C18) -/

/-- C15, as stated, fails: for a search node whose cost if true is not a number and
whose cost if false is 1, `getPriorityKey` returns the cost if true, which is not
less than or equal to the cost if false (nor to itself). -/
theorem getPriorityKey_nan_not_le :
    nanPath.getPriorityKey = nanPath.costIfTrue ∧
    float.le nanPath.getPriorityKey nanPath.costIfFalse = false ∧
    float.le nanPath.getPriorityKey nanPath.costIfTrue = false := by
  refine ⟨rfl, rfl, rfl⟩

/-- C15, amended: for every search node `getPriorityKey` returns one of the two
costs, and when neither cost is not-a-number it returns their minimum: the result
is less than or equal to both. -/
theorem getPriorityKey_min (p : SynPath) :
    (p.getPriorityKey = p.costIfTrue ∨ p.getPriorityKey = p.costIfFalse) ∧
    (p.costIfTrue ≠ float.nan → p.costIfFalse ≠ float.nan →
      float.le p.getPriorityKey p.costIfTrue = true ∧
      float.le p.getPriorityKey p.costIfFalse = true) := by
  constructor
  · unfold SynPath.getPriorityKey
    split_ifs
    · exact Or.inr rfl
    · exact Or.inl rfl
  · intro hT hF
    unfold SynPath.getPriorityKey
    cases hTc : p.costIfTrue with
    | nan => exact absurd hTc hT
    | negInf =>
      cases hFc : p.costIfFalse with
      | nan => exact absurd hFc hF
      | negInf => simp [float.lt, float.le]
      | num b => simp [float.lt, float.le]
      | posInf => simp [float.lt, float.le]
    | num a =>
      cases hFc : p.costIfFalse with
      | nan => exact absurd hFc hF
      | negInf => simp [float.lt, float.le]
      | num b =>
        by_cases hlt : b < a
        · simp [float.lt, float.le, hlt, le_of_lt hlt]
        · simp [float.lt, float.le, hlt, not_lt.mp hlt]
      | posInf => simp [float.lt, float.le]
    | posInf =>
      cases hFc : p.costIfFalse with
      | nan => exact absurd hFc hF
      | negInf => simp [float.lt, float.le]
      | num b => simp [float.lt, float.le]
      | posInf => simp [float.lt, float.le]

/-- C16: for a tree index whose governor is `TREE_ROOT`, the edge built by
`edgeInto(index, word)` has the reserved word 0 in its governor field; for every
other index (whose governor index is in the tree) the governor field is the word
stored at the governor index; in both cases the relation is the relation of the
tree at that index and the placeholder is 0. -/
theorem Tree_edgeInto2_governor (t : Tree) (index wordAtIndex : Nat) (d : dep_tree_word)
    (hd : t.data[index]? = some d) (hrel : d.relation < 2 ^ 6) :
    (d.governor = TREE_ROOT →
      ∃ e, t.edgeInto2 index wordAtIndex = some e ∧ e.governor = TREE_ROOT_WORD ∧
        e.governor = 0 ∧ e.relation = d.relation ∧ e.placeholder = 0) ∧
    (d.governor ≠ TREE_ROOT →
      ∀ g, t.data[d.governor]? = some g → g.word.word < 2 ^ 25 →
        ∃ e, t.edgeInto2 index wordAtIndex = some e ∧ e.governor = g.word.word ∧
          e.relation = d.relation ∧ e.placeholder = 0) := by
  constructor
  · intro hroot
    refine ⟨{ placeholder := 0 % 2 ^ 8, governor := TREE_ROOT_WORD % 2 ^ 25,
              dependent := wordAtIndex % 2 ^ 25, relation := d.relation % 2 ^ 6 },
      ?_, ?_, ?_, ?_, ?_⟩
    · simp only [Tree.edgeInto2, hd, hroot, if_true, Tree.edgeInto]
    · rfl
    · rfl
    · exact Nat.mod_eq_of_lt hrel
    · rfl
  · intro hne g hg hword
    refine ⟨{ placeholder := 0 % 2 ^ 8, governor := g.word.word % 2 ^ 25,
              dependent := wordAtIndex % 2 ^ 25, relation := d.relation % 2 ^ 6 },
      ?_, ?_, ?_, ?_⟩
    · simp only [Tree.edgeInto2, hd, hne, if_false, hg, Tree.edgeInto]
    · exact Nat.mod_eq_of_lt hword
    · exact Nat.mod_eq_of_lt hrel
    · rfl

/-- Witness of C16: node 1 of `twoNodeTree`, whose governor is node 0. -/
theorem Tree_edgeInto2_governor_witness :
    twoNodeTree.data[1]? = some { word := ⟨9, 0, 0⟩, governor := 0, relation := 3 } ∧
    (3 : Nat) < 2 ^ 6 ∧
    ((0 : Nat) = TREE_ROOT →
      ∃ e, twoNodeTree.edgeInto2 1 9 = some e ∧ e.governor = TREE_ROOT_WORD ∧
        e.governor = 0 ∧ e.relation = 3 ∧ e.placeholder = 0) ∧
    ((0 : Nat) ≠ TREE_ROOT →
      ∀ g, twoNodeTree.data[0]? = some g → g.word.word < 2 ^ 25 →
        ∃ e, twoNodeTree.edgeInto2 1 9 = some e ∧ e.governor = g.word.word ∧
          e.relation = 3 ∧ e.placeholder = 0) :=
  ⟨rfl, by decide,
    Tree_edgeInto2_governor twoNodeTree 1 9
      { word := ⟨9, 0, 0⟩, governor := 0, relation := 3 } rfl (by decide)⟩

/-- C17: the pool lookup splits an id `i` into `bucket = i >> 20` and
`offset = i mod 2^20` with `offset < 2^20` and `bucket * 2^20 + offset = i`; hence
two ids with the same (bucket, offset) are the same id. -/
theorem debugGet_decompose (i : Nat) :
    debugGet i = (i / 2 ^ 20, i % 2 ^ 20) ∧
    (debugGet i).2 < 2 ^ POOL_BUCKET_SHIFT ∧
    (debugGet i).1 * 2 ^ POOL_BUCKET_SHIFT + (debugGet i).2 = i ∧
    ∀ j, debugGet i = debugGet j → i = j := by
  have hform : ∀ k, debugGet k = (k / 2 ^ 20, k % 2 ^ 20) := by
    intro k
    simp only [debugGet, POOL_BUCKET_SHIFT, Nat.shiftRight_eq_div_pow, Nat.one_shiftLeft]
  refine ⟨hform i, ?_, ?_, ?_⟩
  · rw [hform]
    exact Nat.mod_lt _ (by decide)
  · rw [hform]
    simp only [POOL_BUCKET_SHIFT]
    have := Nat.div_add_mod i (2 ^ 20)
    omega
  · intro j hj
    rw [hform, hform] at hj
    simp only [Prod.mk.injEq] at hj
    have h1 := Nat.div_add_mod i (2 ^ 20)
    have h2 := Nat.div_add_mod j (2 ^ 20)
    omega

/-- C18: a tree of `MAX_QUERY_LENGTH` = 26 nodes fits the packed fields: every node
index `i < 26` fits the 5-bit index cursor and the 6-bit governor field and is not
`TREE_ROOT`; for every 26-bit mask `m`, `TREE_DELETE(m, i)` is a 26-bit value; and
deleting all 26 positions from the empty mask gives `2^26 - 1`. -/
theorem tree_fits_packed_fields (i : Nat) (hi : i < MAX_QUERY_LENGTH) :
    MAX_QUERY_LENGTH = 26 ∧ i < 2 ^ 5 ∧ i < 2 ^ 6 ∧ i ≠ TREE_ROOT ∧
    (∀ m, m < 2 ^ MAX_QUERY_LENGTH → TREE_DELETE m i < 2 ^ MAX_QUERY_LENGTH) ∧
    (List.range MAX_QUERY_LENGTH).foldl TREE_DELETE 0 = 2 ^ 26 - 1 := by
  simp only [MAX_QUERY_LENGTH] at hi
  refine ⟨rfl, by omega, by omega, by simp only [TREE_ROOT]; omega, ?_, by decide⟩
  intro m hm
  unfold TREE_DELETE
  apply Nat.or_lt_two_pow hm
  rw [Nat.one_shiftLeft]
  simp only [MAX_QUERY_LENGTH]
  exact Nat.pow_lt_pow_right (by decide) hi

/-- Witness of C18: the last index, 25. -/
theorem tree_fits_packed_fields_witness :
    25 < MAX_QUERY_LENGTH ∧
    MAX_QUERY_LENGTH = 26 ∧ 25 < 2 ^ 5 ∧ 25 < 2 ^ 6 ∧ 25 ≠ TREE_ROOT ∧
    (∀ m, m < 2 ^ MAX_QUERY_LENGTH → TREE_DELETE m 25 < 2 ^ MAX_QUERY_LENGTH) ∧
    (List.range MAX_QUERY_LENGTH).foldl TREE_DELETE 0 = 2 ^ 26 - 1 :=
  ⟨by decide, tree_fits_packed_fields 25 (by decide)⟩

/-- C19: with a 64-byte cache line and a 32-byte `SynPath`, `CHANNEL_BUFFER_LENGTH`
is `(1024 - 2*64) / 32 = 28`, which is below `2^15`; the packed `channel_data`
(2-byte counter, 62 bytes of filler, 28 nodes, 62 bytes of filler, 2-byte counter)
is exactly 1024 bytes; and the 16-bit difference of the counters is the occupancy:
whatever the value of `pollPointer`, after `n <= 28` more pushes than polls the
difference is `n`. -/
theorem channel_buffer_length_28 :
    CHANNEL_BUFFER_LENGTH 64 32 = 28 ∧
    CHANNEL_BUFFER_LENGTH 64 32 = (1024 - 2 * 64) / 32 ∧
    CHANNEL_BUFFER_LENGTH 64 32 < 2 ^ 15 ∧
    sizeofChannelData 64 32 = 1024 ∧
    sizeofChannelData 64 32 = 2 + 62 + 28 * 32 + 62 + 2 ∧
    ∀ pollPointer n, n ≤ CHANNEL_BUFFER_LENGTH 64 32 →
      channelOccupancy (pollPointer + n) pollPointer = n := by
  refine ⟨by decide, by decide, by decide, by decide, by decide, ?_⟩
  intro pollPointer n hn
  have h28 : CHANNEL_BUFFER_LENGTH 64 32 = 28 := by decide
  rw [h28] at hn
  unfold channelOccupancy
  omega

/-! ## The exits of the loop of Search (C20) -/

/-- The loop never takes one of the two `exit(1)` branches: whenever the body runs,
the guard has just found the fringe non-empty and `time < timeout`. -/
theorem searchLoop_no_abort {σ κ : Type} (observed : Nat → Nat) (graph : Graph)
    (knownFacts : FactDB) (F : SearchType σ) (C : CacheStrategy κ) (timeout : Nat)
    (n : Nat) (s : SearchState σ κ) :
    searchLoop observed graph knownFacts F C timeout n s ≠ Except.error Abort.emptyFringe ∧
    searchLoop observed graph knownFacts F C timeout n s ≠
      Except.error Abort.timeExceeded := by
  induction n generalizing s with
  | zero =>
    simp only [searchLoop]
    exact ⟨fun h => Except.noConfusion h, fun h => Except.noConfusion h⟩
  | succ n ih =>
    simp only [searchLoop]
    split_ifs with hg
    · obtain ⟨he, hlt⟩ := hg
      have hnot : ¬ s.time ≥ timeout := by omega
      cases hp : F.pop s.fringe with
      | none =>
        have ht : tick observed graph knownFacts F C timeout s =
            Except.error Abort.undefinedPop := by
          unfold tick
          simp [he, hnot, hp]
        simp only [ht]
        constructor
        · intro h
          injection h with h
          exact Abort.noConfusion h
        · intro h
          injection h with h
          exact Abort.noConfusion h
      | some pr =>
        obtain ⟨parent, rest⟩ := pr
        have ht : tick observed graph knownFacts F C timeout s =
            Except.ok (expand observed graph F C parent
              (afterPop knownFacts C s parent rest)) := by
          unfold tick
          simp [he, hnot, hp]
        simp only [ht]
        exact ih _
    · exact ⟨fun h => Except.noConfusion h, fun h => Except.noConfusion h⟩

/-- C20: `Search` ends cleanly when the fringe is empty at the start of a loop
iteration: the loop is left and the state, with the responses collected so far, is
returned; and for every input neither of the two `exit(1)` branches inside the loop
(empty fringe, `time >= timeout`) is reached. -/
theorem Search_abort_branches_unreachable {σ κ : Type} (observed : Nat → Nat)
    (graph : Graph) (knownFacts : FactDB) (queryFact : List Nat) (queryFactLength : Nat)
    (F : SearchType σ) (fringe : σ) (C : CacheStrategy κ) (cache : κ)
    (timeout nextId : Nat) :
    Search observed graph knownFacts queryFact queryFactLength F fringe C cache
      timeout nextId ≠ Except.error Abort.emptyFringe ∧
    Search observed graph knownFacts queryFact queryFactLength F fringe C cache
      timeout nextId ≠ Except.error Abort.timeExceeded ∧
    (∀ (n : Nat) (s : SearchState σ κ), F.isEmpty s.fringe = true →
      searchLoop observed graph knownFacts F C timeout n s = Except.ok s) ∧
    (∀ r, Search observed graph knownFacts queryFact queryFactLength F fringe C cache
        timeout nextId = Except.ok r → F.isEmpty r.fringe = true ∨ timeout ≤ r.time) := by
  refine ⟨?_, ?_, ?_, ?_⟩
  · exact (searchLoop_no_abort observed graph knownFacts F C timeout timeout _).1
  · exact (searchLoop_no_abort observed graph knownFacts F C timeout timeout _).2
  · intro n s he
    cases n with
    | zero => rfl
    | succ n =>
      simp only [searchLoop]
      have hg : ¬ (F.isEmpty s.fringe = false ∧ s.time < timeout) := by
        intro hg
        rw [he] at hg
        exact Bool.noConfusion hg.1
      rw [if_neg hg]
  · intro r hr
    exact searchLoop_exit observed graph knownFacts F C timeout timeout _ r
      (by simp [searchStart]) hr

/-! ## The successors that Search builds and pushes (C26, C27) -/

/-- The entries of the array `mutated`: the sink of the edge at the mutated position,
the word of the parent everywhere else. -/
theorem mutatedFact_getD (parent : Path) (i sink j : Nat) :
    (mutatedFact parent i sink).getD j 0 =
      if j < parent.factLength then (if j = i then sink else parent.fact.getD j 0) else 0 := by
  unfold mutatedFact
  by_cases hj : j < parent.factLength
  · simp [List.getD_eq_getElem?_getD, hj]
  · have hnone : ((List.range parent.factLength).map
        (fun i_1 => if i_1 = i then sink else parent.fact.getD i_1 0))[j]? = none := by
      apply List.getElem?_eq_none
      simp only [List.length_map, List.length_range]
      omega
    rw [List.getD_eq_getElem?_getD, hnone]
    simp [hj]

/-- A successor in the sense of `IsSuccessor` is a copy of its parent with one
position changed. -/
theorem IsSuccessor_frame (graph : Graph) (parent p : Path) (h : IsSuccessor graph parent p) :
    ∃ i it, i < parent.factLength ∧ it ∈ graph.outgoingEdges (parent.fact.getD i 0) ∧
      p.factLength = parent.factLength ∧ p.fact.getD i 0 = it.sink ∧
      (∀ j, j ≠ i → p.fact.getD j 0 = parent.fact.getD j 0) ∧
      p.edgeType = it.type ∧ p.sourceId = parent.id := by
  obtain ⟨i, it, hi, hit, -, hfact, hty, hsrc⟩ := h
  refine ⟨i, it, hi, hit, ?_, ?_, ?_, hty, hsrc⟩
  · simp only [Path.factLength, hfact]
    exact mutatedFact_length parent i it.sink
  · rw [hfact, mutatedFact_getD]
    simp [hi]
  · intro j hj
    rw [hfact, mutatedFact_getD]
    by_cases hlt : j < parent.factLength
    · simp [hlt, hj]
    · simp only [hlt, if_false]
      simp only [Path.factLength] at hlt
      rw [List.getD_eq_getElem?_getD, List.getElem?_eq_none (by omega)]
      rfl

/-- Every successor that `Search` builds (each is passed to `isSeen` once) is built
from a path popped before, a position of its fact and an outgoing edge, of type
other than 9, of the word at that position. -/
theorem Search_builds {σ κ : Type} (observed : Nat → Nat) (graph : Graph)
    (knownFacts : FactDB) (queryFact : List Nat) (queryFactLength : Nat)
    (F : SearchType σ) (fringe : σ) (C : CacheStrategy κ) (cache : κ)
    (timeout nextId : Nat) (r : SearchState σ κ)
    (h : Search observed graph knownFacts queryFact queryFactLength F fringe C cache
      timeout nextId = Except.ok r) :
    ∀ p ∈ isSeens r.trace, ∃ parent ∈ pops r.trace, IsSuccessor graph parent p := by
  unfold Search at h
  apply searchLoop_preserves observed graph knownFacts F C timeout
    (fun x => ∀ p ∈ isSeens x.trace, ∃ parent ∈ pops x.trace, IsSuccessor graph parent p)
    _ timeout _ r ?_ h
  · intro x x1 hx ht
    obtain ⟨parent, rest, -, hx1, -, -, -, -, -⟩ :=
      tick_frame observed graph knownFacts F C timeout ht
    rw [hx1]
    have key := expand_preserves observed graph F C
      (fun y => (∀ p ∈ isSeens y.trace, ∃ parent ∈ pops y.trace,
          IsSuccessor graph parent p) ∧ parent ∈ pops y.trace) parent ?_
      (afterPop knownFacts C x parent rest) ?_
    · exact key.1
    · intro st i it hi hit hst
      obtain ⟨hall, hpar⟩ := hst
      obtain ⟨c1, c2, c3⟩ := child_fields observed st.nextId parent i it
      unfold expandEdge
      split_ifs with h9 hseen
      · exact ⟨hall, hpar⟩
      · refine ⟨?_, by simpa [pops_append, pops, Event.popped] using hpar⟩
        intro p hp
        simp only [isSeens_append, List.mem_append] at hp
        rcases hp with hp | hp
        · obtain ⟨par, hpar1, hsucc⟩ := hall p hp
          exact ⟨par, by simpa [pops_append, pops, Event.popped] using hpar1, hsucc⟩
        · simp only [isSeens, List.filterMap_cons, Event.queried, List.filterMap_nil,
            List.mem_singleton] at hp
          refine ⟨parent, by simpa [pops_append, pops, Event.popped] using hpar, ?_⟩
          rw [hp]
          exact ⟨i, it, hi, hit, h9, c1, c2, c3⟩
      · refine ⟨?_, by simpa [pops_append, pops, Event.popped] using hpar⟩
        intro p hp
        simp only [isSeens_append, List.mem_append] at hp
        rcases hp with hp | hp
        · obtain ⟨par, hpar1, hsucc⟩ := hall p hp
          exact ⟨par, by simpa [pops_append, pops, Event.popped] using hpar1, hsucc⟩
        · simp only [isSeens, List.filterMap_cons, Event.queried, List.filterMap_nil,
            List.mem_singleton] at hp
          refine ⟨parent, by simpa [pops_append, pops, Event.popped] using hpar, ?_⟩
          rw [hp]
          exact ⟨i, it, hi, hit, h9, c1, c2, c3⟩
    · have hpops : pops (afterPop knownFacts C x parent rest).trace =
          pops x.trace ++ [parent] := by
        unfold afterPop
        split_ifs <;> simp [pops_append, pops, Event.popped]
      have hseens : isSeens (afterPop knownFacts C x parent rest).trace =
          isSeens x.trace := by
        unfold afterPop
        split_ifs <;> simp [isSeens_append, isSeens, Event.queried]
      refine ⟨?_, by simp [hpops]⟩
      intro p hp
      rw [hseens] at hp
      obtain ⟨par, hpar1, hsucc⟩ := hx p hp
      exact ⟨par, by simp [hpops, hpar1], hsucc⟩
  · intro p hp
    simp [searchStart, isSeens, Event.queried] at hp

/-- C26: every successor that `Search` builds comes from a popped parent, a position
`i < parent.factLength` and an outgoing edge `e` of `parent.fact[i]`, and is a copy
of the parent with only position `i` changed: it has the `factLength` of the
parent, its word at `i` is `e.sink`, its word at every other position is that of
the parent, its `edgeType` is `e.type` and its `sourceId` is the id of the
parent. -/
theorem Search_successor_frame {σ κ : Type} (observed : Nat → Nat) (graph : Graph)
    (knownFacts : FactDB) (queryFact : List Nat) (queryFactLength : Nat)
    (F : SearchType σ) (fringe : σ) (C : CacheStrategy κ) (cache : κ)
    (timeout nextId : Nat) (r : SearchState σ κ)
    (h : Search observed graph knownFacts queryFact queryFactLength F fringe C cache
      timeout nextId = Except.ok r) :
    ∀ p ∈ isSeens r.trace, ∃ parent ∈ pops r.trace, ∃ i it,
      i < parent.factLength ∧ it ∈ graph.outgoingEdges (parent.fact.getD i 0) ∧
      p.factLength = parent.factLength ∧ p.fact.getD i 0 = it.sink ∧
      (∀ j, j ≠ i → p.fact.getD j 0 = parent.fact.getD j 0) ∧
      p.edgeType = it.type ∧ p.sourceId = parent.id := by
  intro p hp
  obtain ⟨parent, hpar, hsucc⟩ := Search_builds observed graph knownFacts queryFact
    queryFactLength F fringe C cache timeout nextId r h p hp
  exact ⟨parent, hpar, IsSuccessor_frame graph parent p hsucc⟩

/-- Witness of C26 on the mock scenario. -/
theorem Search_successor_frame_witness :
    Search observedCounter mockGraph mockFacts [POTTO] 1 bfs BreadthFirstSearch.create
        cacheStrategyNone () 64 1 = Except.ok mockFinal ∧
    ∀ p ∈ isSeens mockFinal.trace, ∃ parent ∈ pops mockFinal.trace, ∃ i it,
      i < parent.factLength ∧ it ∈ mockGraph.outgoingEdges (parent.fact.getD i 0) ∧
      p.factLength = parent.factLength ∧ p.fact.getD i 0 = it.sink ∧
      (∀ j, j ≠ i → p.fact.getD j 0 = parent.fact.getD j 0) ∧
      p.edgeType = it.type ∧ p.sourceId = parent.id :=
  ⟨rfl, Search_successor_frame observedCounter mockGraph mockFacts [POTTO] 1 bfs
    BreadthFirstSearch.create cacheStrategyNone () 64 1 mockFinal rfl⟩

/-- A loop whose body appends to a list appends, in order, what each round
appends. -/
theorem foldl_extends {α β γ : Type} (f : α → β → α) (g : α → List γ) (h : β → List γ)
    (hstep : ∀ a b, g (f a b) = g a ++ h b) (l : List β) (a : α) :
    g (l.foldl f a) = g a ++ l.flatMap h := by
  induction l generalizing a with
  | nil => simp
  | cons b t ih =>
    simp only [List.foldl_cons, List.flatMap_cons]
    rw [ih, hstep, List.append_assoc]

/-- The pairs of one position, seen as what each edge contributes. -/
theorem successorPairs_position (parent : Path) (i : Nat) (l : List edge) :
    ((l.filter (fun it => decide (it.type ≠ 9))).map (fun it => (i, it))).map
        (successorShape parent) =
      l.flatMap (fun it => if it.type = 9 then [] else [successorShape parent (i, it)]) := by
  induction l with
  | nil => rfl
  | cons a t ih =>
    simp only [List.flatMap_cons]
    by_cases h9 : a.type = 9
    · simp only [h9, if_true, List.nil_append]
      rw [← ih]
      simp [List.filter_cons, h9]
    · simp only [h9, if_false]
      rw [← ih]
      simp [List.filter_cons, h9]

/-- With `CacheStrategyNone`, one execution of the innermost loop body pushes the
successor of the edge, unless the type of the edge is 9. -/
theorem expandEdge_none_shapes {σ : Type} (observed : Nat → Nat) (F : SearchType σ)
    (parent : Path) (i : Nat) (st : SearchState σ Unit) (it : edge) :
    (pushes (expandEdge observed F cacheStrategyNone parent i st it).trace).map Path.shape =
      (pushes st.trace).map Path.shape ++
        (if it.type = 9 then [] else [successorShape parent (i, it)]) := by
  obtain ⟨c1, c2, c3⟩ := child_fields observed st.nextId parent i it
  unfold expandEdge
  split_ifs with h9 hseen
  · simp
  · simp only [pushes_append, List.map_append]
    simp [pushes, Event.pushed, Path.shape, successorShape, c1, c2, c3]
  · exact absurd rfl hseen

/-- With `CacheStrategyNone`, the section "Mutations" pushes exactly one successor per
pair of `successorPairs`, in order. -/
theorem expand_none_shapes {σ : Type} (observed : Nat → Nat) (graph : Graph)
    (F : SearchType σ) (parent : Path) (st : SearchState σ Unit) :
    (pushes (expand observed graph F cacheStrategyNone parent st).trace).map Path.shape =
      (pushes st.trace).map Path.shape ++
        (successorPairs graph parent).map (successorShape parent) := by
  unfold expand successorPairs
  rw [foldl_extends (expandIndex observed graph F cacheStrategyNone parent)
    (fun x => (pushes x.trace).map Path.shape)
    (fun i => (((graph.outgoingEdges (parent.fact.getD i 0)).filter
      (fun it => decide (it.type ≠ 9))).map (fun it => (i, it))).map (successorShape parent))]
  · congr 1
    generalize List.range parent.factLength = idx
    induction idx with
    | nil => rfl
    | cons a t ih => simp only [List.flatMap_cons, List.map_append, ih]
  · intro a i
    unfold expandIndex
    rw [successorPairs_position]
    exact foldl_extends (expandEdge observed F cacheStrategyNone parent i)
      (fun x => (pushes x.trace).map Path.shape) _
      (fun x it => expandEdge_none_shapes observed F parent i x it) _ a

/-- The pushes of `Search` are the start state followed by the successors that the
cache reported as not seen, in order. -/
theorem Search_pushes_notSeens {σ κ : Type} (observed : Nat → Nat)
    (graph : Graph) (knownFacts : FactDB) (queryFact : List Nat) (queryFactLength : Nat)
    (F : SearchType σ) (fringe : σ) (C : CacheStrategy κ) (cache : κ)
    (timeout nextId : Nat) (r : SearchState σ κ)
    (h : Search observed graph knownFacts queryFact queryFactLength F fringe C cache
      timeout nextId = Except.ok r) :
    pushes r.trace =
      (Path.root observed nextId queryFact queryFactLength).1 :: notSeens r.trace := by
  unfold Search at h
  apply searchLoop_preserves observed graph knownFacts F C timeout
    (fun x => pushes x.trace =
      (Path.root observed nextId queryFact queryFactLength).1 :: notSeens x.trace)
    _ timeout _ r ?_ h
  · intro x x1 hx ht
    obtain ⟨parent, rest, -, hx1, -, -, -, -, -⟩ :=
      tick_frame observed graph knownFacts F C timeout ht
    rw [hx1]
    apply expand_preserves observed graph F C
      (fun y => pushes y.trace =
        (Path.root observed nextId queryFact queryFactLength).1 :: notSeens y.trace) parent
    · intro st i it _ _ hst
      unfold expandEdge
      split_ifs with h9 hseen
      · exact hst
      · simp only [pushes, notSeens, List.filterMap_append] at hst ⊢
        rw [hst]
        simp [Event.pushed, Event.notSeen]
      · simp only [pushes, notSeens, List.filterMap_append] at hst ⊢
        rw [hst]
        simp [Event.pushed, Event.notSeen]
    · unfold afterPop
      split_ifs
      · simp only [pushes, notSeens, List.filterMap_append] at hx ⊢
        rw [hx]
        simp [Event.pushed, Event.notSeen]
      · simp only [pushes, notSeens, List.filterMap_append] at hx ⊢
        rw [hx]
        simp [Event.pushed, Event.notSeen]
  · simp [searchStart, pushes, notSeens, Event.pushed, Event.notSeen]

/-- C27: in `Search` a generated successor is pushed exactly when `isSeen` returns
false for it and skipped exactly when it returns true: the pushes after the start
state are the successors reported as not seen, in order.  With `CacheStrategyNone`
one tick pushes exactly one successor per (position, outgoing edge of type other
than 9) pair of the popped path, in order. -/
theorem Search_pushes_iff_not_seen {σ κ : Type} (observed : Nat → Nat)
    (graph : Graph) (knownFacts : FactDB) (queryFact : List Nat) (queryFactLength : Nat)
    (F : SearchType σ) (fringe : σ) (C : CacheStrategy κ) (cache : κ)
    (timeout nextId : Nat) (r : SearchState σ κ)
    (h : Search observed graph knownFacts queryFact queryFactLength F fringe C cache
      timeout nextId = Except.ok r) :
    pushes r.trace =
      (Path.root observed nextId queryFact queryFactLength).1 :: notSeens r.trace ∧
    ∀ (s s1 : SearchState σ Unit),
      tick observed graph knownFacts F cacheStrategyNone timeout s = Except.ok s1 →
      ∃ parent rest, F.pop s.fringe = some (parent, rest) ∧
        (pushes s1.trace).map Path.shape = (pushes s.trace).map Path.shape ++
          (successorPairs graph parent).map (successorShape parent) ∧
        (pushes s1.trace).length =
          (pushes s.trace).length + (successorPairs graph parent).length := by
  refine ⟨Search_pushes_notSeens observed graph knownFacts queryFact queryFactLength F
    fringe C cache timeout nextId r h, ?_⟩
  intro s s1 ht
  obtain ⟨parent, rest, hpop, hs1, -, -, -, -, -⟩ :=
    tick_frame observed graph knownFacts F cacheStrategyNone timeout ht
  have hpushes : pushes (afterPop knownFacts cacheStrategyNone s parent rest).trace =
      pushes s.trace := by
    unfold afterPop
    split_ifs <;> simp [pushes_append, pushes, Event.pushed]
  have hshape := expand_none_shapes observed graph F parent
    (afterPop knownFacts cacheStrategyNone s parent rest)
  rw [← hs1, hpushes] at hshape
  refine ⟨parent, rest, hpop, hshape, ?_⟩
  have hlen := congrArg List.length hshape
  simpa using hlen

/-- Witness of C27 on the mock scenario. -/
theorem Search_pushes_iff_not_seen_witness :
    Search observedCounter mockGraph mockFacts [POTTO] 1 bfs BreadthFirstSearch.create
        cacheStrategyNone () 64 1 = Except.ok mockFinal ∧
    pushes mockFinal.trace =
      (Path.root observedCounter 1 [POTTO] 1).1 :: notSeens mockFinal.trace ∧
    ∀ (s s1 : SearchState BreadthFirstSearch Unit),
      tick observedCounter mockGraph mockFacts bfs cacheStrategyNone 64 s = Except.ok s1 →
      ∃ parent rest, bfs.pop s.fringe = some (parent, rest) ∧
        (pushes s1.trace).map Path.shape = (pushes s.trace).map Path.shape ++
          (successorPairs mockGraph parent).map (successorShape parent) ∧
        (pushes s1.trace).length =
          (pushes s.trace).length + (successorPairs mockGraph parent).length :=
  ⟨rfl, Search_pushes_iff_not_seen observedCounter mockGraph mockFacts [POTTO] 1 bfs
    BreadthFirstSearch.create cacheStrategyNone () 64 1 mockFinal rfl⟩

/-! ## The comparison operators of SynPath (C28) -/

/-- On numbers, `!(x <= y)` is `y < x`. -/
theorem float_not_le (x y : float) (hx : x ≠ float.nan) (hy : y ≠ float.nan) :
    (!float.le x y) = float.lt y x := by
  cases x with
  | nan => exact absurd rfl hx
  | negInf => cases y <;> first | exact absurd rfl hy | rfl
  | num a =>
    cases y with
    | nan => exact absurd rfl hy
    | negInf => rfl
    | num b =>
      simp only [float.le, float.lt]
      by_cases hab : a ≤ b
      · simp [hab, not_lt.mpr hab]
      · simp [hab, not_le.mp hab]
    | posInf => rfl
  | posInf => cases y <;> first | exact absurd rfl hy | rfl

/-- On numbers, `!(x < y)` is `y <= x`. -/
theorem float_not_lt (x y : float) (hx : x ≠ float.nan) (hy : y ≠ float.nan) :
    (!float.lt x y) = float.le y x := by
  cases x with
  | nan => exact absurd rfl hx
  | negInf => cases y <;> first | exact absurd rfl hy | rfl
  | num a =>
    cases y with
    | nan => exact absurd rfl hy
    | negInf => rfl
    | num b =>
      simp only [float.le, float.lt]
      by_cases hab : a < b
      · simp [hab, not_le.mpr hab]
      · simp [hab, not_lt.mp hab]
    | posInf => rfl
  | posInf => cases y <;> first | exact absurd rfl hy | rfl

/-- The priority key of a search node whose costs are numbers is a number. -/
theorem getPriorityKey_ne_nan (p : SynPath) (hT : p.costIfTrue ≠ float.nan)
    (hF : p.costIfFalse ≠ float.nan) : p.getPriorityKey ≠ float.nan := by
  unfold SynPath.getPriorityKey
  split_ifs
  · exact hF
  · exact hT

/-- C28: for search nodes whose costs are ordered (none is not-a-number), the four
comparison operators compare the priority keys consistently: `a <= b` iff
`key a <= key b`, `a < b` iff `key a < key b`, `a > b` iff `b < a`, and `a >= b`
iff `b <= a`. -/
theorem SynPath_comparisons (a b : SynPath)
    (haT : a.costIfTrue ≠ float.nan) (haF : a.costIfFalse ≠ float.nan)
    (hbT : b.costIfTrue ≠ float.nan) (hbF : b.costIfFalse ≠ float.nan) :
    (SynPath.le a b = true ↔ float.le a.getPriorityKey b.getPriorityKey = true) ∧
    (SynPath.lt a b = true ↔ float.lt a.getPriorityKey b.getPriorityKey = true) ∧
    (SynPath.gt a b = true ↔ SynPath.lt b a = true) ∧
    (SynPath.ge a b = true ↔ SynPath.le b a = true) := by
  have ha := getPriorityKey_ne_nan a haT haF
  have hb := getPriorityKey_ne_nan b hbT hbF
  refine ⟨Iff.rfl, Iff.rfl, ?_, ?_⟩
  · unfold SynPath.gt SynPath.le SynPath.lt
    rw [float_not_le _ _ ha hb]
  · unfold SynPath.ge SynPath.le SynPath.lt
    rw [float_not_lt _ _ ha hb]

/-- Witness of C28: a node with costs 1 and 2 against a node with costs 3 and 1/2. -/
theorem SynPath_comparisons_witness :
    (synPathWithCosts (float.num 1) (float.num 2)).costIfTrue ≠ float.nan ∧
    (synPathWithCosts (float.num 1) (float.num 2)).costIfFalse ≠ float.nan ∧
    (synPathWithCosts (float.num 3) (float.num (1 / 2))).costIfTrue ≠ float.nan ∧
    (synPathWithCosts (float.num 3) (float.num (1 / 2))).costIfFalse ≠ float.nan ∧
    ((SynPath.le (synPathWithCosts (float.num 1) (float.num 2))
        (synPathWithCosts (float.num 3) (float.num (1 / 2))) = true ↔
      float.le (synPathWithCosts (float.num 1) (float.num 2)).getPriorityKey
        (synPathWithCosts (float.num 3) (float.num (1 / 2))).getPriorityKey = true) ∧
    (SynPath.lt (synPathWithCosts (float.num 1) (float.num 2))
        (synPathWithCosts (float.num 3) (float.num (1 / 2))) = true ↔
      float.lt (synPathWithCosts (float.num 1) (float.num 2)).getPriorityKey
        (synPathWithCosts (float.num 3) (float.num (1 / 2))).getPriorityKey = true) ∧
    (SynPath.gt (synPathWithCosts (float.num 1) (float.num 2))
        (synPathWithCosts (float.num 3) (float.num (1 / 2))) = true ↔
      SynPath.lt (synPathWithCosts (float.num 3) (float.num (1 / 2)))
        (synPathWithCosts (float.num 1) (float.num 2)) = true) ∧
    (SynPath.ge (synPathWithCosts (float.num 1) (float.num 2))
        (synPathWithCosts (float.num 3) (float.num (1 / 2))) = true ↔
      SynPath.le (synPathWithCosts (float.num 3) (float.num (1 / 2)))
        (synPathWithCosts (float.num 1) (float.num 2)) = true)) :=
  ⟨fun h => float.noConfusion h, fun h => float.noConfusion h,
    fun h => float.noConfusion h, fun h => float.noConfusion h,
    SynPath_comparisons _ _ (fun h => float.noConfusion h) (fun h => float.noConfusion h)
      (fun h => float.noConfusion h) (fun h => float.noConfusion h)⟩

/-! ## The id table of BreadthFirstSearch (C29, C30) -/

/-- A pop leaves the id table as it is. -/
theorem bfs_pop_id2path (q0 q1 : BreadthFirstSearch) (x : Path)
    (h : q0.pop = some (x, q1)) : q1.id2path = q0.id2path := by
  unfold BreadthFirstSearch.pop at h
  cases himpl : q0.impl with
  | nil => simp [himpl] at h
  | cons f rest =>
    simp only [himpl, Option.some.injEq, Prod.mk.injEq] at h
    rw [← h.2]

/-- C30: after `push(p)`, `findPathById(p.id)` points to a path equal to `p`; for a
path `q` with `q.id` different from `p.id` that `findPathById(q.id)` pointed to
before the push, it still points to `q` (the push only grows the id table and
overwrites the slot of `p.id`); and a pop changes no slot, so this holds whether or
not `q` has been popped. -/
theorem BreadthFirstSearch_push_frame (q0 : BreadthFirstSearch) (p q : Path) :
    (q0.push p).deref ((q0.push p).findPathById p.id) = some p ∧
    (q.id ≠ p.id → q0.deref (q0.findPathById q.id) = some q →
      (q0.push p).deref ((q0.push p).findPathById q.id) = some q) ∧
    q0.id2path.length ≤ (q0.push p).id2path.length ∧
    (∀ (k : Nat), k ≠ p.id → k < q0.id2path.length →
      (q0.push p).id2path[k]? = q0.id2path[k]?) ∧
    (∀ (x : Path) (q1 : BreadthFirstSearch), q0.pop = some (x, q1) →
      ∀ (k : Nat), q1.deref (q1.findPathById k) = q0.deref (q0.findPathById k)) := by
  refine ⟨?_, ?_, ?_, ?_, ?_⟩
  · simp only [BreadthFirstSearch.findPathById, BreadthFirstSearch.deref]
    exact bfs_push_slot_self q0 p
  · intro hne hq
    simp only [BreadthFirstSearch.findPathById, BreadthFirstSearch.deref] at hq ⊢
    exact bfs_push_slot_other q0 p q q.id (fun h => hne h.symm) hq
  · simp only [BreadthFirstSearch.push, BreadthFirstSearch.grow, List.length_set,
      List.length_append, List.length_replicate]
    omega
  · intro k hk hlt
    simp only [BreadthFirstSearch.push]
    rw [List.getElem?_set_ne (fun h => hk h.symm)]
    simp only [BreadthFirstSearch.grow]
    rw [List.getElem?_append_left hlt]
  · intro x q1 hpop k
    simp only [BreadthFirstSearch.findPathById, BreadthFirstSearch.deref]
    rw [bfs_pop_id2path q0 q1 x hpop]

/-- The run of the mock scenario when the ids are the values of the counter: the three
pops and the depth of each popped path, counted in `Path::source` steps. -/
theorem mockSearch_observedCounter_depths :
    ∃ r, mockSearch observedCounter = Except.ok r ∧
      (pops r.trace).map Path.fact = [[POTTO], [LEMUR], [ANIMAL]] ∧
      (pops r.trace).map (sourceDepth r.fringe 8) = [some 0, some 1, some 2] :=
  ⟨mockFinal, rfl, rfl, rfl⟩

/-- C29, the code at the failing input: in a build whose `generateUniqueId` leaves
5, 0 and 7 in its result, `Search` on the mock scenario with a `BreadthFirstSearch`
pops `[potto]`, `[lemur]`, `[animal]`, whose depths in `Path::source` steps are 0, 1
and 0: the path popped last is less deep than the one popped before it. -/
theorem mockSearch_observedScrambled_depths :
    ∃ r, mockSearch observedScrambled = Except.ok r ∧
      (pops r.trace).map Path.fact = [[POTTO], [LEMUR], [ANIMAL]] ∧
      (pops r.trace).map (sourceDepth r.fringe 8) = [some 0, some 1, some 0] :=
  ⟨_, rfl, rfl, rfl⟩

/-! ## The hash of a tree (C21, C22) -/

theorem edgeInto_eq (t : Tree) (index wordAtIndex governor : Nat) (d : dep_tree_word)
    (hd : t.data[index]? = some d) :
    t.edgeInto index wordAtIndex governor =
      some (packedEdge governor wordAtIndex d.relation) := by
  simp only [Tree.edgeInto, hd, packedEdge]

/-- The incoming edge of a node whose governor is the root marker. -/
theorem edgeInto1_root (t : Tree) (index : Nat) (d : dep_tree_word)
    (hd : t.data[index]? = some d) (hroot : d.governor = TREE_ROOT) :
    t.edgeInto1 index = some (packedEdge TREE_ROOT_WORD d.word.word d.relation) := by
  simp only [Tree.edgeInto1, hd, Tree.edgeInto2, hroot, if_true]
  exact edgeInto_eq t index _ _ d hd

/-- The incoming edge of a node whose governor is another node. -/
theorem edgeInto1_node (t : Tree) (index : Nat) (d g : dep_tree_word)
    (hd : t.data[index]? = some d) (hne : d.governor ≠ TREE_ROOT)
    (hg : t.data[d.governor]? = some g) :
    t.edgeInto1 index = some (packedEdge g.word.word d.word.word d.relation) := by
  simp only [Tree.edgeInto1, hd, Tree.edgeInto2, hne, if_false, hg]
  exact edgeInto_eq t index _ _ d hd

/-- In a well-formed tree every node has an incoming edge. -/
theorem edgeInto1_defined (t : Tree) (hwf : t.WellFormed) (j : Nat) (hj : j < t.length) :
    ∃ e, t.edgeInto1 j = some e := by
  obtain ⟨hlen, hgov⟩ := hwf
  have hjd : j < t.data.length := by omega
  have hd : t.data[j]? = some t.data[j] := List.getElem?_eq_getElem hjd
  rcases hgov j _ hd with hroot | hlt
  · exact ⟨_, edgeInto1_root t j _ hd hroot⟩
  · by_cases hne : t.data[j].governor = TREE_ROOT
    · exact ⟨_, edgeInto1_root t j _ hd hne⟩
    · have hgd : t.data[j].governor < t.data.length := by omega
      exact ⟨_, edgeInto1_node t j _ _ hd hne (List.getElem?_eq_getElem hgd)⟩

/-- The hash loop over edges that are all defined. -/
theorem foldl_xorEdge_some (hashEdge : dependency_edge → Nat) (es : List dependency_edge)
    (v : Nat) :
    (es.map some).foldl (xorEdge hashEdge) (some v) =
      some (es.foldl (fun acc e => acc ^^^ hashEdge e) v) := by
  induction es generalizing v with
  | nil => rfl
  | cons e rest ih =>
    simp only [List.map_cons, List.foldl_cons, xorEdge]
    exact ih _

/-- The XOR of the loop can be taken out of its start value. -/
theorem foldl_xor_shift (hashEdge : dependency_edge → Nat) (es : List dependency_edge)
    (v x : Nat) :
    es.foldl (fun acc e => acc ^^^ hashEdge e) (v ^^^ x) =
      es.foldl (fun acc e => acc ^^^ hashEdge e) v ^^^ x := by
  induction es generalizing v with
  | nil => rfl
  | cons e rest ih =>
    simp only [List.foldl_cons]
    have : v ^^^ x ^^^ hashEdge e = v ^^^ hashEdge e ^^^ x := by
      rw [Nat.xor_assoc, Nat.xor_comm x, ← Nat.xor_assoc]
    rw [this, ih]

/-- Replacing one edge of the list changes the XOR by the old and the new hash. -/
theorem foldl_xor_set (hashEdge : dependency_edge → Nat) (es : List dependency_edge)
    (i : Nat) (old new : dependency_edge) (v : Nat) (hold : es[i]? = some old) :
    (es.set i new).foldl (fun acc e => acc ^^^ hashEdge e) v =
      es.foldl (fun acc e => acc ^^^ hashEdge e) v ^^^ hashEdge old ^^^ hashEdge new := by
  induction es generalizing i v with
  | nil => simp at hold
  | cons e rest ih =>
    cases i with
    | zero =>
      simp only [List.getElem?_cons_zero, Option.some.injEq] at hold
      subst hold
      simp only [List.set_cons_zero, List.foldl_cons]
      rw [foldl_xor_shift, foldl_xor_shift, Nat.xor_assoc _ (hashEdge e) (hashEdge e),
        Nat.xor_self, Nat.xor_zero]
    | succ k =>
      simp only [List.getElem?_cons_succ] at hold
      simp only [List.set_cons_succ, List.foldl_cons]
      exact ih k _ hold

/-- The edges of a well-formed tree are all defined. -/
theorem edges_defined (t : Tree) (hwf : t.WellFormed) :
    t.edges = ((List.range t.length).map
      (fun j => (t.edgeInto1 j).getD (packedEdge 0 0 0))).map some := by
  unfold Tree.edges
  rw [List.map_map]
  apply List.map_congr_left
  intro j hj
  obtain ⟨e, he⟩ := edgeInto1_defined t hwf j (List.mem_range.mp hj)
  simp [he]

/-- The nodes of the tree with one word replaced. -/
theorem withWord_data (t : Tree) (i newWord : Nat) (d : dep_tree_word)
    (hd : t.data[i]? = some d) :
    (t.withWord i newWord).length = t.length ∧
    (t.withWord i newWord).data[i]? =
      some { word := { word := newWord, sense := d.word.sense,
                       monotonicity := d.word.monotonicity },
             governor := d.governor, relation := d.relation } ∧
    ∀ (j : Nat), j ≠ i → (t.withWord i newWord).data[j]? = t.data[j]? := by
  have hlt : i < t.data.length := (List.getElem?_eq_some.mp hd).1
  refine ⟨?_, ?_, ?_⟩
  · simp only [Tree.withWord, hd]
  · simp only [Tree.withWord, hd]
    rw [List.getElem?_set_self hlt]
  · intro j hj
    simp only [Tree.withWord, hd]
    rw [List.getElem?_set_ne (fun h => hj h.symm)]

/-- C21: for a well-formed tree `T`, an index `i < T.length` of a node without
children and a word `w'`, the hash of the tree obtained from `T` by replacing the
word at position `i` with `w'` equals
`T.updateHashFromMutation(T.hash(), i, T.word(i).word, governor word of i, w')`;
the update XORs out the old edge triple and XORs in the new one. -/
theorem Tree_hash_mutation (hashEdge : dependency_edge → Nat) (t : Tree) (i newWord : Nat)
    (d : dep_tree_word) (hwf : t.WellFormed) (hi : i < t.length)
    (hd : t.data[i]? = some d)
    (hleaf : ∀ (j : Nat) (dj : dep_tree_word), t.data[j]? = some dj → dj.governor ≠ i) :
    ∃ h gov, t.hash hashEdge = some h ∧ t.governorWord i = some gov ∧
      t.updateHashFromMutation hashEdge h i d.word.word gov newWord =
        (t.withWord i newWord).hash hashEdge ∧
      t.updateHashFromMutation hashEdge h i d.word.word gov newWord =
        some (h ^^^ hashEdge (packedEdge gov d.word.word d.relation) ^^^
          hashEdge (packedEdge gov newWord d.relation)) := by
  obtain ⟨hlen, hgov⟩ := hwf
  obtain ⟨w1, w2, w3⟩ := withWord_data t i newWord d hd
  -- the governor word of `i` and the old and new edge into `i`
  have hself : d.governor ≠ i := hleaf i d hd
  have hgw : ∃ gov, t.governorWord i = some gov ∧
      t.edgeInto1 i = some (packedEdge gov d.word.word d.relation) ∧
      (t.withWord i newWord).edgeInto1 i = some (packedEdge gov newWord d.relation) := by
    by_cases hroot : d.governor = TREE_ROOT
    · refine ⟨TREE_ROOT_WORD, ?_, edgeInto1_root t i d hd hroot, ?_⟩
      · simp only [Tree.governorWord, hd, hroot, if_true]
      · exact edgeInto1_root (t.withWord i newWord) i _ w2 hroot
    · have hglt : d.governor < t.data.length := by
        rcases hgov i d hd with h | h
        · exact absurd h hroot
        · omega
      have hg : t.data[d.governor]? = some t.data[d.governor] :=
        List.getElem?_eq_getElem hglt
      refine ⟨t.data[d.governor].word.word, ?_, edgeInto1_node t i d _ hd hroot hg, ?_⟩
      · simp only [Tree.governorWord, hd, hroot, if_false, hg]
      · have hg2 : (t.withWord i newWord).data[d.governor]? = some t.data[d.governor] := by
          rw [w3 d.governor hself]
          exact hg
        exact edgeInto1_node (t.withWord i newWord) i _ _ w2 hroot hg2
  obtain ⟨gov, hgov1, hold, hnew⟩ := hgw
  -- every other edge is unchanged
  have hother : ∀ (j : Nat), j < t.length → j ≠ i →
      (t.withWord i newWord).edgeInto1 j = t.edgeInto1 j := by
    intro j hj hji
    have hjd : j < t.data.length := by omega
    have hdj : t.data[j]? = some t.data[j] := List.getElem?_eq_getElem hjd
    have hdj2 : (t.withWord i newWord).data[j]? = some t.data[j] := by
      rw [w3 j hji]
      exact hdj
    have hgi : t.data[j].governor ≠ i := hleaf j _ hdj
    by_cases hroot : t.data[j].governor = TREE_ROOT
    · rw [edgeInto1_root _ j _ hdj2 hroot, edgeInto1_root t j _ hdj hroot]
    · have hglt : t.data[j].governor < t.data.length := by
        rcases hgov j _ hdj with h | h
        · exact absurd h hroot
        · omega
      have hg : t.data[t.data[j].governor]? = some t.data[t.data[j].governor] :=
        List.getElem?_eq_getElem hglt
      have hg2 : (t.withWord i newWord).data[t.data[j].governor]? =
          some t.data[t.data[j].governor] := by
        rw [w3 _ hgi]
        exact hg
      rw [edgeInto1_node _ j _ _ hdj2 hroot hg2, edgeInto1_node t j _ _ hdj hroot hg]
  -- the two edge lists
  have hedges := edges_defined t ⟨hlen, hgov⟩
  have hedges2 : (t.withWord i newWord).edges =
      (((List.range t.length).map
        (fun j => (t.edgeInto1 j).getD (packedEdge 0 0 0))).set i
          (packedEdge gov newWord d.relation)).map some := by
    unfold Tree.edges
    rw [w1]
    apply List.ext_getElem?
    intro j
    by_cases hj : j < t.length
    · rw [List.getElem?_map, List.getElem?_map, List.getElem?_range hj]
      by_cases hji : j = i
      · subst hji
        rw [List.getElem?_set_self (by simpa using hj)]
        simp [hnew]
      · rw [List.getElem?_set_ne (fun h => hji h.symm), List.getElem?_map,
          List.getElem?_range hj]
        obtain ⟨e, he⟩ := edgeInto1_defined t ⟨hlen, hgov⟩ j hj
        simp [hother j hj hji, he]
    · rw [List.getElem?_eq_none (by simpa using hj),
        List.getElem?_eq_none (by simpa using hj)]
  have holdAt : ((List.range t.length).map
      (fun j => (t.edgeInto1 j).getD (packedEdge 0 0 0)))[i]? =
      some (packedEdge gov d.word.word d.relation) := by
    rw [List.getElem?_map, List.getElem?_range hi]
    simp [hold]
  refine ⟨((List.range t.length).map
      (fun j => (t.edgeInto1 j).getD (packedEdge 0 0 0))).foldl
        (fun acc e => acc ^^^ hashEdge e) 0, gov, ?_, hgov1, ?_, ?_⟩
  · unfold Tree.hash
    rw [hedges, foldl_xorEdge_some]
  · unfold Tree.hash
    rw [hedges2, foldl_xorEdge_some, foldl_xor_set hashEdge _ i _ _ 0 holdAt]
    simp only [Tree.updateHashFromMutation, edgeInto_eq t i _ _ d hd]
  · simp only [Tree.updateHashFromMutation, edgeInto_eq t i _ _ d hd]

/-- The tree `twoNodeTree` is well formed. -/
theorem twoNodeTree_wellFormed : twoNodeTree.WellFormed := by
  refine ⟨rfl, ?_⟩
  intro j dj h
  match j, h with
  | 0, h =>
    simp only [twoNodeTree, List.getElem?_cons_zero, Option.some.injEq] at h
    subst h
    exact Or.inl rfl
  | 1, h =>
    simp only [twoNodeTree, List.getElem?_cons_succ, List.getElem?_cons_zero,
      Option.some.injEq] at h
    subst h
    exact Or.inr (by decide)
  | k + 2, h => simp [twoNodeTree] at h

/-- Witness of C21: node 1 of `twoNodeTree`, which has no children, mutated to the
word 12. -/
theorem Tree_hash_mutation_witness :
    twoNodeTree.WellFormed ∧ 1 < twoNodeTree.length ∧
    twoNodeTree.data[1]? = some { word := ⟨9, 0, 0⟩, governor := 0, relation := 3 } ∧
    (∀ (j : Nat) (dj : dep_tree_word), twoNodeTree.data[j]? = some dj → dj.governor ≠ 1) ∧
    ∃ h gov, twoNodeTree.hash sampleHashEdge = some h ∧
      twoNodeTree.governorWord 1 = some gov ∧
      twoNodeTree.updateHashFromMutation sampleHashEdge h 1 9 gov 12 =
        (twoNodeTree.withWord 1 12).hash sampleHashEdge ∧
      twoNodeTree.updateHashFromMutation sampleHashEdge h 1 9 gov 12 =
        some (h ^^^ sampleHashEdge (packedEdge gov 9 3) ^^^
          sampleHashEdge (packedEdge gov 12 3)) := by
  have hleaf : ∀ (j : Nat) (dj : dep_tree_word),
      twoNodeTree.data[j]? = some dj → dj.governor ≠ 1 := by
    intro j dj h
    match j, h with
    | 0, h =>
      simp only [twoNodeTree, List.getElem?_cons_zero, Option.some.injEq] at h
      subst h
      decide
    | 1, h =>
      simp only [twoNodeTree, List.getElem?_cons_succ, List.getElem?_cons_zero,
        Option.some.injEq] at h
      subst h
      decide
    | k + 2, h => simp [twoNodeTree] at h
  exact ⟨twoNodeTree_wellFormed, by decide, rfl, hleaf,
    Tree_hash_mutation sampleHashEdge twoNodeTree 1 12
      { word := ⟨9, 0, 0⟩, governor := 0, relation := 3 } twoNodeTree_wellFormed
      (by decide) rfl hleaf⟩

/-- The restriction to a node without children matters: mutating the root of
`twoNodeTree`, which governs node 1, changes the edge into node 1 as well, and the
update of the incoming triple alone gives another value than the hash of the
mutated tree. -/
theorem Tree_hash_mutation_with_child :
    twoNodeTree.hash sampleHashEdge = some 503 ∧
    (twoNodeTree.withWord 0 12).hash sampleHashEdge = some 759 ∧
    twoNodeTree.updateHashFromMutation sampleHashEdge 503 0 7 TREE_ROOT_WORD 12 =
      some 348 := by
  decide

/-- Two rounds of the hash loop can be exchanged. -/
theorem xorEdge_comm (hashEdge : dependency_edge → Nat) (v : Option Nat)
    (a b : Option dependency_edge) :
    xorEdge hashEdge (xorEdge hashEdge v a) b = xorEdge hashEdge (xorEdge hashEdge v b) a := by
  cases v with
  | none => cases a <;> cases b <;> rfl
  | some v =>
    cases a with
    | none => cases b <;> rfl
    | some a =>
      cases b with
      | none => rfl
      | some b =>
        simp only [xorEdge]
        rw [Nat.xor_assoc, Nat.xor_comm (hashEdge a), ← Nat.xor_assoc]

/-- Two trees with the same multiset of incoming edges have the same hash. -/
theorem hash_eq_of_edges_perm (hashEdge : dependency_edge → Nat) (t1 t2 : Tree)
    (h : t1.edges.Perm t2.edges) : t1.hash hashEdge = t2.hash hashEdge := by
  unfold Tree.hash
  exact List.Perm.foldl_eq' h (fun x _ y _ z => xorEdge_comm hashEdge z x y) (some 0)

/-- The node at a position of the reordered tree. -/
theorem reorder_data (t : Tree) (order : List Nat) (k j : Nat) (d : dep_tree_word)
    (hk : order[k]? = some j) (hd : t.data[j]? = some d) :
    (t.reorder order).data[k]? =
      some { word := d.word, relation := d.relation,
             governor :=
               if d.governor = TREE_ROOT then TREE_ROOT else order.indexOf d.governor } := by
  simp only [Tree.reorder, List.getElem?_map, hk, Option.map, hd]

/-- The incoming edge at a position of the reordered tree is the incoming edge of
the node that was moved there. -/
theorem reorder_edgeInto1 (t : Tree) (order : List Nat) (hwf : t.WellFormed)
    (hlen : t.length ≤ TREE_ROOT) (hperm : order.Perm (List.range t.length))
    (k j : Nat) (hk : order[k]? = some j) :
    (t.reorder order).edgeInto1 k = t.edgeInto1 j := by
  obtain ⟨hl, hgov⟩ := hwf
  have hmem : ∀ (m : Nat), m ∈ order ↔ m < t.length := fun m => by
    rw [hperm.mem_iff, List.mem_range]
  have holen : order.length = t.length := by
    rw [hperm.length_eq, List.length_range]
  have hjm : j ∈ order := by
    obtain ⟨hlt, heq⟩ := List.getElem?_eq_some.mp hk
    rw [← heq]
    exact List.getElem_mem hlt
  have hj : j < t.data.length := by
    have := (hmem j).mp hjm
    omega
  have hdj : t.data[j]? = some t.data[j] := List.getElem?_eq_getElem hj
  have hnode := reorder_data t order k j _ hk hdj
  by_cases hroot : t.data[j].governor = TREE_ROOT
  · rw [if_pos hroot] at hnode
    rw [edgeInto1_root _ k _ hnode rfl, edgeInto1_root t j _ hdj hroot]
  · rw [if_neg hroot] at hnode
    have hglt : t.data[j].governor < t.length := by
      rcases hgov j _ hdj with h | h
      · exact absurd h hroot
      · exact h
    have hgm : t.data[j].governor ∈ order := (hmem _).mpr hglt
    have hidx : order.indexOf t.data[j].governor < order.length :=
      List.indexOf_lt_length.mpr hgm
    have hne : order.indexOf t.data[j].governor ≠ TREE_ROOT := by omega
    have hat : order[order.indexOf t.data[j].governor]? = some t.data[j].governor := by
      rw [List.getElem?_eq_getElem hidx, List.getElem_indexOf hidx]
    have hgd : t.data[t.data[j].governor]? = some t.data[t.data[j].governor] :=
      List.getElem?_eq_getElem (by omega)
    have hgnode := reorder_data t order _ _ _ hat hgd
    rw [edgeInto1_node _ k _ _ hnode hne hgnode, edgeInto1_node t j _ _ hdj hroot hgd]

/-- The incoming edges of the reordered tree are those of the tree, in the new
order. -/
theorem reorder_edges (t : Tree) (order : List Nat) (hwf : t.WellFormed)
    (hlen : t.length ≤ TREE_ROOT) (hperm : order.Perm (List.range t.length)) :
    (t.reorder order).edges = order.map t.edgeInto1 := by
  unfold Tree.edges
  have hrl : (t.reorder order).length = order.length := rfl
  rw [hrl]
  apply List.ext_getElem?
  intro k
  by_cases hk : k < order.length
  · rw [List.getElem?_map, List.getElem?_map, List.getElem?_range hk,
      List.getElem?_eq_getElem hk]
    simp only [Option.map]
    rw [reorder_edgeInto1 t order hwf hlen hperm k _ (List.getElem?_eq_getElem hk)]
  · rw [List.getElem?_eq_none (by simpa using hk),
      List.getElem?_eq_none (by simpa using hk)]

/-- C22: for a well-formed tree and every reordering of its nodes that preserves
the governor relation, the reordered tree has the same multiset of edge triples
(governor word, relation, dependent word), the edge of the root using governor
word 0, and `Tree::hash` returns the same value. -/
theorem Tree_hash_order_independent (hashEdge : dependency_edge → Nat) (t : Tree)
    (order : List Nat) (hwf : t.WellFormed) (hlen : t.length ≤ TREE_ROOT)
    (hperm : order.Perm (List.range t.length)) :
    (t.reorder order).edges.Perm t.edges ∧
    (t.reorder order).hash hashEdge = t.hash hashEdge := by
  have hp : (t.reorder order).edges.Perm t.edges := by
    rw [reorder_edges t order hwf hlen hperm]
    exact hperm.map _
  exact ⟨hp, hash_eq_of_edges_perm hashEdge _ _ hp⟩

/-- Witness of C22: the two nodes of `twoNodeTree` exchanged, the root moving to
position 1. -/
theorem Tree_hash_order_independent_witness :
    twoNodeTree.WellFormed ∧ twoNodeTree.length ≤ TREE_ROOT ∧
    [1, 0].Perm (List.range twoNodeTree.length) ∧
    (twoNodeTree.reorder [1, 0]).data =
      [{ word := ⟨9, 0, 0⟩, governor := 1, relation := 3 },
       { word := ⟨7, 0, 0⟩, governor := 63, relation := 1 }] ∧
    (twoNodeTree.reorder [1, 0]).edges.Perm twoNodeTree.edges ∧
    (twoNodeTree.reorder [1, 0]).hash sampleHashEdge = twoNodeTree.hash sampleHashEdge :=
  ⟨twoNodeTree_wellFormed, by decide, by decide, by decide,
    Tree_hash_order_independent sampleHashEdge twoNodeTree [1, 0] twoNodeTree_wellFormed
      (by decide) (by decide)⟩

/-- The root edge uses the reserved governor word 0, and the hash of
`twoNodeTree` is the XOR of its two edge hashes. -/
theorem twoNodeTree_hash :
    twoNodeTree.edges = [some (packedEdge TREE_ROOT_WORD 7 1), some (packedEdge 7 9 3)] ∧
    twoNodeTree.hash sampleHashEdge =
      some (sampleHashEdge (packedEdge 0 7 1) ^^^ sampleHashEdge (packedEdge 7 9 3)) := by
  decide

/-! ## The channel as section 4.6 describes it

The bodies of `Channel::push` and `Channel::poll` are not part of the sources at
hand, and the ordering of the accesses of two threads is not expressed here: what
follows takes every single access as atomic and seen in order, and is about the
mechanism that the specification describes. -/

@[simp] theorem pushedValues_append {α : Type} (a b : List (ChannelEvent α)) :
    pushedValues (a ++ b) = pushedValues a ++ pushedValues b := by
  simp [pushedValues, List.filterMap_append]

@[simp] theorem polledValues_append {α : Type} (a b : List (ChannelEvent α)) :
    polledValues (a ++ b) = polledValues a ++ polledValues b := by
  simp [polledValues, List.filterMap_append]

@[simp] theorem pushedValues_pushTrue {α : Type} (v : α) :
    pushedValues [ChannelEvent.pushTrue v] = [v] := rfl

@[simp] theorem pushedValues_pushFalse {α : Type} (v : α) :
    pushedValues [ChannelEvent.pushFalse v] = [] := rfl

@[simp] theorem pushedValues_pollTrue {α : Type} (v : α) :
    pushedValues [ChannelEvent.pollTrue v] = [] := rfl

@[simp] theorem pushedValues_pollFalse {α : Type} :
    pushedValues [(ChannelEvent.pollFalse : ChannelEvent α)] = [] := rfl

@[simp] theorem polledValues_pushTrue {α : Type} (v : α) :
    polledValues [ChannelEvent.pushTrue v] = [] := rfl

@[simp] theorem polledValues_pushFalse {α : Type} (v : α) :
    polledValues [ChannelEvent.pushFalse v] = [] := rfl

@[simp] theorem polledValues_pollTrue {α : Type} (v : α) :
    polledValues [ChannelEvent.pollTrue v] = [v] := rfl

@[simp] theorem polledValues_pollFalse {α : Type} :
    polledValues [(ChannelEvent.pollFalse : ChannelEvent α)] = [] := rfl

theorem channelOccupancy_counts (p q n : Nat) (h1 : q ≤ p) (h2 : p ≤ q + n)
    (hn : n < 2 ^ 16) : channelOccupancy (p % 2 ^ 16) (q % 2 ^ 16) = p - q := by
  unfold channelOccupancy
  omega

theorem Channel.step_buffer_length {α : Type} (s : ChannelState α) (a : ChannelAction α) :
    (Channel.step s a).data.buffer.length = s.data.buffer.length := by
  obtain ⟨⟨pp, buf, ql⟩, prod, cons, tr⟩ := s
  cases a with
  | producer value =>
    cases prod with
    | idle =>
      simp only [Channel.step, Channel.pushStep]
      split_ifs <;> rfl
    | checked v => simp [Channel.step, Channel.pushStep]
    | written v => rfl
  | consumer =>
    cases cons with
    | idle =>
      simp only [Channel.step, Channel.pollStep]
      split_ifs <;> rfl
    | checked =>
      simp only [Channel.step, Channel.pollStep]
      split <;> rfl
    | read v => rfl

theorem Channel.step_counters {α : Type} (s : ChannelState α) (a : ChannelAction α)
    (hN : s.data.buffer.length < 2 ^ 16) (h : Channel.CountersOk s) :
    Channel.CountersOk (Channel.step s a) := by
  obtain ⟨⟨pp, buf, ql⟩, prod, cons, tr⟩ := s
  obtain ⟨h1, h2, h3, h4, h5, h6⟩ := h
  simp only at h1 h2 h3 h4 h5 h6 hN
  have hocc := channelOccupancy_counts _ _ _ h3 h4 hN
  rw [← h1, ← h2] at hocc
  cases a with
  | producer value =>
    cases prod with
    | idle =>
      simp only [Channel.step, Channel.pushStep]
      split_ifs with hfull
      · refine ⟨?_, ?_, ?_, ?_, ?_, ?_⟩ <;> simp <;> assumption
      · refine ⟨?_, ?_, ?_, ?_, ?_, ?_⟩ <;> simp <;> first | assumption | omega
    | checked v =>
      simp only [Channel.step, Channel.pushStep]
      have h5a := h5 (by simp)
      refine ⟨?_, ?_, ?_, ?_, ?_, ?_⟩ <;> simp <;> assumption
    | written v =>
      simp only [Channel.step, Channel.pushStep]
      have h5a := h5 (by simp)
      refine ⟨?_, ?_, ?_, ?_, ?_, ?_⟩ <;> simp <;> first | assumption | omega
  | consumer =>
    cases cons with
    | idle =>
      simp only [Channel.step, Channel.pollStep]
      split_ifs with hempty
      · refine ⟨?_, ?_, ?_, ?_, ?_, ?_⟩ <;> simp <;> assumption
      · refine ⟨?_, ?_, ?_, ?_, ?_, ?_⟩ <;> simp <;> first | assumption | omega
    | checked =>
      simp only [Channel.step, Channel.pollStep]
      have h6a := h6 (by simp)
      split
      · exact ⟨h1, h2, h3, h4, h5, h6⟩
      · refine ⟨?_, ?_, ?_, ?_, ?_, ?_⟩ <;> simp <;> assumption
    | read v =>
      simp only [Channel.step, Channel.pollStep]
      have h6a := h6 (by simp)
      refine ⟨?_, ?_, ?_, ?_, ?_, ?_⟩ <;> simp <;> first | assumption | omega

theorem mod_ne_of_close (k p n : Nat) (h1 : k < p) (h2 : p < k + n) : p % n ≠ k % n := by
  intro h
  have h3 := Nat.sub_mod_eq_zero_of_mod_eq h
  have h4 : n ∣ p - k := Nat.dvd_of_mod_eq_zero h3
  have := Nat.le_of_dvd (by omega) h4
  omega

theorem Channel.step_pushed_mono {α : Type} (s : ChannelState α) (a : ChannelAction α) :
    (pushedValues s.trace).length ≤ (pushedValues (Channel.step s a).trace).length := by
  obtain ⟨⟨pp, buf, ql⟩, prod, cons, tr⟩ := s
  cases a with
  | producer value =>
    cases prod with
    | idle =>
      simp only [Channel.step, Channel.pushStep]
      split_ifs <;> simp
    | checked v => simp [Channel.step, Channel.pushStep]
    | written v => simp [Channel.step, Channel.pushStep]
  | consumer =>
    cases cons with
    | idle =>
      simp only [Channel.step, Channel.pollStep]
      split_ifs <;> simp
    | checked =>
      simp only [Channel.step, Channel.pollStep]
      split <;> simp
    | read v => simp [Channel.step, Channel.pollStep]

theorem Channel.step_ring {α : Type} (s : ChannelState α) (a : ChannelAction α)
    (hN0 : 0 < s.data.buffer.length) (hc : Channel.CountersOk s) (hr : Channel.RingOk s)
    (hwrap : (pushedValues (Channel.step s a).trace).length < 2 ^ 16) :
    Channel.RingOk (Channel.step s a) := by
  have hmono := Channel.step_pushed_mono s a
  obtain ⟨⟨pp, buf, ql⟩, prod, cons, tr⟩ := s
  obtain ⟨h1, h2, h3, h4, h5, h6⟩ := hc
  obtain ⟨r1, r2, r3, r4⟩ := hr
  simp only at h1 h2 h3 h4 h5 h6 r1 r2 r3 r4 hN0 hmono
  have hP : (pushedValues tr).length < 2 ^ 16 := by omega
  have hpp : pp = (pushedValues tr).length := by omega
  have hql : ql = (polledValues tr).length := by omega
  cases a with
  | producer value =>
    cases prod with
    | idle =>
      simp only [Channel.step, Channel.pushStep]
      split_ifs with hfull
      · refine ⟨?_, ?_, ?_, ?_⟩
        · simpa using r1
        · intro v hv
          simp at hv
        · simpa using r3
        · simpa using r4
      · refine ⟨r1, ?_, r3, r4⟩
        intro v hv
        simp at hv
    | checked v =>
      simp only [Channel.step, Channel.pushStep]
      have h5a := h5 (by simp)
      refine ⟨?_, ?_, r3, r4⟩
      · intro k hk1 hk2
        simp only [List.length_set] at hk1 hk2 ⊢
        rw [List.getElem?_set_ne]
        · exact r1 k hk1 hk2
        · rw [hpp]
          exact mod_ne_of_close k _ _ hk2 (by omega)
      · intro w hw
        simp only [PushPhase.written.injEq] at hw
        subst hw
        simp only [List.length_set]
        rw [hpp]
        exact List.getElem?_set_self (Nat.mod_lt _ hN0)
    | written v =>
      simp only [Channel.step, Channel.pushStep]
      have h5a := h5 (by simp)
      have hv := r2 v rfl
      refine ⟨?_, ?_, ?_, ?_⟩
      · intro k hk1 hk2
        simp only [pushedValues_append, pushedValues_pushTrue, polledValues_append,
          polledValues_pushTrue, List.append_nil, List.length_append,
          List.length_singleton] at hk1 hk2 ⊢
        by_cases hkP : k < (pushedValues tr).length
        · rw [List.getElem?_append_left hkP]
          exact r1 k hk1 hkP
        · have hk : k = (pushedValues tr).length := by omega
          subst hk
          rw [List.getElem?_concat_length]
          exact hv
      · intro w hw
        simp at hw
      · intro w hw
        simp only at hw
        have h6a := h6 (by rw [hw]; simp)
        simp only [pushedValues_append, pushedValues_pushTrue, polledValues_append,
          polledValues_pushTrue, List.append_nil]
        rw [List.getElem?_append_left h6a]
        exact r3 w hw
      · simp only [pushedValues_append, pushedValues_pushTrue, polledValues_append,
          polledValues_pushTrue, List.append_nil]
        rw [List.take_append_of_le_length h3]
        exact r4
  | consumer =>
    cases cons with
    | idle =>
      simp only [Channel.step, Channel.pollStep]
      split_ifs with hempty
      · refine ⟨?_, ?_, ?_, ?_⟩
        · simpa using r1
        · simpa using r2
        · intro v hv
          simp at hv
        · simpa using r4
      · refine ⟨r1, r2, ?_, r4⟩
        intro v hv
        simp at hv
    | checked =>
      simp only [Channel.step, Channel.pollStep]
      have h6a := h6 (by simp)
      split
      · exact ⟨r1, r2, r3, r4⟩
      · rename_i w hw
        refine ⟨r1, r2, ?_, r4⟩
        intro u hu
        simp only [PollPhase.read.injEq] at hu
        subst hu
        rw [hql] at hw
        rw [← r1 _ (Nat.le_refl _) h6a]
        exact hw
    | read v =>
      simp only [Channel.step, Channel.pollStep]
      have h6a := h6 (by simp)
      have hv := r3 v rfl
      refine ⟨?_, ?_, ?_, ?_⟩
      · intro k hk1 hk2
        simp only [pushedValues_append, pushedValues_pollTrue, polledValues_append,
          polledValues_pollTrue, List.append_nil, List.length_append,
          List.length_singleton] at hk1 hk2 ⊢
        exact r1 k (by omega) hk2
      · simpa using r2
      · intro w hw
        simp at hw
      · simp only [pushedValues_append, pushedValues_pollTrue, polledValues_append,
          polledValues_pollTrue, List.append_nil, List.length_append,
          List.length_singleton]
        rw [List.take_succ, hv, ← r4]
        rfl

theorem Channel.start_ok {α : Type} (buffer : List α) :
    Channel.CountersOk (Channel.start buffer) ∧ Channel.RingOk (Channel.start buffer) := by
  refine ⟨⟨rfl, rfl, Nat.le_refl _, Nat.zero_le _, ?_, ?_⟩, ?_, ?_, ?_, rfl⟩
  · intro h
    exact absurd rfl h
  · intro h
    exact absurd rfl h
  · intro k hk1 hk2
    simp [Channel.start, pushedValues] at hk2
  · intro v hv
    simp [Channel.start] at hv
  · intro v hv
    simp [Channel.start] at hv

theorem Channel.run_buffer_length {α : Type} (acts : List (ChannelAction α))
    (s : ChannelState α) :
    (Channel.run s acts).data.buffer.length = s.data.buffer.length := by
  induction acts generalizing s with
  | nil => rfl
  | cons a rest ih =>
    simp only [Channel.run, List.foldl_cons]
    exact (ih (Channel.step s a)).trans (Channel.step_buffer_length s a)

theorem Channel.run_counters {α : Type} (acts : List (ChannelAction α))
    (s : ChannelState α) (hN : s.data.buffer.length < 2 ^ 16) (h : Channel.CountersOk s) :
    Channel.CountersOk (Channel.run s acts) := by
  induction acts generalizing s with
  | nil => exact h
  | cons a rest ih =>
    simp only [Channel.run, List.foldl_cons]
    exact ih (Channel.step s a) (by rw [Channel.step_buffer_length]; exact hN)
      (Channel.step_counters s a hN h)

theorem Channel.run_pushed_mono {α : Type} (acts : List (ChannelAction α))
    (s : ChannelState α) :
    (pushedValues s.trace).length ≤ (pushedValues (Channel.run s acts).trace).length := by
  induction acts generalizing s with
  | nil => exact Nat.le_refl _
  | cons a rest ih =>
    simp only [Channel.run, List.foldl_cons]
    exact Nat.le_trans (Channel.step_pushed_mono s a) (ih (Channel.step s a))

theorem Channel.run_ring {α : Type} (acts : List (ChannelAction α))
    (s : ChannelState α) (hN0 : 0 < s.data.buffer.length)
    (hN : s.data.buffer.length < 2 ^ 16) (hc : Channel.CountersOk s)
    (hr : Channel.RingOk s)
    (hwrap : (pushedValues (Channel.run s acts).trace).length < 2 ^ 16) :
    Channel.RingOk (Channel.run s acts) := by
  induction acts generalizing s with
  | nil => exact hr
  | cons a rest ih =>
    simp only [Channel.run, List.foldl_cons] at hwrap ⊢
    have hstep : (pushedValues (Channel.step s a).trace).length < 2 ^ 16 :=
      Nat.lt_of_le_of_lt (Channel.run_pushed_mono rest (Channel.step s a)) hwrap
    exact ih (Channel.step s a) (by rw [Channel.step_buffer_length]; exact hN0)
      (by rw [Channel.step_buffer_length]; exact hN)
      (Channel.step_counters s a hN hc) (Channel.step_ring s a hN0 hc hr hstep) hwrap

/-- One access of the consumer while a value is waiting: nothing is pushed, and
less work is left. -/
theorem Channel.pollStep_progress {α : Type} (s : ChannelState α)
    (hN0 : 0 < s.data.buffer.length) (hc : Channel.CountersOk s) (hr : Channel.RingOk s)
    (hwrap : (pushedValues s.trace).length < 2 ^ 16)
    (hwait : (polledValues s.trace).length < (pushedValues s.trace).length) :
    pushedValues (Channel.pollStep s).trace = pushedValues s.trace ∧
    Channel.pollWork (Channel.pollStep s) < Channel.pollWork s := by
  obtain ⟨⟨pp, buf, ql⟩, prod, cons, tr⟩ := s
  obtain ⟨h1, h2, h3, h4, h5, h6⟩ := hc
  obtain ⟨r1, r2, r3, r4⟩ := hr
  simp only at h1 h2 h3 h4 h5 h6 r1 r2 r3 r4 hN0 hwrap hwait
  have hpp : pp = (pushedValues tr).length := by omega
  have hql : ql = (polledValues tr).length := by omega
  cases cons with
  | idle =>
    simp only [Channel.pollStep]
    have hne : pp ≠ ql := by omega
    rw [if_neg hne]
    simp only [Channel.pollWork]
    exact ⟨trivial, by omega⟩
  | checked =>
    simp only [Channel.pollStep]
    have hsome := r1 _ (Nat.le_refl _) hwait
    rw [List.getElem?_eq_getElem hwait] at hsome
    rw [hql, hsome]
    simp only [Channel.pollWork]
    exact ⟨trivial, by omega⟩
  | read v =>
    simp only [Channel.pollStep, Channel.pollWork, pushedValues_append,
      pushedValues_pollTrue, polledValues_append, polledValues_pollTrue, List.append_nil,
      List.length_append, List.length_singleton]
    exact ⟨trivial, by omega⟩

/-- Left alone, the consumer delivers every value that has been pushed. -/
theorem Channel.drain {α : Type} (w : Nat) (s : ChannelState α)
    (hw : Channel.pollWork s ≤ w)
    (hN0 : 0 < s.data.buffer.length) (hN : s.data.buffer.length < 2 ^ 16)
    (hc : Channel.CountersOk s) (hr : Channel.RingOk s)
    (hwrap : (pushedValues s.trace).length < 2 ^ 16) :
    ∃ m, polledValues (Channel.run s (List.replicate m ChannelAction.consumer)).trace =
      pushedValues s.trace := by
  induction w generalizing s with
  | zero =>
    refine ⟨0, ?_⟩
    by_cases hwait : (polledValues s.trace).length < (pushedValues s.trace).length
    · have := (Channel.pollStep_progress s hN0 hc hr hwrap hwait).2
      omega
    · have heq : (polledValues s.trace).length = (pushedValues s.trace).length := by
        have := hc.2.2.1
        omega
      have hpre := hr.2.2.2
      rw [heq, List.take_length] at hpre
      exact hpre
  | succ w ih =>
    by_cases hwait : (polledValues s.trace).length < (pushedValues s.trace).length
    · obtain ⟨hp, hlt⟩ := Channel.pollStep_progress s hN0 hc hr hwrap hwait
      have hstep : Channel.step s ChannelAction.consumer = Channel.pollStep s := rfl
      obtain ⟨m, hm⟩ := ih (Channel.pollStep s) (by omega)
        (by rw [← hstep, Channel.step_buffer_length]; exact hN0)
        (by rw [← hstep, Channel.step_buffer_length]; exact hN)
        (by rw [← hstep]; exact Channel.step_counters s _ hN hc)
        (by rw [← hstep]; exact Channel.step_ring s _ hN0 hc hr
              (by rw [hstep, hp]; exact hwrap))
        (by rw [hp]; exact hwrap)
      refine ⟨m + 1, ?_⟩
      rw [List.replicate_succ]
      simp only [Channel.run, List.foldl_cons] at hm ⊢
      rw [hstep, hm, hp]
    · refine ⟨0, ?_⟩
      have heq : (polledValues s.trace).length = (pushedValues s.trace).length := by
        have := hc.2.2.1
        omega
      have hpre := hr.2.2.2
      rw [heq, List.take_length] at hpre
      exact hpre

theorem Channel.step_after {α : Type} (earlier : List (ChannelEvent α))
    (s : ChannelState α) (a : ChannelAction α) :
    Channel.step (s.after earlier) a = (Channel.step s a).after earlier := by
  obtain ⟨⟨pp, buf, ql⟩, prod, cons, tr⟩ := s
  cases a with
  | producer value =>
    cases prod with
    | idle =>
      simp only [Channel.step, Channel.pushStep, ChannelState.after]
      split_ifs <;> simp [List.append_assoc]
    | checked v => simp [Channel.step, Channel.pushStep, ChannelState.after]
    | written v => simp [Channel.step, Channel.pushStep, ChannelState.after]
  | consumer =>
    cases cons with
    | idle =>
      simp only [Channel.step, Channel.pollStep, ChannelState.after]
      split_ifs <;> simp [List.append_assoc]
    | checked =>
      simp only [Channel.step, Channel.pollStep, ChannelState.after]
      split <;> simp
    | read v => simp [Channel.step, Channel.pollStep, ChannelState.after]

theorem Channel.run_after {α : Type} (earlier : List (ChannelEvent α))
    (acts : List (ChannelAction α)) (s : ChannelState α) :
    Channel.run (s.after earlier) acts = (Channel.run s acts).after earlier := by
  induction acts generalizing s with
  | nil => rfl
  | cons a rest ih =>
    simp only [Channel.run, List.foldl_cons] at ih ⊢
    rw [Channel.step_after, ih]

theorem Channel.run_append {α : Type} (s : ChannelState α)
    (a b : List (ChannelAction α)) :
    Channel.run s (a ++ b) = Channel.run (Channel.run s a) b := by
  simp only [Channel.run, List.foldl_append]

/-- One round trip on a ring of zeros moves both counters by one. -/
theorem roundTrip_run (k : Nat) (hk : k < 2 ^ 16 - 1) (trace : List (ChannelEvent Nat)) :
    Channel.run (afterRoundTrips k trace) (channelRoundTrip 0) =
      afterRoundTrips (k + 1)
        (trace ++ [ChannelEvent.pushTrue 0, ChannelEvent.pollTrue 0]) := by
  have hocc : channelOccupancy k k ≠ 28 := by
    unfold channelOccupancy
    omega
  have hslot : k % 28 < 28 := Nat.mod_lt _ (by decide)
  have hk1 : (k + 1) % 2 ^ 16 = k + 1 := Nat.mod_eq_of_lt (by omega)
  have hne : ¬ (k + 1 = k) := by omega
  have e1 : Channel.step (afterRoundTrips k trace) (ChannelAction.producer 0) =
      { data := { pushPointer := k, buffer := List.replicate 28 0, pollPointer := k },
        producer := PushPhase.checked 0, consumer := PollPhase.idle, trace := trace } := by
    simp only [Channel.step, Channel.pushStep, afterRoundTrips, List.length_replicate, hocc,
      if_false]
  have e2 : Channel.step
      { data := { pushPointer := k, buffer := List.replicate 28 0, pollPointer := k },
        producer := PushPhase.checked 0, consumer := PollPhase.idle, trace := trace }
      (ChannelAction.producer 0) =
      { data := { pushPointer := k, buffer := List.replicate 28 0, pollPointer := k },
        producer := PushPhase.written 0, consumer := PollPhase.idle, trace := trace } := by
    simp only [Channel.step, Channel.pushStep, List.set_replicate_self]
  have e3 : Channel.step
      { data := { pushPointer := k, buffer := List.replicate 28 0, pollPointer := k },
        producer := PushPhase.written 0, consumer := PollPhase.idle, trace := trace }
      (ChannelAction.producer 0) =
      { data := { pushPointer := k + 1, buffer := List.replicate 28 0, pollPointer := k },
        producer := PushPhase.idle, consumer := PollPhase.idle,
        trace := trace ++ [ChannelEvent.pushTrue 0] } := by
    simp only [Channel.step, Channel.pushStep, hk1]
  have e4 : Channel.step
      { data := { pushPointer := k + 1, buffer := List.replicate 28 0, pollPointer := k },
        producer := PushPhase.idle, consumer := PollPhase.idle,
        trace := trace ++ [ChannelEvent.pushTrue 0] }
      ChannelAction.consumer =
      { data := { pushPointer := k + 1, buffer := List.replicate 28 0, pollPointer := k },
        producer := PushPhase.idle, consumer := PollPhase.checked,
        trace := trace ++ [ChannelEvent.pushTrue 0] } := by
    simp only [Channel.step, Channel.pollStep, hne, if_false]
  have e5 : Channel.step
      { data := { pushPointer := k + 1, buffer := List.replicate 28 0, pollPointer := k },
        producer := PushPhase.idle, consumer := PollPhase.checked,
        trace := trace ++ [ChannelEvent.pushTrue 0] }
      ChannelAction.consumer =
      { data := { pushPointer := k + 1, buffer := List.replicate 28 0, pollPointer := k },
        producer := PushPhase.idle, consumer := PollPhase.read 0,
        trace := trace ++ [ChannelEvent.pushTrue 0] } := by
    simp only [Channel.step, Channel.pollStep, List.length_replicate,
      List.getElem?_replicate, hslot, if_true]
  have e6 : Channel.step
      { data := { pushPointer := k + 1, buffer := List.replicate 28 0, pollPointer := k },
        producer := PushPhase.idle, consumer := PollPhase.read 0,
        trace := trace ++ [ChannelEvent.pushTrue 0] }
      ChannelAction.consumer =
      { data := { pushPointer := k + 1, buffer := List.replicate 28 0,
                  pollPointer := k + 1 },
        producer := PushPhase.idle, consumer := PollPhase.idle,
        trace := trace ++ [ChannelEvent.pushTrue 0, ChannelEvent.pollTrue 0] } := by
    simp only [Channel.step, Channel.pollStep, hk1, List.append_assoc,
      List.singleton_append]
  simp only [Channel.run, channelRoundTrip, List.foldl_cons, List.foldl_nil, e1, e2, e3, e4,
    e5, e6]
  rfl

theorem roundTrips_run (k : Nat) (hk : k < 2 ^ 16) :
    Channel.run (Channel.start (List.replicate 28 0)) (channelRoundTrips 0 k) =
      afterRoundTrips k (roundTripTrace 0 k) := by
  induction k with
  | zero => rfl
  | succ k ih =>
    simp only [channelRoundTrips, roundTripTrace]
    rw [Channel.run_append, ih (by omega), roundTrip_run k (by omega)]

theorem roundTripTrace_values (k : Nat) :
    pushedValues (roundTripTrace 0 k) = List.replicate k 0 ∧
    polledValues (roundTripTrace 0 k) = List.replicate k 0 := by
  induction k with
  | zero => exact ⟨rfl, rfl⟩
  | succ k ih =>
    have e1 : pushedValues [ChannelEvent.pushTrue 0, ChannelEvent.pollTrue 0] = [0] := rfl
    have e2 : polledValues [ChannelEvent.pushTrue 0, ChannelEvent.pollTrue 0] = [0] := rfl
    simp only [roundTripTrace, pushedValues_append, polledValues_append, ih.1, ih.2, e1, e2,
      List.replicate_succ']
    exact ⟨trivial, trivial⟩

set_option maxRecDepth 100000 in
/-- The burst of 28 pushes and one poll, from the state in which both counters are
65520. -/
theorem burst_run :
    Channel.run (afterRoundTrips 65520 []) channelBurst =
      { data := { pushPointer := 12,
                  buffer := [116, 117, 118, 119, 120, 121, 122, 123, 124, 125, 126, 127,
                             112, 113, 114, 115, 0, 0, 0, 0, 0, 0, 0, 0, 0, 0, 0, 0],
                  pollPointer := 65521 },
        producer := PushPhase.idle, consumer := PollPhase.idle,
        trace := ((List.range 28).map (fun i => ChannelEvent.pushTrue (100 + i))) ++
          [ChannelEvent.pollTrue 116] } := by
  rfl

theorem afterRoundTrips_after (k : Nat) (trace : List (ChannelEvent Nat)) :
    (afterRoundTrips k []).after trace = afterRoundTrips k trace := by
  simp only [afterRoundTrips, ChannelState.after, List.append_nil]

theorem burst_values :
    pushedValues (((List.range 28).map (fun i => ChannelEvent.pushTrue (100 + i))) ++
        [ChannelEvent.pollTrue 116]) = (List.range 28).map (fun i => 100 + i) ∧
    polledValues (((List.range 28).map (fun i => ChannelEvent.pushTrue (100 + i))) ++
        [ChannelEvent.pollTrue 116]) = [116] := by
  exact ⟨rfl, rfl⟩

/-- The mechanism of section 4.6 at the wrap of the counters: on a ring of
`CHANNEL_BUFFER_LENGTH` = 28 entries, 65520
round trips of one push and one poll bring both 16-bit counters to 65520; 28 pushes
of the values 100, ..., 127 follow, each of which returns true; the next poll
returns true and delivers 116, while the oldest value waiting is 100.  The counter
has wrapped from 65535 to 0 after the 16th of these pushes, and since 28 does not
divide 2^16 the slot `pushPointer % 28` started again at 0, on top of the values
still waiting. -/
theorem Channel_wrap_breaks_order :
    (List.replicate 28 0).length = CHANNEL_BUFFER_LENGTH 64 32 ∧
    pushedValues (Channel.reached (List.replicate 28 0)
        (channelRoundTrips 0 65520 ++ channelBurst)).trace =
      List.replicate 65520 0 ++ (List.range 28).map (fun i => 100 + i) ∧
    polledValues (Channel.reached (List.replicate 28 0)
        (channelRoundTrips 0 65520 ++ channelBurst)).trace =
      List.replicate 65520 0 ++ [116] ∧
    (pushedValues (Channel.reached (List.replicate 28 0)
        (channelRoundTrips 0 65520 ++ channelBurst)).trace)[65520]? = some 100 ∧
    (polledValues (Channel.reached (List.replicate 28 0)
        (channelRoundTrips 0 65520 ++ channelBurst)).trace)[65520]? = some 116 := by
  have hrun : Channel.reached (List.replicate 28 0)
      (channelRoundTrips 0 65520 ++ channelBurst) =
      (Channel.run (afterRoundTrips 65520 []) channelBurst).after
        (roundTripTrace 0 65520) := by
    unfold Channel.reached
    rw [Channel.run_append, roundTrips_run 65520 (by decide), ← afterRoundTrips_after,
      Channel.run_after]
  have hpush : pushedValues (Channel.reached (List.replicate 28 0)
      (channelRoundTrips 0 65520 ++ channelBurst)).trace =
      List.replicate 65520 0 ++ (List.range 28).map (fun i => 100 + i) := by
    rw [hrun, burst_run]
    unfold ChannelState.after
    rw [pushedValues_append, (roundTripTrace_values 65520).1, burst_values.1]
  have hpoll : polledValues (Channel.reached (List.replicate 28 0)
      (channelRoundTrips 0 65520 ++ channelBurst)).trace =
      List.replicate 65520 0 ++ [116] := by
    rw [hrun, burst_run]
    unfold ChannelState.after
    rw [polledValues_append, (roundTripTrace_values 65520).2, burst_values.2]
  refine ⟨by decide, hpush, hpoll, ?_, ?_⟩
  · rw [hpush, List.getElem?_append_right (by rw [List.length_replicate]),
      List.length_replicate, Nat.sub_self]
    rfl
  · rw [hpoll, List.getElem?_append_right (by rw [List.length_replicate]),
      List.length_replicate, Nat.sub_self]
    rfl

/-- A step of the producer that records a returned `true` is the advance of
`pushPointer`. -/
theorem Channel.pushTrue_written {α : Type} (s : ChannelState α) (value v : α)
    (h : (Channel.step s (ChannelAction.producer value)).trace =
      s.trace ++ [ChannelEvent.pushTrue v]) : s.producer = PushPhase.written v := by
  obtain ⟨⟨pp, buf, ql⟩, prod, cons, tr⟩ := s
  cases prod with
  | idle =>
    simp only [Channel.step, Channel.pushStep] at h
    split_ifs at h <;> simp at h
  | checked u => simp [Channel.step, Channel.pushStep] at h
  | written u =>
    simp [Channel.step, Channel.pushStep] at h
    rw [h]

/-- A step of the consumer that records a returned `true` is the advance of
`pollPointer`. -/
theorem Channel.pollTrue_read {α : Type} (s : ChannelState α) (v : α)
    (h : (Channel.step s ChannelAction.consumer).trace =
      s.trace ++ [ChannelEvent.pollTrue v]) : s.consumer = PollPhase.read v := by
  obtain ⟨⟨pp, buf, ql⟩, prod, cons, tr⟩ := s
  cases cons with
  | idle =>
    simp only [Channel.step, Channel.pollStep] at h
    split_ifs at h <;> simp at h
  | checked =>
    simp only [Channel.step, Channel.pollStep] at h
    split at h <;> simp at h
  | read u =>
    simp [Channel.step, Channel.pollStep] at h
    rw [h]

/-- The mechanism of section 4.6 with single accesses taken as atomic and seen in
order: in every interleaving of the accesses of one producer and one consumer to a
freshly constructed channel of `0 < N < 2^15` entries: as long
as fewer than 2^16 pushes have returned true, the values delivered by the
successful polls are the first of the values for which push returned true, in push
order, and the consumer left alone delivers all of them; push never returns true
in a state in which the ring holds `N` entries; poll never returns true in a state
in which `pushPointer == pollPointer`; and poll on the freshly constructed channel
returns false. -/
theorem Channel_spsc_before_wrap {α : Type} (buffer : List α)
    (acts : List (ChannelAction α)) (hN0 : 0 < buffer.length)
    (hN : buffer.length < 2 ^ 15) :
    ((pushedValues (Channel.reached buffer acts).trace).length < 2 ^ 16 →
      polledValues (Channel.reached buffer acts).trace =
        (pushedValues (Channel.reached buffer acts).trace).take
          (polledValues (Channel.reached buffer acts).trace).length ∧
      ∃ m, polledValues (Channel.run (Channel.reached buffer acts)
          (List.replicate m ChannelAction.consumer)).trace =
        pushedValues (Channel.reached buffer acts).trace) ∧
    (∀ (value v : α),
      (Channel.step (Channel.reached buffer acts) (ChannelAction.producer value)).trace =
        (Channel.reached buffer acts).trace ++ [ChannelEvent.pushTrue v] →
      channelOccupancy (Channel.reached buffer acts).data.pushPointer
        (Channel.reached buffer acts).data.pollPointer < buffer.length) ∧
    (∀ (v : α),
      (Channel.step (Channel.reached buffer acts) ChannelAction.consumer).trace =
        (Channel.reached buffer acts).trace ++ [ChannelEvent.pollTrue v] →
      (Channel.reached buffer acts).data.pushPointer ≠
        (Channel.reached buffer acts).data.pollPointer) ∧
    (Channel.step (Channel.start buffer) ChannelAction.consumer).trace =
      [ChannelEvent.pollFalse] := by
  have hlen : (Channel.reached buffer acts).data.buffer.length = buffer.length :=
    Channel.run_buffer_length acts (Channel.start buffer)
  have hN16 : buffer.length < 2 ^ 16 := by omega
  have hc : Channel.CountersOk (Channel.reached buffer acts) :=
    Channel.run_counters acts (Channel.start buffer) hN16 (Channel.start_ok buffer).1
  refine ⟨?_, ?_, ?_, rfl⟩
  · intro hwrap
    have hr : Channel.RingOk (Channel.reached buffer acts) :=
      Channel.run_ring acts (Channel.start buffer) hN0 hN16 (Channel.start_ok buffer).1
        (Channel.start_ok buffer).2 hwrap
    exact ⟨hr.2.2.2, Channel.drain _ _ (Nat.le_refl _) (by rw [hlen]; exact hN0)
      (by rw [hlen]; exact hN16) hc hr hwrap⟩
  · intro value v h
    have hw := Channel.pushTrue_written _ value v h
    obtain ⟨h1, h2, h3, h4, h5, h6⟩ := hc
    have h5a := h5 (by rw [hw]; simp)
    rw [hlen] at h4 h5a
    rw [h1, h2, channelOccupancy_counts _ _ _ h3 h4 hN16]
    omega
  · intro v h
    have hw := Channel.pollTrue_read _ v h
    obtain ⟨h1, h2, h3, h4, h5, h6⟩ := hc
    have h6a := h6 (by rw [hw]; simp)
    rw [hlen] at h4
    rw [h1, h2]
    omega

set_option maxRecDepth 100000 in
/-- The interleaving `sampleSchedule` on a ring of 28
entries; the poll that meets the empty ring returns false, and the two values are
delivered in push order. -/
theorem Channel_spsc_before_wrap_witness :
    0 < (List.replicate 28 0).length ∧ (List.replicate 28 0).length < 2 ^ 15 ∧
    (pushedValues (Channel.reached (List.replicate 28 0) sampleSchedule).trace).length
      < 2 ^ 16 ∧
    (Channel.reached (List.replicate 28 0) sampleSchedule).trace =
      [ChannelEvent.pollFalse, ChannelEvent.pushTrue 7, ChannelEvent.pollTrue 7,
       ChannelEvent.pushTrue 8, ChannelEvent.pollTrue 8] ∧
    (polledValues (Channel.reached (List.replicate 28 0) sampleSchedule).trace =
        (pushedValues (Channel.reached (List.replicate 28 0) sampleSchedule).trace).take
          (polledValues (Channel.reached (List.replicate 28 0) sampleSchedule).trace).length ∧
      ∃ m, polledValues (Channel.run (Channel.reached (List.replicate 28 0) sampleSchedule)
          (List.replicate m ChannelAction.consumer)).trace =
        pushedValues (Channel.reached (List.replicate 28 0) sampleSchedule).trace) :=
  ⟨by decide, by decide, by decide, rfl,
    (Channel_spsc_before_wrap (List.replicate 28 0) sampleSchedule (by decide)
      (by decide)).1 (by decide)⟩

/-! ## The trie of facts (C24, C25) -/

theorem getChild_setChild_self {τ : Type} (cs : List (Nat × τ)) (w : Nat) (c : τ) :
    getChild (setChild cs w c) w = some c := by
  induction cs with
  | nil => simp [setChild, getChild]
  | cons hd rest ih =>
    obtain ⟨w', c'⟩ := hd
    simp only [setChild]
    split_ifs with h
    · simp [getChild]
    · simp [getChild, h, ih]

theorem getChild_setChild_ne {τ : Type} (cs : List (Nat × τ)) (w w' : Nat) (c : τ)
    (hne : w' ≠ w) : getChild (setChild cs w c) w' = getChild cs w' := by
  induction cs with
  | nil => simp [setChild, getChild, Ne.symm hne]
  | cons hd rest ih =>
    obtain ⟨v, c'⟩ := hd
    simp only [setChild]
    split_ifs with h
    · subst h
      simp [getChild, Ne.symm hne]
    · by_cases hv : v = w'
      · simp [getChild, hv]
      · simp [getChild, hv, ih]

theorem Trie.contains_nil (l : Bool) (cs : List (Nat × Trie)) :
    (Trie.node l cs).contains [] = l := rfl

theorem Trie.contains_cons (l : Bool) (cs : List (Nat × Trie)) (w : Nat) (ws : List Nat) :
    (Trie.node l cs).contains (w :: ws) =
      match getChild cs w with
      | none => false
      | some c => c.contains ws := by
  simp only [Trie.contains, Trie.find]
  cases getChild cs w <;> rfl

theorem Trie.empty_contains (q : List Nat) : Trie.empty.contains q = false := by
  cases q with
  | nil => rfl
  | cons w ws => rfl

/-- The sequences contained after a walk of `insert`: the one inserted and those
contained before. -/
theorem Trie.contains_insert (s : List Nat) (t : Trie) (q : List Nat) :
    (t.insert s).contains q = (decide (q = s) || t.contains q) := by
  induction s generalizing t q with
  | nil =>
    obtain ⟨l, cs⟩ := t
    cases q with
    | nil => simp [Trie.insert, Trie.contains_nil]
    | cons w ws => simp [Trie.insert, Trie.contains_cons]
  | cons w ws ih =>
    obtain ⟨l, cs⟩ := t
    cases q with
    | nil => simp [Trie.insert, Trie.contains_nil]
    | cons v qs =>
      simp only [Trie.insert, Trie.contains_cons]
      by_cases hv : v = w
      · subst hv
        rw [getChild_setChild_self]
        simp only [ih]
        cases hc : getChild cs v with
        | none => simp [Trie.empty_contains]
        | some c => simp
      · rw [getChild_setChild_ne _ _ _ _ hv]
        simp [hv]

theorem Trie.contains_add (s : List Nat) (t : Trie) (q : List Nat) :
    (t.add s).contains q = true ↔ (q = s ∧ q ≠ []) ∨ t.contains q = true := by
  cases s with
  | nil => simp [Trie.add]
  | cons w ws =>
    simp only [Trie.add, Trie.contains_insert, Bool.or_eq_true, decide_eq_true_eq]
    constructor
    · rintro (h | h)
      · exact Or.inl ⟨h, by rw [h]; simp⟩
      · exact Or.inr h
    · rintro (h | h)
      · exact Or.inl h.1
      · exact Or.inr h

theorem Trie.contains_adds (adds : List (List Nat)) (t : Trie) (q : List Nat) :
    (adds.foldl Trie.add t).contains q = true ↔
      (q ∈ adds ∧ q ≠ []) ∨ t.contains q = true := by
  induction adds generalizing t with
  | nil => simp
  | cons s rest ih =>
    simp only [List.foldl_cons, ih, Trie.contains_add, List.mem_cons]
    constructor
    · rintro (h | h | h)
      · exact Or.inl ⟨Or.inr h.1, h.2⟩
      · exact Or.inl ⟨Or.inl h.1, h.2⟩
      · exact Or.inr h
    · rintro (⟨h | h, h2⟩ | h)
      · exact Or.inr (Or.inl ⟨h, h2⟩)
      · exact Or.inl ⟨h, h2⟩
      · exact Or.inr (Or.inr h)

/-- The trie and the list of facts of a fact database after a series of adds. -/
theorem TrieFactDB.adds_fields (adds : List (List Nat)) (db : TrieFactDB) :
    (adds.foldl TrieFactDB.add db).facts = adds.foldl Trie.add db.facts ∧
    (adds.foldl TrieFactDB.add db).stored = db.stored ++ adds.filter (fun s => s ≠ []) ∧
    (adds.foldl TrieFactDB.add db).validInsertions = db.validInsertions := by
  induction adds generalizing db with
  | nil => simp
  | cons s rest ih =>
    simp only [List.foldl_cons]
    obtain ⟨h1, h2, h3⟩ := ih (db.add s)
    cases s with
    | nil => exact ⟨h1, by simpa [TrieFactDB.add] using h2, h3⟩
    | cons w ws =>
      refine ⟨h1, ?_, h3⟩
      rw [h2]
      simp [TrieFactDB.add]

/-- C24: for every sequence of `add` calls on a `Trie`, and likewise on a
`TrieFactDB`, and every word sequence `s`, `contains(s, length)` is true iff `s` was
added and is not empty; so an added sequence stays contained after any further
adds, a sequence that was not added itself (a strict part of an added one, a longer
or a different one) is not contained, and the empty sequence is not contained. -/
theorem Trie_contains_iff_added (adds : List (List Nat)) (s : List Nat) :
    ((adds.foldl Trie.add Trie.empty).contains s = true ↔ s ∈ adds ∧ s ≠ []) ∧
    ((adds.foldl TrieFactDB.add TrieFactDB.empty).contains s = true ↔
      s ∈ adds ∧ s ≠ []) ∧
    (∀ (more : List (List Nat)), (adds.foldl Trie.add Trie.empty).contains s = true →
      ((adds ++ more).foldl Trie.add Trie.empty).contains s = true) ∧
    (adds.foldl Trie.add Trie.empty).contains [] = false ∧
    (adds.foldl TrieFactDB.add TrieFactDB.empty).contains [] = false := by
  have h1 : ∀ (l : List (List Nat)) (q : List Nat),
      (l.foldl Trie.add Trie.empty).contains q = true ↔ q ∈ l ∧ q ≠ [] := by
    intro l q
    rw [Trie.contains_adds]
    simp [Trie.empty_contains]
  have h2 : ∀ (q : List Nat),
      (adds.foldl TrieFactDB.add TrieFactDB.empty).contains q =
        (adds.foldl Trie.add Trie.empty).contains q := by
    intro q
    unfold TrieFactDB.contains
    rw [(TrieFactDB.adds_fields adds TrieFactDB.empty).1]
    rfl
  refine ⟨h1 adds s, ?_, ?_, ?_, ?_⟩
  · rw [h2]
    exact h1 adds s
  · intro more h
    rw [h1] at h ⊢
    exact ⟨List.mem_append_left _ h.1, h.2⟩
  · cases h : (adds.foldl Trie.add Trie.empty).contains [] with
    | false => rfl
    | true => exact absurd rfl ((h1 adds []).mp h).2
  · rw [h2]
    cases h : (adds.foldl Trie.add Trie.empty).contains [] with
    | false => rfl
    | true => exact absurd rfl ((h1 adds []).mp h).2

/-- The tests `CanAddContainsDepth1`, `CanAddContainsDepth2` and `ToyExample` of
`TestTrie.cc`, with the results they expect. -/
theorem Trie_contains_tests :
    (Trie.empty.add [42]).contains [42] = true ∧
    (Trie.empty.add [42]).contains [7] = false ∧
    (Trie.empty.add [42, 43]).contains [42, 43] = true ∧
    (Trie.empty.add [42, 43]).contains [42] = false ∧
    ((Trie.empty.add [42, 43]).add [42]).contains [42, 43] = true ∧
    ((Trie.empty.add [42, 43]).add [42]).contains [42] = true ∧
    ([[42, 43], [42, 44], [7, 44]].foldl Trie.add Trie.empty).contains [42, 43] = true ∧
    ([[42, 43], [42, 44], [7, 44]].foldl Trie.add Trie.empty).contains [7, 44] = true ∧
    ([[42, 43], [42, 44], [7, 44]].foldl Trie.add Trie.empty).contains [42, 44] = true ∧
    ([[42, 43], [42, 44], [7, 44]].foldl Trie.add Trie.empty).contains [7, 42] = false ∧
    ([[42, 43], [42, 44], [7, 44]].foldl Trie.add Trie.empty).contains [42, 7] = false ∧
    ([[42, 43], [42, 44], [7, 44]].foldl Trie.add Trie.empty).contains [42, 43, 43]
      = false ∧
    ([[42, 43], [42, 44], [7, 44]].foldl Trie.add Trie.empty).contains [] = false ∧
    ([[42, 43], [42, 44], [7, 44]].foldl Trie.add Trie.empty).contains [42] = false ∧
    (TrieFactDB.empty.add [42]).contains [42] = true ∧
    (TrieFactDB.empty.add [42, 43]).contains [42, 43] = true ∧
    (TrieFactDB.empty.add [42, 43]).contains [42] = false ∧
    ((TrieFactDB.empty.add [42, 43]).add [42]).contains [42, 43] = true ∧
    ((TrieFactDB.empty.add [42, 43]).add [42]).contains [42] = true := by
  decide

/-! ### Completions -/

theorem mem_foldl_appendNew (l acc : List Nat) (w : Nat) :
    w ∈ l.foldl appendNew acc ↔ w ∈ acc ∨ w ∈ l := by
  induction l generalizing acc with
  | nil => simp
  | cons x rest ih =>
    simp only [List.foldl_cons, ih, List.mem_cons]
    unfold appendNew
    split_ifs with h
    · constructor
      · rintro (h1 | h1)
        · exact Or.inl h1
        · exact Or.inr (Or.inr h1)
      · rintro (h1 | h1 | h1)
        · exact Or.inl h1
        · exact Or.inl (h1 ▸ h)
        · exact Or.inr h1
    · simp only [List.mem_append, List.mem_singleton]
      tauto

theorem mem_keepFirst (l : List Nat) (w : Nat) : w ∈ keepFirst l ↔ w ∈ l := by
  simp [keepFirst, mem_foldl_appendNew]

theorem keepFirst_concat (l : List Nat) (x : Nat) :
    keepFirst (l ++ [x]) = appendNew (keepFirst l) x := by
  simp [keepFirst, List.foldl_append]

/-- The words of `keepFirst` are written once each, in the order of their first
occurrence. -/
theorem keepFirst_order (l : List Nat) :
    (keepFirst l).Nodup ∧
    (keepFirst l).Pairwise (fun a b => l.indexOf a < l.indexOf b) := by
  induction l using List.reverseRecOn with
  | nil => exact ⟨List.nodup_nil, List.Pairwise.nil⟩
  | append_singleton l x ih =>
    obtain ⟨hnd, hpw⟩ := ih
    rw [keepFirst_concat]
    unfold appendNew
    have hold : (keepFirst l).Pairwise
        (fun a b => (l ++ [x]).indexOf a < (l ++ [x]).indexOf b) := by
      refine List.Pairwise.imp_of_mem ?_ hpw
      intro a b ha hb hab
      rw [List.indexOf_append_of_mem ((mem_keepFirst l a).mp ha),
        List.indexOf_append_of_mem ((mem_keepFirst l b).mp hb)]
      exact hab
    split_ifs with h
    · exact ⟨hnd, hold⟩
    · have hx : x ∉ l := fun hm => h ((mem_keepFirst l x).mpr hm)
      refine ⟨?_, ?_⟩
      · refine List.Nodup.append hnd (List.nodup_singleton x) ?_
        intro a ha hax
        rw [List.mem_singleton] at hax
        exact h (hax ▸ ha)
      · rw [List.pairwise_append]
        refine ⟨hold, List.pairwise_singleton _ _, ?_⟩
        intro a ha b hb
        rw [List.mem_singleton] at hb
        subst hb
        have hal : a ∈ l := (mem_keepFirst l a).mp ha
        rw [List.indexOf_append_of_mem hal, List.indexOf_append_of_not_mem hx]
        have := List.indexOf_lt_length.mpr hal
        omega

theorem insertIdx_eraseIdx_self (f : List Nat) (i w : Nat) (h : f[i]? = some w) :
    List.insertIdx i w (f.eraseIdx i) = f := by
  induction f generalizing i with
  | nil => simp at h
  | cons x rest ih =>
    cases i with
    | zero =>
      simp only [List.getElem?_cons_zero, Option.some.injEq] at h
      subst h
      simp
    | succ k =>
      simp only [List.getElem?_cons_succ] at h
      simp only [List.eraseIdx_cons_succ, List.insertIdx_succ_cons, ih k h]

/-- The words proposed by a fact are those whose insertion into the query, at some
position, gives the fact. -/
theorem mem_insertedWords (fact query : List Nat) (w : Nat) :
    w ∈ insertedWords fact query ↔
      ∃ i, i ≤ query.length ∧ List.insertIdx i w query = fact := by
  unfold insertedWords
  rw [List.mem_filterMap]
  constructor
  · rintro ⟨i, hi, h⟩
    rw [List.mem_range] at hi
    split_ifs at h with he
    · refine ⟨i, ?_, ?_⟩
      · rw [← he, List.length_eraseIdx, if_pos hi]
        omega
      · rw [← he]
        exact insertIdx_eraseIdx_self fact i w h
  · rintro ⟨i, hi, h⟩
    have hlen : fact.length = query.length + 1 := by
      rw [← h, List.length_insertIdx _ _ hi]
    refine ⟨i, List.mem_range.mpr (by omega), ?_⟩
    have he : fact.eraseIdx i = query := by
      rw [← h]
      exact List.eraseIdx_insertIdx i query
    rw [if_pos he]
    have hlt : i < fact.length := by omega
    rw [List.getElem?_eq_getElem hlt]
    congr 1
    subst h
    exact List.getElem_insertIdx_self query w i hi

theorem TrieFactDB.calls_fields (calls : List FactDBCall) (db : TrieFactDB) :
    (calls.foldl TrieFactDB.call db).facts = (addedFacts calls).foldl Trie.add db.facts ∧
    (calls.foldl TrieFactDB.call db).stored = db.stored ++ addedFacts calls := by
  induction calls generalizing db with
  | nil => simp [addedFacts]
  | cons c rest ih =>
    simp only [List.foldl_cons]
    obtain ⟨h1, h2⟩ := ih (db.call c)
    rw [h1, h2]
    cases c with
    | add elements =>
      cases elements with
      | nil => exact ⟨rfl, rfl⟩
      | cons w ws =>
        simp [addedFacts, TrieFactDB.call, TrieFactDB.add]
    | addValidInsertion word edgeType => exact ⟨rfl, rfl⟩

theorem TrieFactDB.calls_insertionEdge (calls : List FactDBCall) (db : TrieFactDB)
    (word : Nat) :
    (calls.foldl TrieFactDB.call db).insertionEdge word =
      calls.foldl (fun acc c =>
        match c with
        | FactDBCall.addValidInsertion w e => if w = word then some e else acc
        | _ => acc) (db.insertionEdge word) := by
  induction calls generalizing db with
  | nil => rfl
  | cons c rest ih =>
    simp only [List.foldl_cons]
    rw [ih (db.call c)]
    congr 1
    cases c with
    | add elements =>
      cases elements with
      | nil => rfl
      | cons w ws => rfl
    | addValidInsertion w e =>
      simp only [TrieFactDB.call, TrieFactDB.addValidInsertion, TrieFactDB.insertionEdge]
      by_cases h : w = word
      · subst h
        rw [getChild_setChild_self, if_pos rfl]
      · rw [getChild_setChild_ne _ _ _ _ (fun h2 => h h2.symm), if_neg h]

theorem map_fst_setChild {τ : Type} (cs : List (Nat × τ)) (w : Nat) (c : τ) :
    (setChild cs w c).map Prod.fst = appendNew (cs.map Prod.fst) w := by
  induction cs with
  | nil => simp [setChild, appendNew]
  | cons hd rest ih =>
    obtain ⟨v, c'⟩ := hd
    simp only [setChild]
    split_ifs with h
    · subst h
      simp [appendNew]
    · simp only [List.map_cons, ih]
      unfold appendNew
      have hne : w ≠ v := fun h2 => h h2.symm
      by_cases hm : w ∈ rest.map Prod.fst
      · rw [if_pos hm, if_pos (List.mem_cons_of_mem _ hm)]
      · rw [if_neg hm, if_neg (by simp only [List.mem_cons, not_or]; exact ⟨hne, hm⟩)]
        rfl

theorem Trie.completions_nil (l : Bool) (cs : List (Nat × Trie)) :
    (Trie.node l cs).completions [] = (l, cs.map Prod.fst) := rfl

theorem Trie.completions_cons (l : Bool) (cs : List (Nat × Trie)) (w : Nat)
    (ws : List Nat) :
    (Trie.node l cs).completions (w :: ws) =
      match getChild cs w with
      | none => (false, [])
      | some c => c.completions ws := by
  simp only [Trie.completions, Trie.find]
  cases getChild cs w <;> rfl

theorem Trie.empty_completions (q : List Nat) : (Trie.empty.completions q).2 = [] := by
  cases q with
  | nil => rfl
  | cons w ws => rfl

theorem Trie.completions_fst (t : Trie) (q : List Nat) :
    (t.completions q).1 = t.contains q := by
  unfold Trie.completions Trie.contains
  cases t.find q <;> rfl

theorem nextWord_nil_cons (w : Nat) (ws : List Nat) : nextWord [] (w :: ws) = some w := by
  simp [nextWord]

theorem nextWord_nil_right (q : List Nat) : nextWord q [] = none := by
  unfold nextWord
  split_ifs <;> simp

theorem nextWord_cons_cons (v w : Nat) (qs ws : List Nat) :
    nextWord (v :: qs) (w :: ws) = if v = w then nextWord qs ws else none := by
  unfold nextWord
  simp only [List.length_cons, List.take_succ_cons, List.cons.injEq,
    List.getElem?_cons_succ]
  by_cases h : v = w
  · subst h
    simp
  · have h2 : ¬ w = v := fun e => h e.symm
    simp [h, h2]

/-- The child words of a node after a walk of `insert`: the word of the inserted
sequence that follows the node is written after the child words there were, unless
it is among them. -/
theorem Trie.completions_insert (s : List Nat) (t : Trie) (q : List Nat) :
    ((t.insert s).completions q).2 =
      match nextWord q s with
      | none => (t.completions q).2
      | some w => appendNew (t.completions q).2 w := by
  induction s generalizing t q with
  | nil =>
    obtain ⟨l, cs⟩ := t
    rw [nextWord_nil_right]
    cases q with
    | nil => rfl
    | cons v qs => simp only [Trie.insert, Trie.completions_cons]
  | cons w ws ih =>
    obtain ⟨l, cs⟩ := t
    cases q with
    | nil =>
      rw [nextWord_nil_cons]
      simp only [Trie.insert, Trie.completions_nil, map_fst_setChild]
    | cons v qs =>
      rw [nextWord_cons_cons]
      simp only [Trie.insert, Trie.completions_cons]
      by_cases hv : v = w
      · subst hv
        rw [getChild_setChild_self, if_pos rfl]
        simp only [ih]
        cases hc : getChild cs v with
        | none => simp [Trie.empty_completions]
        | some c => simp
      · rw [getChild_setChild_ne _ _ _ _ hv, if_neg hv]

theorem Trie.completions_adds (adds : List (List Nat)) (t : Trie) (q : List Nat) :
    ((adds.foldl Trie.add t).completions q).2 =
      (adds.filterMap (nextWord q)).foldl appendNew (t.completions q).2 := by
  induction adds generalizing t with
  | nil => rfl
  | cons s rest ih =>
    simp only [List.foldl_cons]
    rw [ih (t.add s)]
    cases s with
    | nil => simp [Trie.add, nextWord_nil_right]
    | cons w ws =>
      simp only [Trie.add, Trie.completions_insert, List.filterMap_cons]
      cases nextWord q (w :: ws) with
      | none => rfl
      | some x => rfl

theorem nil_not_mem_addedFacts (calls : List FactDBCall) : [] ∉ addedFacts calls := by
  intro h
  unfold addedFacts at h
  rw [List.mem_filterMap] at h
  obtain ⟨c, _, hc⟩ := h
  cases c with
  | add elements =>
    cases elements with
    | nil => simp at hc
    | cons w ws => simp at hc
  | addValidInsertion word edgeType => simp at hc

/-- C25: for every series of calls of `add` and `addValidInsertion` on a new
`TrieFactDB` and every query `q`, the completion form of `contains` returns true iff
`q` itself is a stored fact; the words it writes are exactly the words `w` such
that inserting the single word `w` into `q`, at some position, gives a stored fact;
each is written once, and they stand in the order in which the facts were added
(the order of their first occurrence among the words proposed by the facts, taken
in the order of the adds); a word for which an edge type is registered comes with
that edge type; `outLength` is their count, and it is 0 when no stored fact
matches.  For a plain `Trie` the words written are the child words of the node of
`q`, in the order in which they were added: the words that follow `q` in the added
sequences. -/
theorem TrieFactDB_completions (calls : List FactDBCall) (q : List Nat) :
    (((TrieFactDB.build calls).completions q).result = true ↔ q ∈ addedFacts calls) ∧
    (∀ (w : Nat), w ∈ ((TrieFactDB.build calls).completions q).out ↔
      ∃ i, i ≤ q.length ∧ List.insertIdx i w q ∈ addedFacts calls) ∧
    ((TrieFactDB.build calls).completions q).out.Nodup ∧
    ((TrieFactDB.build calls).completions q).out.Pairwise (fun a b =>
      ((addedFacts calls).flatMap (fun fact => insertedWords fact q)).indexOf a <
        ((addedFacts calls).flatMap (fun fact => insertedWords fact q)).indexOf b) ∧
    (∀ (i w e : Nat), ((TrieFactDB.build calls).completions q).out[i]? = some w →
      registeredEdge calls w = some e →
      ((TrieFactDB.build calls).completions q).edges[i]? = some e) ∧
    ((TrieFactDB.build calls).completions q).edges.length =
      ((TrieFactDB.build calls).completions q).outLength ∧
    ((TrieFactDB.build calls).completions q).outLength =
      ((TrieFactDB.build calls).completions q).out.length ∧
    ((∀ (w i : Nat), i ≤ q.length → List.insertIdx i w q ∉ addedFacts calls) →
      ((TrieFactDB.build calls).completions q).outLength = 0) ∧
    (∀ (adds : List (List Nat)),
      (adds.foldl Trie.add Trie.empty).completions q =
        ((adds.foldl Trie.add Trie.empty).contains q,
          keepFirst (adds.filterMap (nextWord q)))) := by
  obtain ⟨hfacts, hstored⟩ := TrieFactDB.calls_fields calls TrieFactDB.empty
  have hstored2 : (TrieFactDB.build calls).stored = addedFacts calls := by
    unfold TrieFactDB.build
    rw [hstored]
    rfl
  have hout : ((TrieFactDB.build calls).completions q).out =
      keepFirst ((addedFacts calls).flatMap (fun fact => insertedWords fact q)) := by
    simp only [TrieFactDB.completions, hstored2]
  have hmem : ∀ (w : Nat), w ∈ ((TrieFactDB.build calls).completions q).out ↔
      ∃ i, i ≤ q.length ∧ List.insertIdx i w q ∈ addedFacts calls := by
    intro w
    rw [hout, mem_keepFirst, List.mem_flatMap]
    constructor
    · rintro ⟨fact, hf, hw⟩
      obtain ⟨i, hi, he⟩ := (mem_insertedWords fact q w).mp hw
      exact ⟨i, hi, he ▸ hf⟩
    · rintro ⟨i, hi, hf⟩
      exact ⟨_, hf, (mem_insertedWords _ q w).mpr ⟨i, hi, rfl⟩⟩
  refine ⟨?_, hmem, ?_, ?_, ?_, ?_, rfl, ?_, ?_⟩
  · have hres : ((TrieFactDB.build calls).completions q).result =
        ((addedFacts calls).foldl Trie.add Trie.empty).contains q := by
      simp only [TrieFactDB.completions, TrieFactDB.contains, TrieFactDB.build, hfacts]
      rfl
    rw [hres, Trie.contains_adds]
    constructor
    · rintro (h | h)
      · exact h.1
      · rw [Trie.empty_contains] at h
        exact absurd h (by simp)
    · intro h
      refine Or.inl ⟨h, ?_⟩
      intro hq
      exact nil_not_mem_addedFacts calls (hq ▸ h)
  · rw [hout]
    exact (keepFirst_order _).1
  · rw [hout]
    exact (keepFirst_order _).2
  · intro i w e hw he
    have hedge : (TrieFactDB.build calls).insertionEdge w = some e := by
      unfold TrieFactDB.build
      rw [TrieFactDB.calls_insertionEdge]
      exact he
    simp only [TrieFactDB.completions, List.getElem?_map] at hw ⊢
    rw [hw]
    simp [hedge]
  · simp [TrieFactDB.completions, Completions.outLength]
  · intro hnone
    have hempty : ((TrieFactDB.build calls).completions q).out = [] := by
      rw [List.eq_nil_iff_forall_not_mem]
      intro w hw
      obtain ⟨i, hi, hf⟩ := (hmem w).mp hw
      exact hnone w i hi hf
    simp [Completions.outLength, hempty]
  · intro adds
    have h1 := Trie.completions_fst (adds.foldl Trie.add Trie.empty) q
    have h2 := Trie.completions_adds adds Trie.empty q
    rw [Trie.empty_completions] at h2
    exact Prod.ext h1 h2

/-- The tests `ReturnsChildren`, `FactDBCompletion`, `FactDBCompletionNoMatch` and
`FactDBEdgeCompletion` of `TestTrie.cc`, with the results they expect. -/
theorem TrieFactDB_completion_tests :
    (Trie.empty.add [42, 43]).completions [42] = (false, [43]) ∧
    ((Trie.empty.add [42, 43]).add [42, 44]).completions [42] = (false, [43, 44]) ∧
    ((TrieFactDB.build testCalls).completions [1]).result = false ∧
    ((TrieFactDB.build testCalls).completions [1]).outLength = 3 ∧
    ((TrieFactDB.build testCalls).completions [1]).out = [2, 3, 4] ∧
    ((TrieFactDB.build testCalls).completions [1]).edges = [1, 2, 3] ∧
    ((TrieFactDB.build [FactDBCall.add [1, 2], FactDBCall.add [1, 3],
        FactDBCall.add [4, 1], FactDBCall.add [5, 2, 1]]).completions [6]).result = false ∧
    ((TrieFactDB.build [FactDBCall.add [1, 2], FactDBCall.add [1, 3],
        FactDBCall.add [4, 1], FactDBCall.add [5, 2, 1]]).completions [6]).outLength = 0 ∧
    ((TrieFactDB.build [FactDBCall.add [1, 2], FactDBCall.add [1, 3],
        FactDBCall.add [4, 1], FactDBCall.add [5, 2, 1]]).completions [6, 3]).result
      = false ∧
    ((TrieFactDB.build [FactDBCall.add [1, 2], FactDBCall.add [1, 3],
        FactDBCall.add [4, 1], FactDBCall.add [5, 2, 1]]).completions [6, 3]).outLength
      = 0 := by
  decide

/-! ## Bounds of the bit vector of invalid deletions (C31) -/

/-- C31, the code for every non-empty set of invalid deletions: the constructor of
`InMemoryGraph` creates the bit vector with `vocabSize` elements, where `vocabSize`
is the largest word id of the set, so the valid indices end at `vocabSize - 1`; a
member of the set has the word id `vocabSize`, and setting its flag is an access
outside the vector, so the constructor has no defined result; and on a vector of
that size `containsDeletion` reads outside it for an edge whose source is that
word. -/
theorem InMemoryGraph_flag_index_outside (index2gloss : List (Option String))
    (edgesBySink : List (List edge)) (edgesSizes : List Nat) (size : Nat)
    (t : tagged_word) (rest : List tagged_word) :
    (InMemoryGraph.clearFlags (InMemoryGraph.vocabSizeOf (t :: rest))
        (List.replicate (InMemoryGraph.vocabSizeOf (t :: rest)) false)).length =
      InMemoryGraph.vocabSizeOf (t :: rest) ∧
    (∃ u ∈ t :: rest, u.word = InMemoryGraph.vocabSizeOf (t :: rest)) ∧
    InMemoryGraph.create index2gloss edgesBySink edgesSizes size (t :: rest) = none ∧
    ∀ (g : InMemoryGraph) (deletion : edge),
      g.invalidDeletionWords.length = InMemoryGraph.vocabSizeOf (t :: rest) →
      deletion.source = InMemoryGraph.vocabSizeOf (t :: rest) →
      g.containsDeletion deletion = none := by
  refine ⟨?_, ?_, ?_, ?_⟩
  · rw [clearFlags_length, List.length_replicate]
  · unfold InMemoryGraph.vocabSizeOf
    rcases vocabSizeOf_foldl_attained (t :: rest) 0 with h0 | ⟨u, hu, hw⟩
    · refine ⟨t, List.mem_cons_self _ _, ?_⟩
      have hle := (vocabSizeOf_foldl_ge (t :: rest) 0).2 t (List.mem_cons_self _ _)
      rw [h0] at hle ⊢
      omega
    · exact ⟨u, hu, hw⟩
  · exact InMemoryGraph_create_outside_vector index2gloss edgesBySink edgesSizes size
      (t :: rest) (List.cons_ne_nil _ _)
  · intro g deletion hlen hsrc
    unfold InMemoryGraph.containsDeletion
    have hnone : g.invalidDeletionWords[deletion.source]? = none := by
      rw [List.getElem?_eq_none_iff]
      omega
    rw [hnone]

/-- The constructor on the invalid deletions word 2 and word 7: the vector has 7
elements, the flag of word 2 is set inside it, the flag of word 7 is set at index 7,
outside it; and `containsDeletion` on an edge from word 7 reads index 7 of the
vector of 7 elements, while the tagged word is in the set. -/
theorem InMemoryGraph_two_invalid_deletions :
    InMemoryGraph.vocabSizeOf invalidTwoSeven = 7 ∧
    InMemoryGraph.clearFlags 7 (List.replicate 7 false) = List.replicate 7 false ∧
    InMemoryGraph.setFlags [getTaggedWord 2 0 MONOTONE_DEFAULT] (List.replicate 7 false) =
      some [false, false, true, false, false, false, false] ∧
    InMemoryGraph.setFlags invalidTwoSeven (List.replicate 7 false) = none ∧
    InMemoryGraph.create [] [] [] 8 invalidTwoSeven = none ∧
    InMemoryGraph.containsDeletion
      { index2gloss := [], edgesBySink := [], edgesSizes := [], size := 8,
        invalidDeletions := invalidTwoSeven,
        invalidDeletionWords := [false, false, true, false, false, false, false] }
      deletionOfSeven = none ∧
    getTaggedWord deletionOfSeven.source deletionOfSeven.source_sense MONOTONE_DEFAULT ∈
      invalidTwoSeven := by
  decide

/-! ## The deletion mask (C32) -/

/-- The macro `TREE_IS_DELETED` reads the bit of the index. -/
theorem TREE_IS_DELETED_testBit (m j : Nat) : TREE_IS_DELETED m j = m.testBit j := by
  unfold TREE_IS_DELETED
  rw [Nat.one_shiftLeft, Nat.two_pow_and]
  cases h : m.testBit j <;> simp

/-- C32: on masks of 26 bits and indices below 26 the macros are set insertion and
membership: `TREE_IS_DELETED(TREE_DELETE(m, i), j)` holds iff `j = i` or
`TREE_IS_DELETED(m, j)`; deleting `i` twice equals deleting it once; two deletions
give the same mask in either order; a bit that is set stays set; and the new mask is
again a mask of 26 bits. -/
theorem TREE_DELETE_set_laws (m i j : Nat) (hm : m < 2 ^ MAX_QUERY_LENGTH)
    (hi : i < MAX_QUERY_LENGTH) (hj : j < MAX_QUERY_LENGTH) :
    (TREE_IS_DELETED (TREE_DELETE m i) j = true ↔ j = i ∨ TREE_IS_DELETED m j = true) ∧
    TREE_DELETE (TREE_DELETE m i) i = TREE_DELETE m i ∧
    TREE_DELETE (TREE_DELETE m i) j = TREE_DELETE (TREE_DELETE m j) i ∧
    (TREE_IS_DELETED m j = true → TREE_IS_DELETED (TREE_DELETE m i) j = true) ∧
    TREE_DELETE m i < 2 ^ MAX_QUERY_LENGTH ∧
    TREE_DELETE (TREE_DELETE m i) j < 2 ^ MAX_QUERY_LENGTH := by
  have hiff : TREE_IS_DELETED (TREE_DELETE m i) j = true ↔
      j = i ∨ TREE_IS_DELETED m j = true := by
    rw [TREE_IS_DELETED_testBit, TREE_IS_DELETED_testBit]
    unfold TREE_DELETE
    rw [Nat.testBit_or, Nat.one_shiftLeft, Nat.testBit_two_pow, Bool.or_eq_true,
      decide_eq_true_eq]
    constructor
    · rintro (h | h)
      · exact Or.inr h
      · exact Or.inl h.symm
    · rintro (h | h)
      · exact Or.inr h.symm
      · exact Or.inl h
  have hlt : ∀ (k : Nat), k < MAX_QUERY_LENGTH → ∀ (n : Nat), n < 2 ^ MAX_QUERY_LENGTH →
      TREE_DELETE n k < 2 ^ MAX_QUERY_LENGTH := by
    intro k hk n hn
    unfold TREE_DELETE
    apply Nat.or_lt_two_pow hn
    rw [Nat.one_shiftLeft]
    exact Nat.pow_lt_pow_right (by decide) hk
  refine ⟨hiff, ?_, ?_, ?_, hlt i hi m hm, hlt j hj _ (hlt i hi m hm)⟩
  · unfold TREE_DELETE
    rw [Nat.or_assoc, Nat.or_self]
  · unfold TREE_DELETE
    rw [Nat.or_assoc, Nat.or_comm (1 <<< i), ← Nat.or_assoc]
  · intro h
    exact hiff.mpr (Or.inr h)

/-- Witness of C32: the mask 5 (the positions 0 and 2), with the position 3 deleted
and the position 2 asked for. -/
theorem TREE_DELETE_set_laws_witness :
    5 < 2 ^ MAX_QUERY_LENGTH ∧ 3 < MAX_QUERY_LENGTH ∧ 2 < MAX_QUERY_LENGTH ∧
    TREE_DELETE 5 3 = 13 ∧
    ((TREE_IS_DELETED (TREE_DELETE 5 3) 2 = true ↔ 2 = 3 ∨ TREE_IS_DELETED 5 2 = true) ∧
    TREE_DELETE (TREE_DELETE 5 3) 3 = TREE_DELETE 5 3 ∧
    TREE_DELETE (TREE_DELETE 5 3) 2 = TREE_DELETE (TREE_DELETE 5 2) 3 ∧
    (TREE_IS_DELETED 5 2 = true → TREE_IS_DELETED (TREE_DELETE 5 3) 2 = true) ∧
    TREE_DELETE 5 3 < 2 ^ MAX_QUERY_LENGTH ∧
    TREE_DELETE (TREE_DELETE 5 3) 2 < 2 ^ MAX_QUERY_LENGTH) :=
  ⟨by decide, by decide, by decide, by decide,
    TREE_DELETE_set_laws 5 3 2 (by decide) (by decide) (by decide)⟩

/-! ## Copies of a path (C33) -/

/-- The operator `==` holds between a path and itself. -/
theorem Path.eqOp_self (p : Path) : Path.eqOp p p = true := by
  unfold Path.eqOp
  simp

/-- The operator `==` holds between two paths only if they are the same value. -/
theorem Path.eq_of_eqOp (p q : Path) (h : Path.eqOp p q = true) : p = q := by
  unfold Path.eqOp at h
  by_cases hm : (p.id == q.id && p.sourceId == q.sourceId &&
      p.edgeType == q.edgeType && p.factLength == q.factLength) = true
  · have hm2 := hm
    simp only [Bool.and_eq_true, beq_iff_eq] at hm2
    obtain ⟨⟨⟨a1, a2⟩, a3⟩, a4⟩ := hm2
    simp only [hm, Bool.not_true, Bool.false_eq_true, if_false, List.all_eq_true,
      List.mem_range, beq_iff_eq] at h
    cases p with
    | mk pid psrc pty pfact =>
      cases q with
      | mk qid qsrc qty qfact =>
        simp only [Path.factLength] at a1 a2 a3 a4 h
        have hfact : pfact = qfact := list_eq_of_getD pfact qfact a4 h
        simp [a1, a2, a3, hfact]
  · have hm3 : (p.id == q.id && p.sourceId == q.sourceId &&
        p.edgeType == q.edgeType && p.factLength == q.factLength) = false := by
      simpa using hm
    simp [hm3] at h

/-- The assignment `a = p` leaves in `a` the value of `p`. -/
theorem Path.assign_eq (a p : Path) : Path.assign a p = p := by
  cases p
  simp [Path.assign, Path.factLength, copyWords_self]

/-- C33: copying a path preserves equality.  For every path `p` the copy `Path(p)`
satisfies `Path(p) == p`, in both directions; after the assignment `a = p`,
`a == p` holds; and `operator==` is reflexive and symmetric on all paths. -/
theorem Path_copy_eqOp (p q a : Path) :
    Path.eqOp (Path.copy p) p = true ∧ Path.eqOp p (Path.copy p) = true ∧
    Path.eqOp (Path.assign a p) p = true ∧
    Path.eqOp p p = true ∧
    Path.eqOp p q = Path.eqOp q p := by
  refine ⟨?_, ?_, ?_, Path.eqOp_self p, ?_⟩
  · rw [Path.copy_eq]
    exact Path.eqOp_self p
  · rw [Path.copy_eq]
    exact Path.eqOp_self p
  · rw [Path.assign_eq]
    exact Path.eqOp_self p
  · cases hpq : Path.eqOp p q with
    | true =>
      have h := Path.eq_of_eqOp p q hpq
      subst h
      exact hpq.symm
    | false =>
      cases hqp : Path.eqOp q p with
      | false => rfl
      | true =>
        have h := Path.eq_of_eqOp q p hqp
        subst h
        rw [hqp] at hpq
        exact absurd hpq (by decide)

/-- The copy and the assignment on a path of two words, field by field. -/
theorem Path_copy_eqOp_example :
    Path.copy lemurAnimalPath = ⟨4, 3, 2, [LEMUR, ANIMAL]⟩ ∧
    Path.assign samePottoA lemurAnimalPath = ⟨4, 3, 2, [LEMUR, ANIMAL]⟩ ∧
    Path.eqOp (Path.copy lemurAnimalPath) lemurAnimalPath = true ∧
    Path.eqOp (Path.assign samePottoA lemurAnimalPath) lemurAnimalPath = true ∧
    Path.eqOp samePottoA lemurAnimalPath = false ∧
    Path.eqOp lemurAnimalPath samePottoA = false := by
  decide

/-! ## The packed edge (C34) -/

/-- The bit fields of a packed edge are read back from its 64 bits. -/
theorem dependency_edge.unpack_pack (e : dependency_edge) (hg : e.governor < 2 ^ 25)
    (hd : e.dependent < 2 ^ 25) (hr : e.relation < 2 ^ 6) (hp : e.placeholder < 2 ^ 8) :
    dependency_edge.unpack e.pack = e := by
  cases e with
  | mk g d r pl =>
    simp only at hg hd hr hp
    simp only [dependency_edge.unpack, dependency_edge.pack, dependency_edge.mk.injEq]
    refine ⟨?_, ?_, ?_, ?_⟩ <;> omega

/-- C34: for governor and dependent words below 2^25 and relations below 2^6,
`edgeInto` produces a packed edge whose fields are the governor, the dependent and
the relation, with placeholder 0; its 25 + 25 + 6 + 8 bits are a 64-bit value from
which the fields are read back; and two such edges with the same 64 bits, or equal
as records, come from the same triple. -/
theorem edgeInto_injective (t1 t2 : Tree) (i1 i2 w1 w2 g1 g2 : Nat)
    (d1 d2 : dep_tree_word) (hd1 : t1.data[i1]? = some d1) (hd2 : t2.data[i2]? = some d2)
    (hg1 : g1 < 2 ^ 25) (hw1 : w1 < 2 ^ 25) (hr1 : d1.relation < 2 ^ 6)
    (hg2 : g2 < 2 ^ 25) (hw2 : w2 < 2 ^ 25) (hr2 : d2.relation < 2 ^ 6) :
    ∃ e1 e2, t1.edgeInto i1 w1 g1 = some e1 ∧ t2.edgeInto i2 w2 g2 = some e2 ∧
      e1.governor = g1 ∧ e1.dependent = w1 ∧ e1.relation = d1.relation ∧
      e1.placeholder = 0 ∧
      e1.pack < 2 ^ 64 ∧ e1.pack < 2 ^ (25 + 25 + 6) ∧
      dependency_edge.unpack e1.pack = e1 ∧
      (e1.pack = e2.pack → g1 = g2 ∧ d1.relation = d2.relation ∧ w1 = w2) ∧
      (e1 = e2 → g1 = g2 ∧ d1.relation = d2.relation ∧ w1 = w2) := by
  have hm1 : g1 % 2 ^ 25 = g1 := Nat.mod_eq_of_lt hg1
  have hm2 : w1 % 2 ^ 25 = w1 := Nat.mod_eq_of_lt hw1
  have hm3 : d1.relation % 2 ^ 6 = d1.relation := Nat.mod_eq_of_lt hr1
  have hn1 : g2 % 2 ^ 25 = g2 := Nat.mod_eq_of_lt hg2
  have hn2 : w2 % 2 ^ 25 = w2 := Nat.mod_eq_of_lt hw2
  have hn3 : d2.relation % 2 ^ 6 = d2.relation := Nat.mod_eq_of_lt hr2
  refine ⟨{ placeholder := 0, governor := g1, dependent := w1, relation := d1.relation },
    { placeholder := 0, governor := g2, dependent := w2, relation := d2.relation },
    ?_, ?_, rfl, rfl, rfl, rfl, ?_, ?_, ?_, ?_, ?_⟩
  · simp only [Tree.edgeInto, hd1, hm1, hm2, hm3, Nat.zero_mod]
  · simp only [Tree.edgeInto, hd2, hn1, hn2, hn3, Nat.zero_mod]
  · simp only [dependency_edge.pack]
    omega
  · simp only [dependency_edge.pack]
    omega
  · exact dependency_edge.unpack_pack _ hg1 hw1 hr1 (show (0 : Nat) < 2 ^ 8 by decide)
  · intro h
    simp only [dependency_edge.pack] at h
    omega
  · intro h
    simp only [dependency_edge.mk.injEq] at h
    exact ⟨h.1, h.2.2.1, h.2.1⟩

/-- Witness of C34: the edge into node 1 of `twoNodeTree` (governor word 7,
dependent word 9, relation 3) against the edge into its root (governor word 0,
dependent word 7, relation 1). -/
theorem edgeInto_injective_witness :
    twoNodeTree.data[1]? = some { word := ⟨9, 0, 0⟩, governor := 0, relation := 3 } ∧
    twoNodeTree.data[0]? = some { word := ⟨7, 0, 0⟩, governor := 63, relation := 1 } ∧
    twoNodeTree.edgeInto 1 9 7 =
      some { governor := 7, dependent := 9, relation := 3, placeholder := 0 } ∧
    dependency_edge.pack { governor := 7, dependent := 9, relation := 3, placeholder := 0 } =
      7 + 2 ^ 25 * 9 + 2 ^ 50 * 3 ∧
    ∃ e1 e2, twoNodeTree.edgeInto 1 9 7 = some e1 ∧ twoNodeTree.edgeInto 0 7 0 = some e2 ∧
      e1.governor = 7 ∧ e1.dependent = 9 ∧ e1.relation = 3 ∧
      e1.placeholder = 0 ∧
      e1.pack < 2 ^ 64 ∧ e1.pack < 2 ^ (25 + 25 + 6) ∧
      dependency_edge.unpack e1.pack = e1 ∧
      (e1.pack = e2.pack → 7 = 0 ∧ 3 = 1 ∧ 9 = 7) ∧
      (e1 = e2 → 7 = 0 ∧ 3 = 1 ∧ 9 = 7) :=
  ⟨rfl, rfl, by decide, by decide,
    edgeInto_injective twoNodeTree twoNodeTree 1 0 9 7 7 0
      { word := ⟨9, 0, 0⟩, governor := 0, relation := 3 }
      { word := ⟨7, 0, 0⟩, governor := 63, relation := 1 } rfl rfl
      (by decide) (by decide) (by decide) (by decide) (by decide) (by decide)⟩

/-- The bounds matter: a governor word of 2^25 does not fit the field of 25 bits, and
`edgeInto` packs it as the governor word 0. -/
theorem edgeInto_truncates :
    twoNodeTree.edgeInto 1 9 (2 ^ 25) = twoNodeTree.edgeInto 1 9 0 := by
  decide

end NaturalLI
